import Mathlib

/-!
ChakraCore parser: the per-identifier scope binding stack of `lib/Parser/Hash.h`.

A shallow embedding of `struct PidRefStack` and of the binding-stack methods of
`struct Ident`, followed by theorems about them.

Memory model.  `PidRefStack` objects live in an arena.  The arena is a list of
objects, an address is an index into that list, and a C++ pointer is an
`Option Nat` (`none` is `nullptr`).  `Anew` places the new object at the first
unused address.  Scope ids are C++ `int`s that are only ever compared, so they
are mathematical integers here.  `Assert` is a debug-build check; the flag `dbg`
says whether the build evaluates assertions.
-/

namespace ChakraHash

/-- Ways in which a call can fail to return normally. -/
inductive Fault where
  | badPointer
  | assertFailed
  | diverged
deriving DecidableEq, Repr

/-- The struct `PidRefStack` (Hash.h lines 63-86); `sym` and `prev` are pointers. -/
structure PidRefStack where
  isDynamic : Bool
  isModuleExport : Bool
  id : Int
  sym : Option Nat
  prev : Option Nat
deriving DecidableEq, Repr

/-- The constructor `PidRefStack(int id)`. -/
def PidRefStack.ctor (id : Int) : PidRefStack :=
  { isDynamic := false, isModuleExport := false, id := id, sym := none, prev := none }

/-- The getter `GetScopeId`. -/
def PidRefStack.GetScopeId (r : PidRefStack) : Int := r.id

/-- The getter `GetSym`. -/
def PidRefStack.GetSym (r : PidRefStack) : Option Nat := r.sym

/-- The setter `SetSym`. -/
def PidRefStack.SetSym (r : PidRefStack) (sym : Option Nat) : PidRefStack := { r with sym := sym }

/-- The getter `IsDynamicBinding`. -/
def PidRefStack.IsDynamicBinding (r : PidRefStack) : Bool := r.isDynamic

/-- The setter `SetDynamicBinding`. -/
def PidRefStack.SetDynamicBinding (r : PidRefStack) : PidRefStack := { r with isDynamic := true }

/-- The getter `IsModuleExport`. -/
def PidRefStack.IsModuleExport (r : PidRefStack) : Bool := r.isModuleExport

/-- The setter `SetModuleExport`. -/
def PidRefStack.SetModuleExport (r : PidRefStack) : PidRefStack := { r with isModuleExport := true }

/-- The enum `AssignmentState`. -/
inductive AssignmentState where
  | NotAssigned
  | AssignedOnce
  | AssignedMultipleTimes
deriving DecidableEq, Repr

/-- The data members of `struct Ident` (Hash.h lines 99-110). -/
structure Ident where
  m_pidNext : Option Nat
  m_pidRefStack : Option Nat
  m_tk : Nat
  m_grfid : Nat
  m_luHash : Nat
  m_cch : Nat
  m_propertyId : Int
  assignmentState : AssignmentState
  m_sz : List Nat
deriving DecidableEq, Repr

/-- One identifier record together with the arena that holds its `PidRefStack` objects. -/
structure Mem where
  arena : List PidRefStack
  pid : Ident
deriving DecidableEq, Repr

/-- Read `p->prev` from the arena. -/
def loadPrev (arena : List PidRefStack) (p : Nat) : Except Fault (Option Nat) :=
  match arena[p]? with
  | none => .error .badPointer
  | some r => .ok r.prev

/-- Write `p->prev = v` into the arena. -/
def storePrev (arena : List PidRefStack) (p : Nat) (v : Option Nat) :
    Except Fault (List PidRefStack) :=
  match arena[p]? with
  | none => .error .badPointer
  | some r => .ok (arena.set p { r with prev := v })

/-- Apply one of the field setters of `PidRefStack` to the object at address `p`. -/
def onRef (m : Mem) (p : Nat) (f : PidRefStack → PidRefStack) : Except Fault Mem :=
  match m.arena[p]? with
  | none => .error .badPointer
  | some r => .ok { m with arena := m.arena.set p (f r) }

/-- The accessor `Ident::GetTopRef`. -/
def GetTopRef (m : Mem) : Option Nat := m.pid.m_pidRefStack

/-- The `for` loop of `Ident::GetPidRefForScopeId` (Hash.h lines 152-163), with `fuel`
bounding the number of iterations. -/
def GetPidRefForScopeId.loop (arena : List PidRefStack) (scopeId : Int) :
    Nat → Option Nat → Except Fault (Option Nat)
  | _, none => .ok none
  | 0, some _ => .error .diverged
  | fuel + 1, some ref =>
    match arena[ref]? with
    | none => .error .badPointer
    | some r =>
      let refId := r.GetScopeId
      if refId = scopeId then .ok (some ref)
      else if refId < scopeId then .ok none
      else GetPidRefForScopeId.loop arena scopeId fuel r.prev

/-- The method `Ident::GetPidRefForScopeId` (Hash.h lines 149-165).  It has no output
state because the C++ body performs no write. -/
def GetPidRefForScopeId (m : Mem) (scopeId : Int) : Except Fault (Option Nat) :=
  GetPidRefForScopeId.loop m.arena scopeId m.arena.length m.pid.m_pidRefStack

/-- The method `Ident::RemovePrevPidRef` (Hash.h lines 175-191).  `Assert(prevRef)` fails
in a debug build; a release build goes on to dereference the null pointer. -/
def RemovePrevPidRef (dbg : Bool) (m : Mem) (ref : Option Nat) :
    Except Fault (Mem × Option Nat) :=
  match ref with
  | none =>
    match m.pid.m_pidRefStack with
    | none => .error (if dbg then .assertFailed else .badPointer)
    | some prevRef =>
      match m.arena[prevRef]? with
      | none => .error .badPointer
      | some e => .ok ({ m with pid := { m.pid with m_pidRefStack := e.prev } }, some prevRef)
  | some ref =>
    match m.arena[ref]? with
    | none => .error .badPointer
    | some r =>
      match r.prev with
      | none => .error (if dbg then .assertFailed else .badPointer)
      | some prevRef =>
        match m.arena[prevRef]? with
        | none => .error .badPointer
        | some e => .ok ({ m with arena := m.arena.set ref { r with prev := e.prev } }, some prevRef)

/-- The block of `Ident::FindOrAddPidRef` that creates and links a new entry
(Hash.h lines 222-252), entered with `ref` (whose object is `r`) and `prevRef`.
`alloc` says whether `Anew` can satisfy the request. -/
def FindOrAddPidRef.insert (m : Mem) (alloc : Bool) (scopeId : Int)
    (ref : Nat) (r : PidRefStack) (prevRef : Option Nat) : Except Fault (Mem × Option Nat) :=
  if alloc = false then .ok (m, none)
  else
    let newRef := m.arena.length
    let arena1 := m.arena ++ [PidRefStack.ctor scopeId]
    if r.id < scopeId then
      match prevRef with
      | some p =>
        match loadPrev arena1 p with
        | .error e => .error e
        | .ok v =>
          match storePrev arena1 newRef v with
          | .error e => .error e
          | .ok arena2 =>
            match storePrev arena2 p (some newRef) with
            | .error e => .error e
            | .ok arena3 => .ok ({ m with arena := arena3 }, some newRef)
      | none =>
        match storePrev arena1 newRef m.pid.m_pidRefStack with
        | .error e => .error e
        | .ok arena2 =>
          .ok ({ arena := arena2, pid := { m.pid with m_pidRefStack := some newRef } },
               some newRef)
    else
      match loadPrev arena1 ref with
      | .error e => .error e
      | .ok v =>
        match storePrev arena1 newRef v with
        | .error e => .error e
        | .ok arena2 =>
          match storePrev arena2 ref (some newRef) with
          | .error e => .error e
          | .ok arena3 => .ok ({ m with arena := arena3 }, some newRef)

/-- The statement `Assert(ref->prev->id <= ref->id)` (Hash.h line 255): evaluated only
when `dbg` is set. -/
def FindOrAddPidRef.assertOrder (dbg : Bool) (arena : List PidRefStack) (r : PidRefStack)
    (next : Nat) : Except Fault Unit :=
  if dbg = false then .ok ()
  else
    match arena[next]? with
    | none => .error .badPointer
    | some n => if n.id ≤ r.id then .ok () else .error .assertFailed

/-- The `while (1)` loop of `Ident::FindOrAddPidRef` (Hash.h lines 212-258), with `fuel`
bounding the number of iterations. -/
def FindOrAddPidRef.loop (dbg : Bool) (m : Mem) (alloc : Bool) (scopeId : Int) :
    Nat → Nat → Option Nat → Except Fault (Mem × Option Nat)
  | 0, _, _ => .error .diverged
  | fuel + 1, ref, prevRef =>
    match m.arena[ref]? with
    | none => .error .badPointer
    | some r =>
      if r.id = scopeId then .ok (m, some ref)
      else if r.prev = none ∨ r.id < scopeId then
        FindOrAddPidRef.insert m alloc scopeId ref r prevRef
      else
        match r.prev with
        | none => .error .badPointer
        | some next =>
          match FindOrAddPidRef.assertOrder dbg m.arena r next with
          | .error e => .error e
          | .ok _ => FindOrAddPidRef.loop dbg m alloc scopeId fuel next (some ref)

/-- The method `Ident::FindOrAddPidRef` (Hash.h lines 193-259). -/
def FindOrAddPidRef (dbg : Bool) (m : Mem) (alloc : Bool) (scopeId : Int) :
    Except Fault (Mem × Option Nat) :=
  match m.pid.m_pidRefStack with
  | none =>
    if alloc = false then .ok (m, none)
    else
      let newRef := m.arena.length
      let arena1 := m.arena ++ [PidRefStack.ctor scopeId]
      match storePrev arena1 newRef m.pid.m_pidRefStack with
      | .error e => .error e
      | .ok arena2 =>
        .ok ({ arena := arena2, pid := { m.pid with m_pidRefStack := some newRef } },
             some newRef)
  | some head => FindOrAddPidRef.loop dbg m alloc scopeId m.arena.length head none

/-- The scope id stored at address `a` (zero when `a` is not an address of the arena). -/
def idAt (arena : List PidRefStack) (a : Nat) : Int :=
  match arena[a]? with
  | some r => r.id
  | none => 0

/-- The addresses met when following `prev` links from `p` down to `nullptr`, head first;
`none` when a link leaves the arena or no `nullptr` is met within `fuel` links. -/
def chainFrom (arena : List PidRefStack) : Nat → Option Nat → Option (List Nat)
  | _, none => some []
  | 0, some _ => none
  | fuel + 1, some a =>
    match arena[a]? with
    | none => none
    | some r =>
      match chainFrom arena fuel r.prev with
      | none => none
      | some l => some (a :: l)

/-- The chain of an identifier record: the addresses of its entries from
`m_pidRefStack` downward. -/
def chainOf (m : Mem) : Option (List Nat) :=
  chainFrom m.arena m.arena.length m.pid.m_pidRefStack

/-- The scope ids of the entries at the addresses `l`. -/
def scopeIds (m : Mem) (l : List Nat) : List Int := l.map (idAt m.arena)

/-- A linked segment: following `prev` from `p` visits exactly the addresses `l` and then
arrives at `q`. -/
def Seg (arena : List PidRefStack) : Option Nat → List Nat → Option Nat → Prop
  | p, [], q => p = q
  | p, a :: l, q => p = some a ∧ ∃ r, arena[a]? = some r ∧ Seg arena r.prev l q

/-- The states an identifier record and its arena can be in: the record starts with an
empty chain (the arena may already hold objects of other records), and is then driven by
`FindOrAddPidRef` and `RemovePrevPidRef` calls, with the field setters of `PidRefStack`
applied to entries in between. -/
inductive Reachable : Mem → Prop where
  | fresh (arena : List PidRefStack) (pid : Ident) :
      pid.m_pidRefStack = none → Reachable { arena := arena, pid := pid }
  | findOrAdd {m m1 : Mem} (dbg alloc : Bool) (scopeId : Int) (res : Option Nat) :
      Reachable m → FindOrAddPidRef dbg m alloc scopeId = .ok (m1, res) → Reachable m1
  | removePrev {m m1 : Mem} (dbg : Bool) (ref res : Option Nat) :
      Reachable m → RemovePrevPidRef dbg m ref = .ok (m1, res) → Reachable m1
  | setSym {m m1 : Mem} (p : Nat) (sym : Option Nat) :
      Reachable m → onRef m p (fun r => r.SetSym sym) = .ok m1 → Reachable m1
  | setDynamicBinding {m m1 : Mem} (p : Nat) :
      Reachable m → onRef m p PidRefStack.SetDynamicBinding = .ok m1 → Reachable m1
  | setModuleExport {m m1 : Mem} (p : Nat) :
      Reachable m → onRef m p PidRefStack.SetModuleExport = .ok m1 → Reachable m1

/-- An identifier record that has just been interned: every field zero, no chain. -/
def Ident.fresh : Ident :=
  { m_pidNext := none, m_pidRefStack := none, m_tk := 0, m_grfid := 0, m_luHash := 0,
    m_cch := 0, m_propertyId := 0, assignmentState := .NotAssigned, m_sz := [] }

/-- A fresh record over an empty arena. -/
def Mem.fresh : Mem := { arena := [], pid := Ident.fresh }

/-! ## Proof vocabulary: the states produced by linking, and the invariant -/

/-- The memory after a new entry for `scopeId` has been linked behind the entry at `p`. -/
def linkAfter (m : Mem) (scopeId : Int) (p : Nat) (rp : PidRefStack) : Mem :=
  { m with arena := m.arena.set p { rp with prev := some m.arena.length } ++
      [{ PidRefStack.ctor scopeId with prev := rp.prev }] }

/-- The memory after a new entry for `scopeId` has been pushed at the head. -/
def linkHead (m : Mem) (scopeId : Int) : Mem :=
  { arena := m.arena ++ [{ PidRefStack.ctor scopeId with prev := m.pid.m_pidRefStack }],
    pid := { m.pid with m_pidRefStack := some m.arena.length } }

/-- The scope ids along `l` are strictly decreasing. -/
def Desc (arena : List PidRefStack) (l : List Nat) : Prop :=
  l.Pairwise (fun a b => idAt arena b < idAt arena a)

/-- The effect of linking a new entry for `scopeId` between the part `hi` and the part
`lo` of the chain of `m`, giving `m1`. -/
structure Inserted (m m1 : Mem) (scopeId : Int) (hi lo : List Nat) : Prop where
  chain : Seg m1.arena m1.pid.m_pidRefStack (hi ++ m.arena.length :: lo) none
  size : m1.arena.length = m.arena.length + 1
  new : m1.arena[m.arena.length]? = some { PidRefStack.ctor scopeId with prev := lo.head? }
  old : ∀ (a : Nat) (r : PidRefStack), m.arena[a]? = some r →
    ∃ r1 : PidRefStack, m1.arena[a]? = some r1 ∧ r1 = { r with prev := r1.prev }
  same : ∀ (a : Nat) (r : PidRefStack), m.arena[a]? = some r → hi.getLast? ≠ some a →
    m1.arena[a]? = some r
  pred : ∀ a : Nat, hi.getLast? = some a →
    ∃ r : PidRefStack, m.arena[a]? = some r ∧ m1.arena[a]? = some { r with prev := some m.arena.length }
  pid : m1.pid = { m.pid with m_pidRefStack := (hi ++ [m.arena.length]).head? }

/-- The invariant of the binding stack: the entries form a null-terminated chain whose
scope ids strictly decrease from the head. -/
def Inv (m : Mem) : Prop :=
  ∃ l, Seg m.arena m.pid.m_pidRefStack l none ∧ Desc m.arena l

/-- The memory obtained from `m` by calling `FindOrAddPidRef` (debug build, allocation
succeeding) for each scope id of `ids` in turn. -/
def build (ids : List Int) (m : Mem) : Mem :=
  ids.foldl (fun acc i =>
    match FindOrAddPidRef true acc true i with
    | .ok (m1, _) => m1
    | .error _ => acc) m

/-- The entry at which the `while (1)` loop of `Ident::FindOrAddPidRef` stops: the values of
`ref` and `prevRef` when the loop body reaches one of its `return` statements (Hash.h lines
215-253).  It repeats the tests of `FindOrAddPidRef.loop` and writes nothing. -/
def FindOrAddPidRef.walk (dbg : Bool) (arena : List PidRefStack) (scopeId : Int) :
    Nat → Nat → Option Nat → Except Fault (Nat × Option Nat)
  | 0, _, _ => .error .diverged
  | fuel + 1, ref, prevRef =>
    match arena[ref]? with
    | none => .error .badPointer
    | some r =>
      if r.id = scopeId then .ok (ref, prevRef)
      else if r.prev = none ∨ r.id < scopeId then .ok (ref, prevRef)
      else
        match r.prev with
        | none => .error .badPointer
        | some next =>
          match FindOrAddPidRef.assertOrder dbg arena r next with
          | .error e => .error e
          | .ok _ => FindOrAddPidRef.walk dbg arena scopeId fuel next (some ref)

/-- What `FindOrAddPidRef.loop` does once its walk has stopped at `ref` with `prevRef`:
return the entry when it carries `scopeId`, create and link a new entry otherwise. -/
def FindOrAddPidRef.finish (m : Mem) (alloc : Bool) (scopeId : Int) (ref : Nat)
    (prevRef : Option Nat) : Except Fault (Mem × Option Nat) :=
  match m.arena[ref]? with
  | none => .error .badPointer
  | some r =>
    if r.id = scopeId then .ok (m, some ref)
    else FindOrAddPidRef.insert m alloc scopeId ref r prevRef

/-- The method `Ident::SetTopRef` (Hash.h lines 127-130). -/
def SetTopRef (m : Mem) (ref : Option Nat) : Mem :=
  { m with pid := { m.pid with m_pidRefStack := ref } }

/-- The method `Ident::PushPidRef` (Hash.h lines 167-173).  `AssertMsg(blockId >= 0, ...)`
is evaluated in a debug build only; `newRef` is dereferenced without a null test. -/
def PushPidRef (dbg : Bool) (m : Mem) (blockId : Int) (newRef : Option Nat) :
    Except Fault Mem :=
  if dbg = true ∧ ¬ (blockId ≥ 0) then .error .assertFailed
  else
    match newRef with
    | none => .error .badPointer
    | some p =>
      match m.arena[p]? with
      | none => .error .badPointer
      | some r =>
        .ok { arena := m.arena.set p { r with id := blockId, prev := m.pid.m_pidRefStack },
              pid := { m.pid with m_pidRefStack := some p } }

/-- The numeric value of an `AssignmentState` enumerator. -/
def AssignmentState.toNat : AssignmentState → Nat
  | .NotAssigned => 0
  | .AssignedOnce => 1
  | .AssignedMultipleTimes => 2

/-- The method `Ident::PromoteAssignmentState` (Hash.h lines 132-142). -/
def Ident.PromoteAssignmentState (pid : Ident) : Ident :=
  if pid.assignmentState = .NotAssigned then
    { pid with assignmentState := .AssignedOnce }
  else if pid.assignmentState = .AssignedOnce then
    { pid with assignmentState := .AssignedMultipleTimes }
  else pid

/-- The method `Ident::IsSingleAssignment` (Hash.h lines 144-147). -/
def Ident.IsSingleAssignment (pid : Ident) : Bool :=
  decide (pid.assignmentState = .AssignedOnce)

/-- The method `Ident::GetPropertyId`. -/
def Ident.GetPropertyId (pid : Ident) : Int := pid.m_propertyId

/-- The method `Ident::SetPropertyId`. -/
def Ident.SetPropertyId (pid : Ident) (id : Int) : Ident := { pid with m_propertyId := id }

/-- The enumerator `fidNil` (Hash.h line 18). -/
def fidNil : Nat := 0x0000

/-- The enumerator `fidKwdRsvd` (Hash.h line 19). -/
def fidKwdRsvd : Nat := 0x0001

/-- The enumerator `fidKwdFutRsvd` (Hash.h line 20). -/
def fidKwdFutRsvd : Nat := 0x0002

/-- The enumerator `fidEval` (Hash.h line 23). -/
def fidEval : Nat := 0x0008

/-- The enumerator `fidLetOrConst` (Hash.h line 25). -/
def fidLetOrConst : Nat := 0x0010

/-- The enumerator `fidGlobalDcl` (Hash.h line 31). -/
def fidGlobalDcl : Nat := 0x2000

/-- The enumerator `fidUsed` (Hash.h line 33). -/
def fidUsed : Nat := 0x4000

/-- The method `Ident::SetIsEval` (Hash.h line 264): `m_grfid |= fidEval` on a 16-bit
`ushort`. -/
def Ident.SetIsEval (pid : Ident) : Ident :=
  { pid with m_grfid := (pid.m_grfid ||| fidEval) % 2 ^ 16 }

/-- The method `Ident::GetIsEval` (Hash.h line 265).  The result is a `BOOL`, an integer
that counts as true when it is not zero. -/
def Ident.GetIsEval (pid : Ident) : Nat := pid.m_grfid &&& fidEval

/-- The method `Ident::SetIsLetOrConst` (Hash.h line 267): `m_grfid |= fidLetOrConst` on a
16-bit `ushort`. -/
def Ident.SetIsLetOrConst (pid : Ident) : Ident :=
  { pid with m_grfid := (pid.m_grfid ||| fidLetOrConst) % 2 ^ 16 }

/-- The method `Ident::GetIsLetOrConst` (Hash.h line 268).  The result is a `BOOL`, an
integer that counts as true when it is not zero. -/
def Ident.GetIsLetOrConst (pid : Ident) : Nat := pid.m_grfid &&& fidLetOrConst

/-- One call, returning normally, of a method of `Ident` whose body is in Hash.h and that
can write to the record: the two flag setters, `PromoteAssignmentState`, `SetTopRef`,
`SetPropertyId`, `PushPidRef`, `RemovePrevPidRef` and `FindOrAddPidRef`. -/
inductive RecordOp : Mem → Mem → Prop where
  | setIsEval (m : Mem) : RecordOp m { m with pid := m.pid.SetIsEval }
  | setIsLetOrConst (m : Mem) : RecordOp m { m with pid := m.pid.SetIsLetOrConst }
  | promoteAssignmentState (m : Mem) :
      RecordOp m { m with pid := m.pid.PromoteAssignmentState }
  | setTopRef (m : Mem) (ref : Option Nat) : RecordOp m (SetTopRef m ref)
  | setPropertyId (m : Mem) (id : Int) : RecordOp m { m with pid := m.pid.SetPropertyId id }
  | pushPidRef {m m1 : Mem} (dbg : Bool) (blockId : Int) (newRef : Option Nat) :
      PushPidRef dbg m blockId newRef = .ok m1 → RecordOp m m1
  | removePrevPidRef {m m1 : Mem} (dbg : Bool) (ref res : Option Nat) :
      RemovePrevPidRef dbg m ref = .ok (m1, res) → RecordOp m m1
  | findOrAddPidRef {m m1 : Mem} (dbg alloc : Bool) (scopeId : Int) (res : Option Nat) :
      FindOrAddPidRef dbg m alloc scopeId = .ok (m1, res) → RecordOp m m1

/-- The loop of the narrow overload of `HashTbl::CharsAreEqual` (Hash.h lines 377-385),
`n` being the number of iterations `cch2` still allows.  `psz1` holds 16-bit `OLECHAR`
code units; `psz2` holds `char`s, given by the integer value each has after promotion
(negative where `char` is signed and the byte is 0x80 or above).  Reading past the end of
a buffer is a fault. -/
def HashTbl.CharsAreEqualChar.loop : Nat → List Nat → List Int → Except Fault Bool
  | 0, _, _ => .ok true
  | n + 1, c1 :: psz1, c2 :: psz2 =>
    if (c1 : Int) ≠ c2 then .ok false
    else HashTbl.CharsAreEqualChar.loop n psz1 psz2
  | _ + 1, _, _ => .error .badPointer

/-- The narrow overload `HashTbl::CharsAreEqual(LPCOLESTR, char const *, long)` (Hash.h
lines 377-385).  `while (cch2-- > 0)` runs `cch2` times for a positive `cch2` and not at all
otherwise. -/
def HashTbl.CharsAreEqualChar (psz1 : List Nat) (psz2 : List Int) (cch2 : Int) :
    Except Fault Bool :=
  HashTbl.CharsAreEqualChar.loop cch2.toNat psz1 psz2

/-- The loop of the narrow overload of `HashTbl::CopyString` (Hash.h lines 397-398): the
buffer `dst` is written from index `i` on, each `char` being converted to a 16-bit
`OLECHAR` (its value modulo `2 ^ 16`). -/
def HashTbl.CopyStringChar.loop : Nat → List Nat → Nat → List Int →
    Except Fault (List Nat × Nat)
  | 0, dst, i, _ => .ok (dst, i)
  | n + 1, dst, i, c :: psz2 =>
    if i < dst.length then
      HashTbl.CopyStringChar.loop n (dst.set i (c % 2 ^ 16).toNat) (i + 1) psz2
    else .error .badPointer
  | _ + 1, _, _, [] => .error .badPointer

/-- The narrow overload `HashTbl::CopyString(LPOLESTR, char const *, long)` (Hash.h lines
395-400); the result is the buffer `psz1` after the call. -/
def HashTbl.CopyStringChar (psz1 : List Nat) (psz2 : List Int) (cch : Int) :
    Except Fault (List Nat) :=
  match HashTbl.CopyStringChar.loop cch.toNat psz1 0 psz2 with
  | .error e => .error e
  | .ok (dst, i) => if i < dst.length then .ok (dst.set i 0) else .error .badPointer

/-- The wide overload `HashTbl::CharsAreEqual(LPCOLESTR, LPCOLESTR, long)` (Hash.h lines
369-372): `memcmp` over the first `cch2` code units, which must lie inside both buffers. -/
def HashTbl.CharsAreEqualOle (psz1 psz2 : List Nat) (cch2 : Int) : Except Fault Bool :=
  if 0 ≤ cch2 ∧ cch2.toNat ≤ psz1.length ∧ cch2.toNat ≤ psz2.length then
    .ok (decide (psz1.take cch2.toNat = psz2.take cch2.toNat))
  else .error .badPointer

/-- Modelled from the spec: the copy helper `js_memcpy_s(dst, sizeInBytes, src, count)`,
whose body is not among the sources.  Sizes are counted in code units here; it is taken to
copy `count` units from `src` to the start of `dst` as `memcpy` does, and to fault when
`count` exceeds the stated size or either buffer. -/
def js_memcpy_s (dst : List Nat) (size : Nat) (src : List Nat) (count : Nat) :
    Except Fault (List Nat) :=
  if count ≤ size ∧ count ≤ dst.length ∧ count ≤ src.length then
    .ok (src.take count ++ dst.drop count)
  else .error .badPointer

/-- The wide overload `HashTbl::CopyString(LPOLESTR, LPCOLESTR, long)` (Hash.h lines
386-390): `js_memcpy_s` copies `cch` code units into `psz1`, then `psz1[cch] = 0`; the
result is the buffer `psz1` after the call.  A negative `cch` turns into a huge unsigned
size and faults. -/
def HashTbl.CopyStringOle (psz1 psz2 : List Nat) (cch : Int) : Except Fault (List Nat) :=
  if cch < 0 then .error .badPointer
  else
    match js_memcpy_s psz1 cch.toNat psz2 cch.toNat with
    | .error e => .error e
    | .ok dst =>
      if cch.toNat < dst.length then .ok (dst.set cch.toNat 0) else .error .badPointer

/-- Modelled from the spec: the identifier table of spec sections 3 and 4.1 (`class
HashTbl`; the bodies of `PidHashNameLen`, `FindExistingPid`, `Grow` and `Create` are not
among the sources).  The table owns its identifier records: `pids` is that storage and an
identifier reference is an index into it.  `buckets` is the bucket array, each bucket
listing the records of its chain in scan order; `m_luMask` is the hash mask and `m_luCount`
the live-entry count. -/
structure HashTbl where
  pids : List Ident
  buckets : List (List Nat)
  m_luMask : Nat
  m_luCount : Nat
deriving DecidableEq, Repr

/-- The constant `HashTbl::BucketLengthLimit` (Hash.h line 360). -/
def HashTbl.BucketLengthLimit : Nat := 5

/-- The constant `HashTbl::GrowFactor` (Hash.h line 363). -/
def HashTbl.GrowFactor : Nat := 4

/-- Modelled from the spec: a new table, with a bucket array of `2 ^ bits` empty buckets
(its length is a power of two), mask = length - 1 and no entries. -/
def HashTbl.Create (bits : Nat) : HashTbl :=
  { pids := [], buckets := List.replicate (2 ^ bits) [], m_luMask := 2 ^ bits - 1,
    m_luCount := 0 }

/-- The character type a call of the templates `PidHashNameLen`, `PidHashNameLenWithHash`
and `FindExistingPid` is instantiated with, given by the two overloads that overload
resolution then picks: `HashTbl::CharsAreEqual` and `HashTbl::CopyString`, both with an
`OLECHAR` buffer as first argument and characters of the type as second. -/
structure CharType (α : Type) where
  CharsAreEqual : List Nat → List α → Int → Except Fault Bool
  CopyString : List Nat → List α → Int → Except Fault (List Nat)

/-- The wide character type `OLECHAR`: the overloads of Hash.h lines 369-372 and 386-390. -/
def CharType.ole : CharType Nat :=
  { CharsAreEqual := HashTbl.CharsAreEqualOle, CopyString := HashTbl.CopyStringOle }

/-- The narrow character type `char`: the overloads of Hash.h lines 377-385 and 395-400. -/
def CharType.char : CharType Int :=
  { CharsAreEqual := HashTbl.CharsAreEqualChar, CopyString := HashTbl.CopyStringChar }

/-- The spelling of an identifier record: the first `m_cch` code units of `m_sz` (the
buffer `m_sz` holds one more unit, the terminating null). -/
def Ident.spelling (pid : Ident) : List Nat := pid.m_sz.take pid.m_cch

/-- Modelled from the spec: the scan of one bucket chain by `FindExistingPid` (section 4.1:
"comparing by exact length then byte/codepoint equality").  A record matches when its
length `m_cch` is `cch` and the `CharsAreEqual` overload of the character type finds its
spelling `m_sz` equal to the first `cch` characters of `prgch`. -/
def HashTbl.FindExistingPid.scan {α : Type} (ct : CharType α) (pids : List Ident)
    (prgch : List α) (cch : Nat) : List Nat → Except Fault (Option Nat)
  | [] => .ok none
  | pid :: chain =>
    match pids[pid]? with
    | none => .error .badPointer
    | some r =>
      if r.m_cch = cch then
        match ct.CharsAreEqual r.m_sz prgch cch with
        | .error e => .error e
        | .ok true => .ok (some pid)
        | .ok false => HashTbl.FindExistingPid.scan ct pids prgch cch chain
      else HashTbl.FindExistingPid.scan ct pids prgch cch chain

/-- Modelled from the spec: the lookup half of `intern` (section 4.1), the template
`HashTbl::FindExistingPid` declared at Hash.h lines 321-331: take the bucket `hash & mask`
and scan its chain. -/
def HashTbl.FindExistingPid {α : Type} (ct : CharType α) (t : HashTbl) (prgch : List α)
    (cch : Nat) (luHash : Nat) : Except Fault (Option Nat) :=
  HashTbl.FindExistingPid.scan ct t.pids prgch cch
    (t.buckets.getD (luHash &&& t.m_luMask) [])

/-- Modelled from the spec: growth (section 4.1): the bucket array becomes `GrowFactor`
times as long and every existing record is rehashed into it; the records themselves are
not touched. -/
def HashTbl.Grow (t : HashTbl) : HashTbl :=
  { t with
    buckets := (List.range (t.buckets.length * HashTbl.GrowFactor)).map (fun b =>
      (List.range t.pids.length).filter (fun i =>
        match t.pids[i]? with
        | some pid =>
          decide (pid.m_luHash &&& (t.buckets.length * HashTbl.GrowFactor - 1) = b)
        | none => false)),
    m_luMask := t.buckets.length * HashTbl.GrowFactor - 1 }

/-- Modelled from the spec: the identifier record that `intern` allocates on a miss: a new
record with the hash `luHash`, the length `cch` and the spelling buffer `sz`. -/
def HashTbl.newPid (luHash cch : Nat) (sz : List Nat) : Ident :=
  { Ident.fresh with m_luHash := luHash, m_cch := cch, m_sz := sz }

/-- Modelled from the spec: the miss half of `intern` (section 4.1): allocate a new record
with room for `cch` code units and the terminating null, copy the spelling into it with the
`CopyString` overload of the character type, link it into the bucket `hash & mask` and
increment the count.  The new record is the next free index of the record storage; the
buffer handed to `CopyString` has `cch + 1` code units, all of which the copy overwrites. -/
def HashTbl.Insert {α : Type} (ct : CharType α) (t : HashTbl) (prgch : List α) (cch : Nat)
    (luHash : Nat) : Except Fault HashTbl :=
  match ct.CopyString (List.replicate (cch + 1) 0) prgch cch with
  | .error e => .error e
  | .ok sz =>
    .ok { pids := t.pids ++ [HashTbl.newPid luHash cch sz],
          buckets := t.buckets.set (luHash &&& t.m_luMask)
            (t.buckets.getD (luHash &&& t.m_luMask) [] ++ [t.pids.length]),
          m_luMask := t.m_luMask,
          m_luCount := t.m_luCount + 1 }

/-- Modelled from the spec: `intern(spelling, length)` with the hash already computed, the
template `HashTbl::PidHashNameLenWithHash` declared at Hash.h lines 317-318 (section 4.1,
create-or-get).  The spelling is the first `cch` characters of `prgch`.  On a miss a new
record is allocated (`alloc` says whether the arena can), the spelling is copied into it, it
is linked into its bucket, the count is incremented and the growth policy is evaluated: the
table grows when the bucket's chain is longer than `BucketLengthLimit` and
`dense count bucketCount` holds (the load-factor test, left open by the spec, is a
parameter).  The result `.ok none` is the fatal allocation-failure outcome. -/
def HashTbl.PidHashNameLenWithHash {α : Type} (ct : CharType α) (dense : Nat → Nat → Bool)
    (alloc : Bool) (t : HashTbl) (prgch : List α) (cch : Nat) (luHash : Nat) :
    Except Fault (Option (HashTbl × Nat)) :=
  match t.FindExistingPid ct prgch cch luHash with
  | .error e => .error e
  | .ok (some pid) => .ok (some (t, pid))
  | .ok none =>
    if alloc = false then .ok none
    else
      match t.Insert ct prgch cch luHash with
      | .error e => .error e
      | .ok t1 =>
        if HashTbl.BucketLengthLimit < (t1.buckets.getD (luHash &&& t.m_luMask) []).length ∧
            dense t1.m_luCount t1.buckets.length = true
        then .ok (some (t1.Grow, t.pids.length))
        else .ok (some (t1, t.pids.length))

/-- Modelled from the spec: `intern(spelling, length)`, the template
`HashTbl::PidHashNameLen` declared at Hash.h lines 315-316: hash the spelling and intern it.
The hash function `hash` (`CaseSensitiveComputeHashCch`, defined outside the sources) is a
parameter. -/
def HashTbl.PidHashNameLen {α : Type} (ct : CharType α) (hash : List α → Nat)
    (dense : Nat → Nat → Bool) (alloc : Bool) (t : HashTbl) (psz : List α) (cch : Nat) :
    Except Fault (Option (HashTbl × Nat)) :=
  HashTbl.PidHashNameLenWithHash ct dense alloc t psz cch (hash (psz.take cch))

/-- The tables an identifier table can become through successful `intern` calls with wide
spellings. -/
inductive HashTbl.Evolves (hash : List Nat → Nat) (dense : Nat → Nat → Bool) :
    HashTbl → HashTbl → Prop where
  | refl (t : HashTbl) : HashTbl.Evolves hash dense t t
  | step {t t1 t2 : HashTbl} (alloc : Bool) (psz : List Nat) (cch : Nat) (r : Nat) :
      HashTbl.Evolves hash dense t t1 → cch ≤ psz.length →
      HashTbl.PidHashNameLen CharType.ole hash dense alloc t1 psz cch = .ok (some (t2, r)) →
      HashTbl.Evolves hash dense t t2

/-- The invariant of the identifier table: the bucket array has `mask + 1` buckets that
list records of the table only; every record sits in the bucket of its hash, carries the
hash of its spelling and has a buffer of `m_cch + 1` code units; and no two records share a
spelling. -/
structure HashTbl.WF (hash : List Nat → Nat) (t : HashTbl) : Prop where
  size : t.buckets.length = t.m_luMask + 1
  valid : ∀ (b i : Nat), i ∈ t.buckets.getD b [] → i < t.pids.length
  placed : ∀ (i : Nat) (pid : Ident), t.pids[i]? = some pid →
    i ∈ t.buckets.getD (pid.m_luHash &&& t.m_luMask) []
  hashed : ∀ (i : Nat) (pid : Ident), t.pids[i]? = some pid →
    pid.m_luHash = hash pid.spelling ∧ pid.m_sz.length = pid.m_cch + 1
  inj : ∀ (i j : Nat) (pi pj : Ident), t.pids[i]? = some pi → t.pids[j]? = some pj →
    pi.spelling = pj.spelling → i = j

/-- A small hash function for wide spellings, with which the table can be run on
examples. -/
def HashTbl.sumHash (s : List Nat) : Nat := s.sum

/-- The example load-factor test: the count exceeds 75% of the bucket count. -/
def HashTbl.dense75 (count bucketCount : Nat) : Bool := decide (3 * bucketCount < 4 * count)

/-- The table obtained from `t` by interning each wide spelling of `l` in turn, with the
example hash function and load-factor test and a succeeding allocation. -/
def HashTbl.after (l : List (List Nat)) (t : HashTbl) : HashTbl :=
  l.foldl (fun acc s =>
    match HashTbl.PidHashNameLen CharType.ole HashTbl.sumHash HashTbl.dense75 true acc s
        s.length with
    | .ok (some (t1, _)) => t1
    | _ => acc) t

/-! ## Linked segments -/

theorem Seg.nil_iff {arena : List PidRefStack} {p q : Option Nat} :
    Seg arena p [] q ↔ p = q := Iff.rfl

theorem Seg.cons_iff {arena : List PidRefStack} {a : Nat} {l : List Nat} {p q : Option Nat} :
    Seg arena p (a :: l) q ↔ p = some a ∧ ∃ r, arena[a]? = some r ∧ Seg arena r.prev l q :=
  Iff.rfl

theorem Seg.append_iff {arena : List PidRefStack} {l1 l2 : List Nat} {p q : Option Nat} :
    Seg arena p (l1 ++ l2) q ↔ ∃ x, Seg arena p l1 x ∧ Seg arena x l2 q := by
  induction l1 generalizing p with
  | nil => simp [Seg.nil_iff]
  | cons a l ih =>
    rw [List.cons_append, Seg.cons_iff]
    constructor
    · rintro ⟨hp, r, hr, h⟩
      obtain ⟨x, h1, h2⟩ := ih.mp h
      exact ⟨x, ⟨hp, r, hr, h1⟩, h2⟩
    · rintro ⟨x, ⟨hp, r, hr, h1⟩, h2⟩
      exact ⟨hp, r, hr, ih.mpr ⟨x, h1, h2⟩⟩

theorem Seg.congr {arena arena1 : List PidRefStack} {l : List Nat} {p q : Option Nat}
    (h : Seg arena p l q)
    (hc : ∀ a ∈ l, ∀ r, arena[a]? = some r → ∃ r1, arena1[a]? = some r1 ∧ r1.prev = r.prev) :
    Seg arena1 p l q := by
  induction l generalizing p with
  | nil => exact h
  | cons a l ih =>
    obtain ⟨hp, r, hr, h1⟩ := h
    obtain ⟨r1, hr1, hpr⟩ := hc a (List.mem_cons_self a l) r hr
    refine ⟨hp, r1, hr1, ?_⟩
    rw [hpr]
    exact ih h1 (fun b hb => hc b (List.mem_cons_of_mem a hb))

theorem Seg.lt_length {arena : List PidRefStack} {l : List Nat} {p q : Option Nat}
    (h : Seg arena p l q) : ∀ a ∈ l, a < arena.length := by
  induction l generalizing p with
  | nil => simp
  | cons a l ih =>
    obtain ⟨_, r, hr, h1⟩ := h
    intro b hb
    rcases List.mem_cons.mp hb with rfl | hb
    · exact (List.getElem?_eq_some_iff.mp hr).1
    · exact ih h1 b hb

theorem Seg.det {arena : List PidRefStack} {l1 l2 : List Nat} {p : Option Nat}
    (h1 : Seg arena p l1 none) (h2 : Seg arena p l2 none) : l1 = l2 := by
  induction l1 generalizing p l2 with
  | nil =>
    cases l2 with
    | nil => rfl
    | cons b l2 =>
      obtain ⟨hp, _⟩ := h2
      simp only [Seg] at h1
      rw [h1] at hp
      cases hp
  | cons a l1 ih =>
    obtain ⟨hp, r, hr, h1⟩ := h1
    cases l2 with
    | nil =>
      simp only [Seg] at h2
      rw [h2] at hp
      cases hp
    | cons b l2 =>
      obtain ⟨hp2, r2, hr2, h2⟩ := h2
      rw [hp] at hp2
      cases hp2
      rw [hr] at hr2
      cases hr2
      rw [ih h1 h2]

theorem Seg.suffix {arena : List PidRefStack} {l : List Nat} {p q : Option Nat} {a : Nat}
    (h : Seg arena p l q) (ha : a ∈ l) :
    ∃ l1 l2, l = l1 ++ a :: l2 ∧ Seg arena (some a) (a :: l2) q := by
  obtain ⟨l1, l2, rfl⟩ := List.append_of_mem ha
  obtain ⟨x, _, h2⟩ := Seg.append_iff.mp h
  have hx : x = some a := h2.1
  subst hx
  exact ⟨l1, l2, rfl, h2⟩

theorem Seg.nodup {arena : List PidRefStack} {l : List Nat} {p : Option Nat}
    (h : Seg arena p l none) : l.Nodup := by
  induction l generalizing p with
  | nil => exact List.nodup_nil
  | cons a l ih =>
    have h0 := h
    obtain ⟨hp, r, hr, h1⟩ := h
    refine List.nodup_cons.mpr ⟨?_, ih h1⟩
    intro ha
    obtain ⟨l1, l2, hl, h2⟩ := Seg.suffix h1 ha
    subst hp
    have := Seg.det h0 h2
    have hlen := congrArg List.length this
    simp [hl] at hlen
    omega

theorem Seg.length_le {arena : List PidRefStack} {l : List Nat} {p : Option Nat}
    (h : Seg arena p l none) : l.length ≤ arena.length := by
  have hsub : l ⊆ List.range arena.length := fun a ha =>
    List.mem_range.mpr (h.lt_length a ha)
  have := (List.subperm_of_subset h.nodup hsub).length_le
  simpa using this

theorem chainFrom_none (arena : List PidRefStack) (fuel : Nat) :
    chainFrom arena fuel none = some [] := by
  cases fuel <;> rfl

theorem chainFrom_sound {arena : List PidRefStack} {fuel : Nat} {p : Option Nat}
    {l : List Nat} (h : chainFrom arena fuel p = some l) :
    Seg arena p l none ∧ l.length ≤ fuel := by
  induction fuel generalizing p l with
  | zero =>
    cases p with
    | none =>
      rw [chainFrom_none] at h
      cases h
      exact ⟨rfl, Nat.le_refl _⟩
    | some a => simp [chainFrom] at h
  | succ fuel ih =>
    cases p with
    | none =>
      rw [chainFrom_none] at h
      cases h
      exact ⟨rfl, Nat.zero_le _⟩
    | some a =>
      simp only [chainFrom] at h
      cases hr : arena[a]? with
      | none => simp [hr] at h
      | some r =>
        cases hc : chainFrom arena fuel r.prev with
        | none => simp [hr, hc] at h
        | some l1 =>
          simp only [hr, hc, Option.some.injEq] at h
          subst h
          obtain ⟨h1, h2⟩ := ih hc
          exact ⟨⟨rfl, r, hr, h1⟩, Nat.succ_le_succ h2⟩

theorem chainFrom_complete {arena : List PidRefStack} {l : List Nat} {p : Option Nat}
    (h : Seg arena p l none) {fuel : Nat} (hf : l.length ≤ fuel) :
    chainFrom arena fuel p = some l := by
  induction l generalizing p fuel with
  | nil =>
    have hp : p = none := h
    subst hp
    exact chainFrom_none arena fuel
  | cons a l ih =>
    obtain ⟨hp, r, hr, h1⟩ := h
    subst hp
    cases fuel with
    | zero => simp at hf
    | succ fuel =>
      have := ih h1 (Nat.le_of_succ_le_succ hf)
      simp [chainFrom, hr, this]

theorem chainOf_eq_some {m : Mem} {l : List Nat} :
    chainOf m = some l ↔ Seg m.arena m.pid.m_pidRefStack l none := by
  unfold chainOf
  exact ⟨fun h => (chainFrom_sound h).1, fun h => chainFrom_complete h h.length_le⟩

/-! ## Reading and writing the arena -/

theorem idAt_eq {arena : List PidRefStack} {a : Nat} {r : PidRefStack}
    (h : arena[a]? = some r) : idAt arena a = r.id := by
  simp [idAt, h]

theorem getElem?_of_lt {arena : List PidRefStack} {a : Nat} (h : a < arena.length) :
    ∃ r, arena[a]? = some r :=
  ⟨arena[a], List.getElem?_eq_getElem h⟩

theorem lt_of_getElem? {arena : List PidRefStack} {a : Nat} {r : PidRefStack}
    (h : arena[a]? = some r) : a < arena.length :=
  (List.getElem?_eq_some_iff.mp h).1

theorem loadPrev_append {arena : List PidRefStack} {p : Nat} {r : PidRefStack}
    (h : arena[p]? = some r) (x : List PidRefStack) :
    loadPrev (arena ++ x) p = .ok r.prev := by
  have : (arena ++ x)[p]? = some r := by
    rw [List.getElem?_append_left (lt_of_getElem? h)]
    exact h
  simp [loadPrev, this]

theorem storePrev_new (arena : List PidRefStack) (c : PidRefStack) (v : Option Nat) :
    storePrev (arena ++ [c]) arena.length v = .ok (arena ++ [{ c with prev := v }]) := by
  have : (arena ++ [c])[arena.length]? = some c := by simp
  simp [storePrev, this]

theorem storePrev_old {arena : List PidRefStack} {p : Nat} {r : PidRefStack}
    (h : arena[p]? = some r) (x : List PidRefStack) (v : Option Nat) :
    storePrev (arena ++ x) p v = .ok (arena.set p { r with prev := v } ++ x) := by
  have hlt := lt_of_getElem? h
  have : (arena ++ x)[p]? = some r := by
    rw [List.getElem?_append_left hlt]
    exact h
  simp [storePrev, this, List.set_append, hlt]

theorem insert_noalloc (m : Mem) (scopeId : Int) (ref : Nat) (r : PidRefStack)
    (prevRef : Option Nat) :
    FindOrAddPidRef.insert m false scopeId ref r prevRef = .ok (m, none) := by
  simp [FindOrAddPidRef.insert]

theorem insert_lt_some {m : Mem} {scopeId : Int} {ref p : Nat} {r rp : PidRefStack}
    (hlt : r.id < scopeId) (hp : m.arena[p]? = some rp) :
    FindOrAddPidRef.insert m true scopeId ref r (some p) =
      .ok (linkAfter m scopeId p rp, some m.arena.length) := by
  simp [FindOrAddPidRef.insert, hlt, loadPrev_append hp, storePrev_new, storePrev_old hp,
    linkAfter]

theorem insert_lt_none {m : Mem} {scopeId : Int} {ref : Nat} {r : PidRefStack}
    (hlt : r.id < scopeId) :
    FindOrAddPidRef.insert m true scopeId ref r none =
      .ok (linkHead m scopeId, some m.arena.length) := by
  simp [FindOrAddPidRef.insert, hlt, storePrev_new, linkHead]

theorem insert_ge {m : Mem} {scopeId : Int} {ref : Nat} {r : PidRefStack} (prevRef : Option Nat)
    (hge : ¬ r.id < scopeId) (hr : m.arena[ref]? = some r) :
    FindOrAddPidRef.insert m true scopeId ref r prevRef =
      .ok (linkAfter m scopeId ref r, some m.arena.length) := by
  simp [FindOrAddPidRef.insert, hge, loadPrev_append hr, storePrev_new, storePrev_old hr,
    linkAfter]

/-! ## The walk of `FindOrAddPidRef` -/

theorem Seg.start {arena : List PidRefStack} {l : List Nat} {p : Option Nat} {q : Nat}
    (h : Seg arena p l (some q)) : p = (l ++ [q]).head? := by
  cases l with
  | nil => exact h
  | cons a l => exact h.1

theorem assertOrder_ok {dbg : Bool} {arena : List PidRefStack} {r n : PidRefStack} {next : Nat}
    (hn : arena[next]? = some n) (h : dbg = true → n.id ≤ r.id) :
    FindOrAddPidRef.assertOrder dbg arena r next = .ok () := by
  cases dbg with
  | false => simp [FindOrAddPidRef.assertOrder]
  | true => simp [FindOrAddPidRef.assertOrder, hn, h rfl]

theorem loop_walk {dbg : Bool} {m : Mem} {alloc : Bool} {scopeId : Int} {walked : List Nat}
    {a0 ref : Nat} {rr : PidRefStack} (fuel : Nat) (prev0 : Option Nat)
    (hseg : Seg m.arena (some a0) walked (some ref))
    (href : m.arena[ref]? = some rr)
    (hgt : ∀ a ∈ walked, scopeId < idAt m.arena a)
    (hord : dbg = true →
      (walked ++ [ref]).Pairwise (fun a b => idAt m.arena b ≤ idAt m.arena a)) :
    FindOrAddPidRef.loop dbg m alloc scopeId (fuel + walked.length) a0 prev0 =
      FindOrAddPidRef.loop dbg m alloc scopeId fuel ref
        (walked.foldl (fun _ a => some a) prev0) := by
  induction walked generalizing a0 prev0 with
  | nil =>
    have : some a0 = some ref := hseg
    cases this
    rfl
  | cons a w ih =>
    obtain ⟨ha, r, hr, h1⟩ := hseg
    cases ha
    have hnext := Seg.start h1
    have hida : scopeId < r.id := by
      have := hgt a (List.mem_cons_self _ _)
      rwa [idAt_eq hr] at this
    cases hh : (w ++ [ref]).head? with
    | none => simp at hh
    | some next =>
      rw [hh] at hnext
      have hmem : next ∈ w ++ [ref] := List.mem_of_mem_head? hh
      have hvalid : ∃ n, m.arena[next]? = some n := by
        rcases List.mem_append.mp hmem with hw | hw
        · exact getElem?_of_lt (h1.lt_length next hw)
        · rw [List.mem_singleton.mp hw]
          exact ⟨rr, href⟩
      obtain ⟨n, hn⟩ := hvalid
      have hass : FindOrAddPidRef.assertOrder dbg m.arena r next = .ok () := by
        apply assertOrder_ok hn
        intro hd
        have hp := hord hd
        rw [List.cons_append, List.pairwise_cons] at hp
        have := hp.1 next hmem
        rwa [idAt_eq hn, idAt_eq hr] at this
      have hstep : FindOrAddPidRef.loop dbg m alloc scopeId (fuel + w.length + 1) a prev0 =
          FindOrAddPidRef.loop dbg m alloc scopeId (fuel + w.length) next (some a) := by
        rw [FindOrAddPidRef.loop]
        simp only [hr]
        rw [if_neg (by omega), if_neg (by rw [hnext]; simp; omega)]
        simp only [hnext, hass]
      rw [List.length_cons, ← Nat.add_assoc, hstep, List.foldl_cons]
      refine ih (some a) (hnext ▸ h1) (fun b hb => hgt b (List.mem_cons_of_mem _ hb)) ?_
      intro hd
      have hp := hord hd
      rw [List.cons_append, List.pairwise_cons] at hp
      exact hp.2

theorem loop_stop_found {dbg : Bool} {m : Mem} {alloc : Bool} {scopeId : Int} {ref : Nat}
    {r : PidRefStack} (fuel : Nat) (prev : Option Nat)
    (hr : m.arena[ref]? = some r) (hid : r.id = scopeId) :
    FindOrAddPidRef.loop dbg m alloc scopeId (fuel + 1) ref prev = .ok (m, some ref) := by
  rw [FindOrAddPidRef.loop]
  simp only [hr]
  rw [if_pos hid]

theorem loop_stop_insert {dbg : Bool} {m : Mem} {alloc : Bool} {scopeId : Int} {ref : Nat}
    {r : PidRefStack} (fuel : Nat) (prev : Option Nat)
    (hr : m.arena[ref]? = some r) (hid : r.id ≠ scopeId)
    (hstop : r.prev = none ∨ r.id < scopeId) :
    FindOrAddPidRef.loop dbg m alloc scopeId (fuel + 1) ref prev =
      FindOrAddPidRef.insert m alloc scopeId ref r prev := by
  rw [FindOrAddPidRef.loop]
  simp only [hr]
  rw [if_neg hid, if_pos hstop]

theorem findOrAdd_walk {dbg : Bool} {m : Mem} {scopeId : Int} {walked rest : List Nat}
    {ref : Nat} (alloc : Bool)
    (hseg : Seg m.arena m.pid.m_pidRefStack (walked ++ ref :: rest) none)
    (hgt : ∀ a ∈ walked, scopeId < idAt m.arena a)
    (hord : dbg = true →
      (walked ++ [ref]).Pairwise (fun a b => idAt m.arena b ≤ idAt m.arena a)) :
    ∃ fuel, FindOrAddPidRef dbg m alloc scopeId =
      FindOrAddPidRef.loop dbg m alloc scopeId (fuel + 1) ref
        (walked.foldl (fun _ a => some a) none) := by
  have hlen := hseg.length_le
  obtain ⟨q, h1, h2⟩ := Seg.append_iff.mp hseg
  have hq : q = some ref := h2.1
  subst hq
  obtain ⟨_, rr, hrr, _⟩ := h2
  have hhead := Seg.start h1
  cases hh : (walked ++ [ref]).head? with
  | none => simp at hh
  | some a0 =>
    rw [hh] at hhead
    rw [hhead] at h1
    refine ⟨m.arena.length - walked.length - 1, ?_⟩
    rw [← loop_walk (m.arena.length - walked.length - 1 + 1) none h1 hrr hgt hord]
    have hfuel : m.arena.length - walked.length - 1 + 1 + walked.length = m.arena.length := by
      simp at hlen
      omega
    rw [hfuel]
    simp only [FindOrAddPidRef, hhead]

theorem findOrAdd_found {dbg : Bool} {m : Mem} {scopeId : Int} {hi rest : List Nat}
    {x : Nat} (alloc : Bool)
    (hseg : Seg m.arena m.pid.m_pidRefStack (hi ++ x :: rest) none)
    (hgt : ∀ a ∈ hi, scopeId < idAt m.arena a)
    (hx : idAt m.arena x = scopeId)
    (hord : dbg = true →
      (hi ++ [x]).Pairwise (fun a b => idAt m.arena b ≤ idAt m.arena a)) :
    FindOrAddPidRef dbg m alloc scopeId = .ok (m, some x) := by
  obtain ⟨fuel, hf⟩ := findOrAdd_walk alloc hseg hgt hord
  obtain ⟨q, _, h2⟩ := Seg.append_iff.mp hseg
  obtain ⟨_, r, hr, _⟩ := h2
  rw [hf, loop_stop_found fuel _ hr (by rw [← idAt_eq hr]; exact hx)]

theorem findOrAdd_empty {m : Mem} (dbg : Bool) (scopeId : Int)
    (hhead : m.pid.m_pidRefStack = none) :
    FindOrAddPidRef dbg m true scopeId = .ok (linkHead m scopeId, some m.arena.length) ∧
    FindOrAddPidRef dbg m false scopeId = .ok (m, none) := by
  simp [FindOrAddPidRef, hhead, storePrev_new, linkHead]

theorem findOrAdd_head {m : Mem} {scopeId : Int} {rest : List Nat} {f : Nat} (dbg : Bool)
    (hseg : Seg m.arena m.pid.m_pidRefStack (f :: rest) none)
    (hf : idAt m.arena f < scopeId) :
    FindOrAddPidRef dbg m true scopeId = .ok (linkHead m scopeId, some m.arena.length) ∧
    FindOrAddPidRef dbg m false scopeId = .ok (m, none) := by
  obtain ⟨_, r, hr, _⟩ := id hseg
  rw [idAt_eq hr] at hf
  have hw : ∀ alloc, ∃ fuel, FindOrAddPidRef dbg m alloc scopeId =
      FindOrAddPidRef.loop dbg m alloc scopeId (fuel + 1) f none := fun alloc =>
    @findOrAdd_walk dbg m scopeId [] rest f alloc hseg (by simp) (by simp)
  obtain ⟨fuel1, h1⟩ := hw true
  obtain ⟨fuel2, h2⟩ := hw false
  rw [h1, h2, loop_stop_insert fuel1 _ hr (by omega) (Or.inr hf),
    loop_stop_insert fuel2 _ hr (by omega) (Or.inr hf), insert_lt_none hf, insert_noalloc]
  exact ⟨rfl, rfl⟩

theorem findOrAdd_between {m : Mem} {scopeId : Int} {hi rest : List Nat} {p f : Nat}
    {rp : PidRefStack} (dbg : Bool)
    (hseg : Seg m.arena m.pid.m_pidRefStack (hi ++ p :: f :: rest) none)
    (hp : m.arena[p]? = some rp)
    (hgt : ∀ a ∈ hi ++ [p], scopeId < idAt m.arena a)
    (hf : idAt m.arena f < scopeId)
    (hord : dbg = true →
      (hi ++ [p, f]).Pairwise (fun a b => idAt m.arena b ≤ idAt m.arena a)) :
    FindOrAddPidRef dbg m true scopeId = .ok (linkAfter m scopeId p rp, some m.arena.length) ∧
    FindOrAddPidRef dbg m false scopeId = .ok (m, none) := by
  have hseg1 : Seg m.arena m.pid.m_pidRefStack ((hi ++ [p]) ++ f :: rest) none := by
    simpa using hseg
  obtain ⟨q, _, h2⟩ := Seg.append_iff.mp hseg1
  obtain ⟨_, r, hr, _⟩ := h2
  rw [idAt_eq hr] at hf
  have hw : ∀ alloc, ∃ fuel, FindOrAddPidRef dbg m alloc scopeId =
      FindOrAddPidRef.loop dbg m alloc scopeId (fuel + 1) f (some p) := fun alloc => by
    have := findOrAdd_walk alloc hseg1 hgt (by simpa using hord)
    simpa using this
  obtain ⟨fuel1, h1⟩ := hw true
  obtain ⟨fuel2, h2⟩ := hw false
  rw [h1, h2, loop_stop_insert fuel1 _ hr (by omega) (Or.inr hf),
    loop_stop_insert fuel2 _ hr (by omega) (Or.inr hf), insert_lt_some hf hp, insert_noalloc]
  exact ⟨rfl, rfl⟩

theorem findOrAdd_last {m : Mem} {scopeId : Int} {hi : List Nat} {p : Nat}
    {rp : PidRefStack} (dbg : Bool)
    (hseg : Seg m.arena m.pid.m_pidRefStack (hi ++ [p]) none)
    (hp : m.arena[p]? = some rp)
    (hgt : ∀ a ∈ hi ++ [p], scopeId < idAt m.arena a)
    (hord : dbg = true →
      (hi ++ [p]).Pairwise (fun a b => idAt m.arena b ≤ idAt m.arena a)) :
    FindOrAddPidRef dbg m true scopeId = .ok (linkAfter m scopeId p rp, some m.arena.length) ∧
    FindOrAddPidRef dbg m false scopeId = .ok (m, none) := by
  obtain ⟨q, _, h2⟩ := Seg.append_iff.mp hseg
  obtain ⟨_, r, hr, hnil⟩ := h2
  rw [hp] at hr
  cases hr
  have hprev : rp.prev = none := hnil
  have hid : scopeId < rp.id := by
    have := hgt p (by simp)
    rwa [idAt_eq hp] at this
  have hw : ∀ alloc, ∃ fuel, FindOrAddPidRef dbg m alloc scopeId =
      FindOrAddPidRef.loop dbg m alloc scopeId (fuel + 1) p
        (hi.foldl (fun _ a => some a) none) := fun alloc =>
    findOrAdd_walk alloc hseg (fun a ha => hgt a (List.mem_append_left _ ha)) hord
  obtain ⟨fuel1, h1⟩ := hw true
  obtain ⟨fuel2, h2⟩ := hw false
  rw [h1, h2, loop_stop_insert fuel1 _ hp (by omega) (Or.inl hprev),
    loop_stop_insert fuel2 _ hp (by omega) (Or.inl hprev), insert_ge _ (by omega) hp,
    insert_noalloc]
  exact ⟨rfl, rfl⟩

/-! ## What linking a new entry does to the chain -/

theorem linkAfter_new (m : Mem) (scopeId : Int) (p : Nat) (rp : PidRefStack) :
    (linkAfter m scopeId p rp).arena[m.arena.length]? =
      some { PidRefStack.ctor scopeId with prev := rp.prev } := by
  have h : m.arena.length = (m.arena.set p { rp with prev := some m.arena.length }).length := by
    simp
  simp only [linkAfter]
  rw [List.getElem?_append_right (Nat.le_of_eq h.symm)]
  simp

theorem linkAfter_pred {m : Mem} (scopeId : Int) {p : Nat} (rp : PidRefStack)
    (hp : p < m.arena.length) :
    (linkAfter m scopeId p rp).arena[p]? = some { rp with prev := some m.arena.length } := by
  simp only [linkAfter]
  rw [List.getElem?_append_left (by simpa using hp)]
  simp [hp]

theorem linkAfter_other {m : Mem} (scopeId : Int) {p a : Nat} (rp : PidRefStack)
    {r : PidRefStack} (ha : m.arena[a]? = some r) (hne : p ≠ a) :
    (linkAfter m scopeId p rp).arena[a]? = some r := by
  simp only [linkAfter]
  rw [List.getElem?_append_left (by simpa using lt_of_getElem? ha)]
  rw [List.getElem?_set_ne hne]
  exact ha

theorem linkHead_old {m : Mem} (scopeId : Int) {a : Nat} {r : PidRefStack}
    (ha : m.arena[a]? = some r) : (linkHead m scopeId).arena[a]? = some r := by
  simp only [linkHead]
  rw [List.getElem?_append_left (lt_of_getElem? ha)]
  exact ha

theorem inserted_head {m : Mem} {l : List Nat} (scopeId : Int)
    (hseg : Seg m.arena m.pid.m_pidRefStack l none) :
    Inserted m (linkHead m scopeId) scopeId [] l where
  chain := by
    have hnew : (linkHead m scopeId).arena[m.arena.length]? =
        some { PidRefStack.ctor scopeId with prev := m.pid.m_pidRefStack } := by
      simp [linkHead]
    exact ⟨rfl, _, hnew, hseg.congr (fun a _ r hr => ⟨r, linkHead_old scopeId hr, rfl⟩)⟩
  size := by simp [linkHead]
  new := by
    have : m.pid.m_pidRefStack = l.head? := by
      cases l with
      | nil => exact hseg
      | cons a l => exact hseg.1
    simp [linkHead, this]
  old := fun a r hr => ⟨r, linkHead_old scopeId hr, rfl⟩
  same := fun a r hr _ => linkHead_old scopeId hr
  pred := by simp
  pid := by simp [linkHead]

theorem inserted_after {m : Mem} {hi rest : List Nat} {p : Nat} {rp : PidRefStack}
    (scopeId : Int)
    (hseg : Seg m.arena m.pid.m_pidRefStack (hi ++ p :: rest) none)
    (hp : m.arena[p]? = some rp) :
    Inserted m (linkAfter m scopeId p rp) scopeId (hi ++ [p]) rest := by
  have hnd := hseg.nodup
  have hphi : p ∉ hi := fun h => by
    have := (List.nodup_append.mp hnd).2.2
    exact this h (List.mem_cons_self _ _) 
  have hprest : p ∉ rest := fun h => by
    have := (List.nodup_cons.mp (List.nodup_append.mp hnd).2.1).1
    exact this h
  obtain ⟨q, h1, h2⟩ := Seg.append_iff.mp hseg
  obtain ⟨hq, r0, hr0, h3⟩ := h2
  rw [hp] at hr0
  cases hr0
  subst hq
  have hplt := lt_of_getElem? hp
  have hhead : m.pid.m_pidRefStack = (hi ++ [p]).head? := Seg.start h1
  refine
    { chain := ?_, size := by simp [linkAfter], new := ?_, old := ?_, same := ?_, pred := ?_,
      pid := ?_ }
  · rw [List.append_assoc, Seg.append_iff]
    refine ⟨some p, ?_, rfl, _, linkAfter_pred scopeId rp hplt, rfl, _,
      linkAfter_new m scopeId p rp, ?_⟩
    · refine h1.congr (fun a ha r hr => ⟨r, linkAfter_other scopeId rp hr ?_, rfl⟩)
      rintro rfl
      exact hphi ha
    · refine Seg.congr h3 (fun a ha r hr => ⟨r, linkAfter_other scopeId rp hr ?_, rfl⟩)
      rintro rfl
      exact hprest ha
  · rw [linkAfter_new]
    have : rp.prev = rest.head? := by
      cases rest with
      | nil => exact h3
      | cons a l => exact h3.1
    rw [this]
  · intro a r hr
    by_cases hpa : p = a
    · subst hpa
      rw [hp] at hr
      cases hr
      exact ⟨_, linkAfter_pred scopeId rp hplt, rfl⟩
    · exact ⟨r, linkAfter_other scopeId rp hr hpa, rfl⟩
  · intro a r hr hne
    refine linkAfter_other scopeId rp hr ?_
    rintro rfl
    simp at hne
  · intro a ha
    simp at ha
    subst ha
    exact ⟨rp, hp, linkAfter_pred scopeId rp hplt⟩
  · have : (hi ++ [p] ++ [m.arena.length]).head? = (hi ++ [p]).head? := by
      cases hi <;> simp
    rw [this, ← hhead]
    rfl

theorem split_at (arena : List PidRefStack) (scopeId : Int) (l : List Nat) :
    ∃ hi lo, l = hi ++ lo ∧ (∀ a ∈ hi, scopeId < idAt arena a) ∧
      ∀ f, lo.head? = some f → idAt arena f ≤ scopeId := by
  induction l with
  | nil => exact ⟨[], [], rfl, by simp, by simp⟩
  | cons a l ih =>
    by_cases h : scopeId < idAt arena a
    · obtain ⟨hi, lo, rfl, h1, h2⟩ := ih
      exact ⟨a :: hi, lo, rfl, by simpa [h] using h1, h2⟩
    · exact ⟨[], a :: l, rfl, by simp, by simpa using le_of_not_lt h⟩

theorem Desc.weaken {arena : List PidRefStack} {l k : List Nat} (h : Desc arena l)
    (hs : k.Sublist l) : k.Pairwise (fun a b => idAt arena b ≤ idAt arena a) :=
  (h.sublist hs).imp (fun hab => le_of_lt hab)

/-- On a chain with strictly decreasing scope ids `FindOrAddPidRef` either returns the
entry that already carries `scopeId`, or links a new entry between the ids above and the
ids below `scopeId`. -/
theorem findOrAdd_spec {m : Mem} {l : List Nat}
    (hseg : Seg m.arena m.pid.m_pidRefStack l none) (hdesc : Desc m.arena l)
    (dbg : Bool) (scopeId : Int) :
    (∃ x ∈ l, idAt m.arena x = scopeId ∧
      ∀ alloc, FindOrAddPidRef dbg m alloc scopeId = .ok (m, some x)) ∨
    ((∀ a ∈ l, idAt m.arena a ≠ scopeId) ∧
      FindOrAddPidRef dbg m false scopeId = .ok (m, none) ∧
      ∃ m1 hi lo, FindOrAddPidRef dbg m true scopeId = .ok (m1, some m.arena.length) ∧
        l = hi ++ lo ∧ (∀ a ∈ hi, scopeId < idAt m.arena a) ∧
        (∀ a ∈ lo, idAt m.arena a < scopeId) ∧ Inserted m m1 scopeId hi lo) := by
  obtain ⟨hi, lo, rfl, hgt, hle⟩ := split_at m.arena scopeId l
  have hne_hi : ∀ a ∈ hi, idAt m.arena a ≠ scopeId := fun a ha => ne_of_gt (hgt a ha)
  cases lo with
  | nil =>
    right
    refine ⟨by simpa using hne_hi, ?_⟩
    rcases List.eq_nil_or_concat hi with rfl | ⟨hi1, p, rfl⟩
    · have hhead : m.pid.m_pidRefStack = none := hseg
      obtain ⟨h1, h2⟩ := findOrAdd_empty dbg scopeId hhead
      exact ⟨h2, _, [], [], h1, rfl, by simp, by simp, inserted_head scopeId hseg⟩
    · rw [List.concat_eq_append] at hseg hgt hdesc
      rw [List.append_nil] at hseg hdesc
      obtain ⟨rp, hp⟩ := getElem?_of_lt (hseg.lt_length p (by simp))
      obtain ⟨h1, h2⟩ := findOrAdd_last dbg hseg hp hgt
        (fun _ => hdesc.weaken (List.Sublist.refl _))
      refine ⟨h2, _, hi1 ++ [p], [], h1, by simp, hgt, by simp, ?_⟩
      exact inserted_after scopeId (by simpa using hseg) hp
  | cons f rest =>
    have hfle := hle f rfl
    have hlo : ∀ a ∈ rest, idAt m.arena a < idAt m.arena f := fun a ha =>
      List.rel_of_pairwise_cons (List.pairwise_append.mp hdesc).2.1 ha
    rcases eq_or_lt_of_le hfle with hfeq | hflt
    · left
      refine ⟨f, by simp, hfeq, fun alloc => ?_⟩
      exact findOrAdd_found alloc hseg hgt hfeq (fun _ => hdesc.weaken (by simp))
    · right
      have hlo2 : ∀ a ∈ f :: rest, idAt m.arena a < scopeId := by
        intro a ha
        rcases List.mem_cons.mp ha with rfl | ha
        · exact hflt
        · exact lt_trans (hlo a ha) hflt
      refine ⟨?_, ?_⟩
      · intro a ha
        rcases List.mem_append.mp ha with h | h
        · exact hne_hi a h
        · exact ne_of_lt (hlo2 a h)
      rcases List.eq_nil_or_concat hi with rfl | ⟨hi1, p, rfl⟩
      · rw [List.nil_append] at hseg
        obtain ⟨h1, h2⟩ := findOrAdd_head dbg hseg hflt
        exact ⟨h2, _, [], f :: rest, h1, rfl, by simp, hlo2, inserted_head scopeId hseg⟩
      · rw [List.concat_eq_append] at hseg hgt hdesc
        rw [List.append_assoc, List.singleton_append] at hseg hdesc
        obtain ⟨rp, hp⟩ := getElem?_of_lt (hseg.lt_length p (by simp))
        obtain ⟨h1, h2⟩ := findOrAdd_between dbg hseg hp hgt hflt
          (fun _ => hdesc.weaken (by simp))
        refine ⟨h2, _, hi1 ++ [p], f :: rest, h1, by simp, hgt, hlo2, ?_⟩
        exact inserted_after scopeId hseg hp

theorem Inserted.idAt_old {m m1 : Mem} {scopeId : Int} {hi lo : List Nat}
    (h : Inserted m m1 scopeId hi lo) {a : Nat} (ha : a < m.arena.length) :
    idAt m1.arena a = idAt m.arena a := by
  obtain ⟨r, hr⟩ := getElem?_of_lt ha
  obtain ⟨r1, hr1, he⟩ := h.old a r hr
  rw [idAt_eq hr, idAt_eq hr1, he]

theorem Inserted.idAt_new {m m1 : Mem} {scopeId : Int} {hi lo : List Nat}
    (h : Inserted m m1 scopeId hi lo) : idAt m1.arena m.arena.length = scopeId := by
  rw [idAt_eq h.new]
  rfl

theorem Inserted.desc {m m1 : Mem} {scopeId : Int} {hi lo : List Nat}
    (h : Inserted m m1 scopeId hi lo)
    (hseg : Seg m.arena m.pid.m_pidRefStack (hi ++ lo) none) (hdesc : Desc m.arena (hi ++ lo))
    (hgt : ∀ a ∈ hi, scopeId < idAt m.arena a) (hlt : ∀ a ∈ lo, idAt m.arena a < scopeId) :
    Desc m1.arena (hi ++ m.arena.length :: lo) := by
  have hv := hseg.lt_length
  have hhi : ∀ a ∈ hi, idAt m1.arena a = idAt m.arena a := fun a ha =>
    h.idAt_old (hv a (List.mem_append_left _ ha))
  have hlo : ∀ a ∈ lo, idAt m1.arena a = idAt m.arena a := fun a ha =>
    h.idAt_old (hv a (List.mem_append_right _ ha))
  obtain ⟨d1, d2, d3⟩ := List.pairwise_append.mp hdesc
  refine List.pairwise_append.mpr ⟨?_, List.pairwise_cons.mpr ⟨?_, ?_⟩, ?_⟩
  · exact d1.imp_of_mem (fun ha hb hab => by rw [hhi _ ha, hhi _ hb]; exact hab)
  · intro b hb
    rw [h.idAt_new, hlo b hb]
    exact hlt b hb
  · exact d2.imp_of_mem (fun ha hb hab => by rw [hlo _ ha, hlo _ hb]; exact hab)
  · intro a ha b hb
    rw [hhi a ha]
    rcases List.mem_cons.mp hb with rfl | hb
    · rw [h.idAt_new]
      exact hgt a ha
    · rw [hlo b hb]
      exact d3 a ha b hb

/-! ## Overwriting one object of the arena -/

theorem idAt_set {arena : List PidRefStack} {x : Nat} {rx v : PidRefStack}
    (hx : arena[x]? = some rx) (hv : v.id = rx.id) (a : Nat) :
    idAt (arena.set x v) a = idAt arena a := by
  by_cases h : x = a
  · subst h
    have : (arena.set x v)[x]? = some v := by
      simp [List.getElem?_set_self, lt_of_getElem? hx]
    rw [idAt_eq this, idAt_eq hx, hv]
  · simp only [idAt]
    rw [List.getElem?_set_ne h]

theorem Desc.set {arena : List PidRefStack} {x : Nat} {rx v : PidRefStack} {l : List Nat}
    (h : Desc arena l) (hx : arena[x]? = some rx) (hv : v.id = rx.id) :
    Desc (arena.set x v) l :=
  h.imp (fun hab => by rw [idAt_set hx hv, idAt_set hx hv]; exact hab)

theorem Seg.set_same_prev {arena : List PidRefStack} {x : Nat} {rx v : PidRefStack}
    {l : List Nat} {p q : Option Nat}
    (h : Seg arena p l q) (hx : arena[x]? = some rx) (hv : v.prev = rx.prev) :
    Seg (arena.set x v) p l q := by
  refine h.congr (fun a _ r hr => ?_)
  by_cases hxa : x = a
  · subst hxa
    rw [hx] at hr
    cases hr
    exact ⟨v, by simp [List.getElem?_set_self, lt_of_getElem? hx], hv⟩
  · exact ⟨r, by rw [List.getElem?_set_ne hxa]; exact hr, rfl⟩

theorem Seg.set_not_mem {arena : List PidRefStack} {x : Nat} {v : PidRefStack}
    {l : List Nat} {p q : Option Nat}
    (h : Seg arena p l q) (hx : x ∉ l) : Seg (arena.set x v) p l q := by
  refine h.congr (fun a ha r hr => ⟨r, ?_, rfl⟩)
  have hxa : x ≠ a := fun e => hx (e ▸ ha)
  rw [List.getElem?_set_ne hxa]
  exact hr

/-! ## `RemovePrevPidRef` on a chain -/

theorem removePrev_head {m : Mem} {a : Nat} {rest : List Nat} (dbg : Bool)
    (hseg : Seg m.arena m.pid.m_pidRefStack (a :: rest) none) :
    ∃ r, m.arena[a]? = some r ∧ Seg m.arena r.prev rest none ∧
      RemovePrevPidRef dbg m none =
        .ok ({ m with pid := { m.pid with m_pidRefStack := r.prev } }, some a) := by
  obtain ⟨hh, r, hr, h1⟩ := hseg
  refine ⟨r, hr, h1, ?_⟩
  simp [RemovePrevPidRef, hh, hr]

theorem removePrev_mid {m : Mem} {x f : Nat} {pre post : List Nat} (dbg : Bool)
    (hseg : Seg m.arena m.pid.m_pidRefStack (pre ++ x :: f :: post) none) :
    ∃ rx rf, m.arena[x]? = some rx ∧ m.arena[f]? = some rf ∧ rx.prev = some f ∧
      Seg (m.arena.set x { rx with prev := rf.prev }) m.pid.m_pidRefStack
        (pre ++ x :: post) none ∧
      RemovePrevPidRef dbg m (some x) =
        .ok ({ m with arena := m.arena.set x { rx with prev := rf.prev } }, some f) := by
  have hnd := hseg.nodup
  obtain ⟨q, h1, h2⟩ := Seg.append_iff.mp hseg
  obtain ⟨hq, rx, hrx, hxf, rf, hrf, h3⟩ := h2
  have hxpre : x ∉ pre := fun h =>
    (List.nodup_append.mp hnd).2.2 h (List.mem_cons_self _ _)
  have hxpost : x ∉ post := fun h =>
    (List.nodup_cons.mp (List.nodup_append.mp hnd).2.1).1 (List.mem_cons_of_mem _ h)
  refine ⟨rx, rf, hrx, hrf, hxf, ?_, ?_⟩
  · have hnew : (m.arena.set x { rx with prev := rf.prev })[x]? =
        some { rx with prev := rf.prev } := by
      simp [List.getElem?_set_self, lt_of_getElem? hrx]
    exact Seg.append_iff.mpr ⟨q, h1.set_not_mem hxpre, hq, _, hnew, h3.set_not_mem hxpost⟩
  · simp [RemovePrevPidRef, hrx, hxf, hrf]

/-! ## The chain invariant -/

theorem Inv.findOrAdd {m m1 : Mem} {dbg alloc : Bool} {scopeId : Int} {res : Option Nat}
    (h : Inv m) (hcall : FindOrAddPidRef dbg m alloc scopeId = .ok (m1, res)) : Inv m1 := by
  obtain ⟨l, hseg, hdesc⟩ := h
  rcases findOrAdd_spec hseg hdesc dbg scopeId with
    ⟨x, _, _, hx⟩ | ⟨_, hno, m2, hi, lo, hyes, rfl, hgt, hlt, hins⟩
  · rw [hx alloc] at hcall
    cases hcall
    exact ⟨l, hseg, hdesc⟩
  · cases alloc with
    | false =>
      rw [hno] at hcall
      cases hcall
      exact ⟨_, hseg, hdesc⟩
    | true =>
      rw [hyes] at hcall
      cases hcall
      exact ⟨_, hins.chain, hins.desc hseg hdesc hgt hlt⟩

theorem Inv.removePrev {m m1 : Mem} {dbg : Bool} {ref res : Option Nat}
    (h : Inv m) (hcall : RemovePrevPidRef dbg m ref = .ok (m1, res)) : Inv m1 := by
  obtain ⟨l, hseg, hdesc⟩ := h
  cases ref with
  | none =>
    cases l with
    | nil =>
      have hh : m.pid.m_pidRefStack = none := hseg
      simp [RemovePrevPidRef, hh] at hcall
    | cons a rest =>
      obtain ⟨r, _, h1, hrun⟩ := removePrev_head dbg hseg
      rw [hrun] at hcall
      cases hcall
      exact ⟨rest, h1, (List.pairwise_cons.mp hdesc).2⟩
  | some x =>
    by_cases hx : x ∈ l
    · obtain ⟨pre, rest, rfl⟩ := List.append_of_mem hx
      cases rest with
      | nil =>
        obtain ⟨q, _, h2⟩ := Seg.append_iff.mp hseg
        obtain ⟨_, rx, hrx, hnil⟩ := h2
        have hprev : rx.prev = none := hnil
        simp [RemovePrevPidRef, hrx, hprev] at hcall
      | cons f post =>
        obtain ⟨rx, rf, hrx, _, _, hseg1, hrun⟩ := removePrev_mid dbg hseg
        rw [hrun] at hcall
        cases hcall
        refine ⟨pre ++ x :: post, hseg1, ?_⟩
        have hd : Desc m.arena (pre ++ x :: post) := hdesc.sublist (by simp)
        exact hd.set hrx rfl
    · simp only [RemovePrevPidRef] at hcall
      cases hrx : m.arena[x]? with
      | none => simp [hrx] at hcall
      | some rx =>
        cases hp : rx.prev with
        | none => simp [hrx, hp] at hcall
        | some f =>
          cases hrf : m.arena[f]? with
          | none => simp [hrx, hp, hrf] at hcall
          | some rf =>
            simp only [hrx, hp, hrf, Except.ok.injEq, Prod.mk.injEq] at hcall
            obtain ⟨rfl, _⟩ := hcall
            exact ⟨l, hseg.set_not_mem hx, hdesc.set hrx rfl⟩

theorem Inv.onRef {m m1 : Mem} {p : Nat} {f : PidRefStack → PidRefStack}
    (h : Inv m) (hf : ∀ r, (f r).prev = r.prev ∧ (f r).id = r.id)
    (hcall : onRef m p f = .ok m1) : Inv m1 := by
  obtain ⟨l, hseg, hdesc⟩ := h
  simp only [ChakraHash.onRef] at hcall
  cases hr : m.arena[p]? with
  | none => simp [hr] at hcall
  | some r =>
    simp only [hr, Except.ok.injEq] at hcall
    subst hcall
    exact ⟨l, hseg.set_same_prev hr (hf r).1, hdesc.set hr (hf r).2⟩

theorem Reachable.inv {m : Mem} (h : Reachable m) : Inv m := by
  induction h with
  | fresh arena pid hp => exact ⟨[], hp, List.Pairwise.nil⟩
  | findOrAdd dbg alloc scopeId res _ hcall ih => exact ih.findOrAdd hcall
  | removePrev dbg ref res _ hcall ih => exact ih.removePrev hcall
  | setSym p sym _ hcall ih =>
    exact Inv.onRef (f := fun r => r.SetSym sym) ih (fun _ => ⟨rfl, rfl⟩) hcall
  | setDynamicBinding p _ hcall ih =>
    exact Inv.onRef (f := PidRefStack.SetDynamicBinding) ih (fun _ => ⟨rfl, rfl⟩) hcall
  | setModuleExport p _ hcall ih =>
    exact Inv.onRef (f := PidRefStack.SetModuleExport) ih (fun _ => ⟨rfl, rfl⟩) hcall

theorem Reachable.build {m : Mem} (h : Reachable m) (ids : List Int) :
    Reachable (build ids m) := by
  induction ids generalizing m with
  | nil => exact h
  | cons i ids ih =>
    simp only [ChakraHash.build, List.foldl_cons]
    cases hc : FindOrAddPidRef true m true i with
    | error e => exact ih h
    | ok v =>
      obtain ⟨m1, res⟩ := v
      exact ih (Reachable.findOrAdd true true i res h hc)

theorem desc_iff_sorted {m : Mem} {l : List Nat} :
    Desc m.arena l ↔ (scopeIds m l).Sorted (· > ·) := by
  simp only [Desc, scopeIds, List.Sorted, List.pairwise_map]

/-! ## The lookup `GetPidRefForScopeId` -/

theorem get_loop_none (arena : List PidRefStack) (scopeId : Int) (fuel : Nat) :
    GetPidRefForScopeId.loop arena scopeId fuel none = .ok none := by
  cases fuel <;> rfl

theorem get_loop_desc {arena : List PidRefStack} {l : List Nat} {p : Option Nat}
    (scopeId : Int) (hseg : Seg arena p l none) (hdesc : Desc arena l)
    {fuel : Nat} (hf : l.length ≤ fuel) :
    GetPidRefForScopeId.loop arena scopeId fuel p =
      .ok (l.find? (fun a => decide (idAt arena a = scopeId))) := by
  induction l generalizing p fuel with
  | nil =>
    have hp : p = none := hseg
    subst hp
    rw [get_loop_none]
    rfl
  | cons a l ih =>
    obtain ⟨hp, r, hr, h1⟩ := hseg
    subst hp
    cases fuel with
    | zero => simp at hf
    | succ fuel =>
      rw [GetPidRefForScopeId.loop]
      simp only [hr, PidRefStack.GetScopeId]
      have hida := idAt_eq hr
      by_cases heq : r.id = scopeId
      · rw [if_pos heq]
        simp [hida, heq]
      · rw [if_neg heq]
        have hna : decide (idAt arena a = scopeId) = false := by simp [hida, heq]
        rw [List.find?_cons, hna]
        by_cases hlt : r.id < scopeId
        · rw [if_pos hlt]
          have : l.find? (fun b => decide (idAt arena b = scopeId)) = none := by
            rw [List.find?_eq_none]
            intro b hb
            have := List.rel_of_pairwise_cons hdesc hb
            simp only [decide_eq_true_eq]
            omega
          rw [this]
        · rw [if_neg hlt]
          exact ih h1 (List.pairwise_cons.mp hdesc).2 (Nat.le_of_succ_le_succ hf)

theorem get_desc {m : Mem} {l : List Nat} (scopeId : Int)
    (hseg : Seg m.arena m.pid.m_pidRefStack l none) (hdesc : Desc m.arena l) :
    GetPidRefForScopeId m scopeId =
      .ok (l.find? (fun a => decide (idAt m.arena a = scopeId))) :=
  get_loop_desc scopeId hseg hdesc hseg.length_le

theorem find_desc_unique {arena : List PidRefStack} {l : List Nat} {scopeId : Int} {a : Nat}
    (hdesc : Desc arena l) (ha : a ∈ l) (hid : idAt arena a = scopeId) :
    l.find? (fun b => decide (idAt arena b = scopeId)) = some a := by
  induction l with
  | nil => simp at ha
  | cons b l ih =>
    rw [List.find?_cons]
    rcases List.mem_cons.mp ha with rfl | hal
    · simp [hid]
    · have hlt := List.rel_of_pairwise_cons hdesc hal
      have hne : decide (idAt arena b = scopeId) = false := by
        simp only [decide_eq_false_iff_not]
        omega
      rw [hne]
      exact ih (List.pairwise_cons.mp hdesc).2 hal

theorem find_none_of_ne {arena : List PidRefStack} {l : List Nat} {scopeId : Int}
    (h : ∀ a ∈ l, idAt arena a ≠ scopeId) :
    l.find? (fun b => decide (idAt arena b = scopeId)) = none := by
  rw [List.find?_eq_none]
  intro b hb
  simpa using h b hb

/-! ## Claims about the binding stack -/

theorem findOrAdd_again {m m1 : Mem} {scopeId : Int} {hi lo : List Nat} (dbg alloc : Bool)
    (hins : Inserted m m1 scopeId hi lo)
    (hseg : Seg m.arena m.pid.m_pidRefStack (hi ++ lo) none) (hdesc : Desc m.arena (hi ++ lo))
    (hgt : ∀ a ∈ hi, scopeId < idAt m.arena a) (hlt : ∀ a ∈ lo, idAt m.arena a < scopeId) :
    FindOrAddPidRef dbg m1 alloc scopeId = .ok (m1, some m.arena.length) := by
  have hd1 := hins.desc hseg hdesc hgt hlt
  refine findOrAdd_found alloc hins.chain ?_ hins.idAt_new (fun _ => hd1.weaken (by simp))
  intro a ha
  rw [hins.idAt_old (hseg.lt_length a (List.mem_append_left _ ha))]
  exact hgt a ha

/-- C1 (binding idempotence).  On every reachable record a `FindOrAddPidRef(scopeId)` call
whose allocation succeeds returns an entry; and whenever a call returns an entry, calling
`FindOrAddPidRef(scopeId)` again returns that same entry and leaves the whole memory (the
head, every link and every field of every entry) as the first call left it. -/
theorem findOrAdd_idempotent (m : Mem) (hm : Reachable m) (dbg : Bool) (scopeId : Int) :
    (∃ m1 r, FindOrAddPidRef dbg m true scopeId = .ok (m1, some r)) ∧
    ∀ (alloc : Bool) (m1 : Mem) (r : Nat),
      FindOrAddPidRef dbg m alloc scopeId = .ok (m1, some r) →
      ∀ alloc2, FindOrAddPidRef dbg m1 alloc2 scopeId = .ok (m1, some r) := by
  obtain ⟨l, hseg, hdesc⟩ := hm.inv
  rcases findOrAdd_spec hseg hdesc dbg scopeId with
    ⟨x, _, _, hx⟩ | ⟨_, hno, m2, hi, lo, hyes, rfl, hgt, hlt, hins⟩
  · refine ⟨⟨m, x, hx true⟩, ?_⟩
    intro alloc m1 r hcall alloc2
    rw [hx alloc] at hcall
    cases hcall
    exact hx alloc2
  · refine ⟨⟨m2, _, hyes⟩, ?_⟩
    intro alloc m1 r hcall alloc2
    cases alloc with
    | false =>
      rw [hno] at hcall
      cases hcall
    | true =>
      rw [hyes] at hcall
      cases hcall
      exact findOrAdd_again dbg alloc2 hins hseg hdesc hgt hlt

theorem findOrAdd_idempotent_witness :
    Reachable (build [5, 1] Mem.fresh) ∧
    FindOrAddPidRef true (build [5, 1, 3] Mem.fresh) false 3 =
      .ok (build [5, 1, 3] Mem.fresh, some 2) :=
  ⟨Reachable.build (Reachable.fresh [] Ident.fresh rfl) [5, 1],
   (findOrAdd_idempotent (build [5, 1] Mem.fresh)
      (Reachable.build (Reachable.fresh [] Ident.fresh rfl) [5, 1]) true 3).2
      true (build [5, 1, 3] Mem.fresh) 2 rfl false⟩

/-- C2 (chain invariant).  In every reachable record the entries form a null-terminated
chain whose scope ids, read from the head downward, are strictly decreasing; in particular
no two entries of the chain carry the same scope id. -/
theorem chain_ids_strictly_decreasing (m : Mem) (hm : Reachable m) :
    ∃ l, chainOf m = some l ∧ (scopeIds m l).Sorted (· > ·) ∧ (scopeIds m l).Nodup := by
  obtain ⟨l, hseg, hdesc⟩ := hm.inv
  have hs := desc_iff_sorted.mp hdesc
  exact ⟨l, chainOf_eq_some.mpr hseg, hs, hs.nodup⟩

theorem chain_ids_strictly_decreasing_witness :
    Reachable (build [5, 1, 3, 7, 3] Mem.fresh) ∧
    ∃ l, chainOf (build [5, 1, 3, 7, 3] Mem.fresh) = some l ∧
      (scopeIds (build [5, 1, 3, 7, 3] Mem.fresh) l).Sorted (· > ·) ∧
      (scopeIds (build [5, 1, 3, 7, 3] Mem.fresh) l).Nodup :=
  ⟨Reachable.build (Reachable.fresh [] Ident.fresh rfl) _,
   chain_ids_strictly_decreasing _ (Reachable.build (Reachable.fresh [] Ident.fresh rfl) _)⟩

/-- C3 (lookup correctness).  On a well-formed chain whose scope ids strictly decrease from
the head, `GetPidRefForScopeId(scopeId)` returns the entry carrying `scopeId` when the chain
has one and `nullptr` when it has none, so the early stop never hides an entry.  The call
writes nothing: its embedding has no output memory. -/
theorem getPidRefForScopeId_correct (m : Mem) (l : List Nat) (scopeId : Int)
    (hchain : chainOf m = some l) (hsorted : (scopeIds m l).Sorted (· > ·)) :
    (∀ a ∈ l, idAt m.arena a = scopeId → GetPidRefForScopeId m scopeId = .ok (some a)) ∧
    ((∀ a ∈ l, idAt m.arena a ≠ scopeId) → GetPidRefForScopeId m scopeId = .ok none) := by
  have hseg := chainOf_eq_some.mp hchain
  have hdesc := desc_iff_sorted.mpr hsorted
  rw [get_desc scopeId hseg hdesc]
  constructor
  · intro a ha hid
    rw [find_desc_unique hdesc ha hid]
  · intro h
    rw [find_none_of_ne h]

theorem getPidRefForScopeId_correct_witness :
    (chainOf (build [5, 1, 3] Mem.fresh) = some [0, 2, 1] ∧
      (scopeIds (build [5, 1, 3] Mem.fresh) [0, 2, 1]).Sorted (· > ·)) ∧
    GetPidRefForScopeId (build [5, 1, 3] Mem.fresh) 1 = .ok (some 1) ∧
    GetPidRefForScopeId (build [5, 1, 3] Mem.fresh) 4 = .ok none :=
  ⟨⟨rfl, by decide⟩,
   (getPidRefForScopeId_correct (build [5, 1, 3] Mem.fresh) [0, 2, 1] 1 rfl (by decide)).1
      1 (by decide) rfl,
   (getPidRefForScopeId_correct (build [5, 1, 3] Mem.fresh) [0, 2, 1] 4 rfl (by decide)).2
      (by decide)⟩

theorem find_congr {l : List Nat} {p q : Nat → Bool} (h : ∀ a ∈ l, p a = q a) :
    l.find? p = l.find? q := by
  induction l with
  | nil => rfl
  | cons b l ih =>
    rw [List.find?_cons, List.find?_cons, h b (List.mem_cons_self _ _),
      ih (fun a ha => h a (List.mem_cons_of_mem _ ha))]

theorem Inserted.find_other {m m1 : Mem} {s t : Int} {hi lo : List Nat}
    (hins : Inserted m m1 s hi lo) (hseg : Seg m.arena m.pid.m_pidRefStack (hi ++ lo) none)
    (hts : t ≠ s) :
    (hi ++ m.arena.length :: lo).find? (fun a => decide (idAt m1.arena a = t)) =
      (hi ++ lo).find? (fun a => decide (idAt m.arena a = t)) := by
  have hv := hseg.lt_length
  have hnew : decide (idAt m1.arena m.arena.length = t) = false := by
    rw [hins.idAt_new]
    simpa using fun h => hts h.symm
  rw [List.find?_append, List.find?_append, List.find?_cons, hnew]
  rw [find_congr (q := fun a => decide (idAt m.arena a = t))
      (fun a ha => by rw [hins.idAt_old (hv a (List.mem_append_left _ ha))]),
    find_congr (l := lo) (q := fun a => decide (idAt m.arena a = t))
      (fun a ha => by rw [hins.idAt_old (hv a (List.mem_append_right _ ha))])]

/-- C4 (find-or-add postcondition).  On every reachable record, `FindOrAddPidRef(scopeId)`
with a successful allocation returns an entry that carries `scopeId` and is linked in the
chain afterwards, and `GetPidRefForScopeId(scopeId)` then returns that very entry.  If no
entry of the chain carried `scopeId` before, the returned entry is a newly allocated object
whose symbol is unset and whose is-dynamic and is-module-export flags are false, and on an
empty chain it becomes the head; otherwise it is an entry of the old chain and nothing
changes. -/
theorem findOrAdd_postcondition (m : Mem) (hm : Reachable m) (dbg : Bool) (scopeId : Int) :
    ∃ (m1 : Mem) (r : Nat) (l l1 : List Nat) (e : PidRefStack),
      FindOrAddPidRef dbg m true scopeId = .ok (m1, some r) ∧
      chainOf m = some l ∧ chainOf m1 = some l1 ∧ r ∈ l1 ∧
      m1.arena[r]? = some e ∧ e.GetScopeId = scopeId ∧
      GetPidRefForScopeId m1 scopeId = .ok (some r) ∧
      ((∀ a ∈ l, idAt m.arena a ≠ scopeId) →
        r = m.arena.length ∧ r ∉ l ∧ e.GetSym = none ∧ e.IsDynamicBinding = false ∧
        e.IsModuleExport = false ∧ (l = [] → GetTopRef m1 = some r)) ∧
      ((∃ a ∈ l, idAt m.arena a = scopeId) → r ∈ l ∧ m1 = m) := by
  obtain ⟨l, hseg, hdesc⟩ := hm.inv
  rcases findOrAdd_spec hseg hdesc dbg scopeId with
    ⟨x, hxl, hxid, hx⟩ | ⟨hnone, _, m2, hi, lo, hyes, rfl, hgt, hlt, hins⟩
  · obtain ⟨e, he⟩ := getElem?_of_lt (hseg.lt_length x hxl)
    refine ⟨m, x, l, l, e, hx true, chainOf_eq_some.mpr hseg, chainOf_eq_some.mpr hseg, hxl,
      he, ?_, ?_, ?_, fun _ => ⟨hxl, rfl⟩⟩
    · rw [← hxid, idAt_eq he]
      rfl
    · rw [get_desc scopeId hseg hdesc, find_desc_unique hdesc hxl hxid]
    · intro h
      exact absurd hxid (h x hxl)
  · have hd1 := hins.desc hseg hdesc hgt hlt
    have hmem : m.arena.length ∈ hi ++ m.arena.length :: lo := by simp
    refine ⟨m2, m.arena.length, hi ++ lo, _, _, hyes, chainOf_eq_some.mpr hseg,
      chainOf_eq_some.mpr hins.chain, hmem, hins.new, rfl, ?_, ?_, ?_⟩
    · rw [get_desc scopeId hins.chain hd1, find_desc_unique hd1 hmem hins.idAt_new]
    · intro _
      refine ⟨rfl, ?_, rfl, rfl, rfl, ?_⟩
      · intro h
        exact absurd (hseg.lt_length _ h) (Nat.lt_irrefl _)
      · intro hnil
        have hhi : hi = [] := (List.append_eq_nil.mp hnil).1
        rw [GetTopRef, hins.pid, hhi]
        rfl
    · rintro ⟨a, ha, hid⟩
      exact absurd hid (hnone a ha)

theorem findOrAdd_postcondition_witness :
    Reachable (build [5, 1] Mem.fresh) ∧
    ∃ (m1 : Mem) (r : Nat) (l l1 : List Nat) (e : PidRefStack),
      FindOrAddPidRef true (build [5, 1] Mem.fresh) true 3 = .ok (m1, some r) ∧
      chainOf (build [5, 1] Mem.fresh) = some l ∧ chainOf m1 = some l1 ∧ r ∈ l1 ∧
      m1.arena[r]? = some e ∧ e.GetScopeId = 3 ∧
      GetPidRefForScopeId m1 3 = .ok (some r) ∧
      ((∀ a ∈ l, idAt (build [5, 1] Mem.fresh).arena a ≠ 3) →
        r = (build [5, 1] Mem.fresh).arena.length ∧ r ∉ l ∧ e.GetSym = none ∧
        e.IsDynamicBinding = false ∧ e.IsModuleExport = false ∧
        (l = [] → GetTopRef m1 = some r)) ∧
      ((∃ a ∈ l, idAt (build [5, 1] Mem.fresh).arena a = 3) →
        r ∈ l ∧ m1 = build [5, 1] Mem.fresh) :=
  ⟨Reachable.build (Reachable.fresh [] Ident.fresh rfl) _,
   findOrAdd_postcondition _ (Reachable.build (Reachable.fresh [] Ident.fresh rfl) _) true 3⟩

/-- C5 (frame of find-or-add).  On every reachable record, a `FindOrAddPidRef(s)` call that
returns leaves `GetPidRefForScopeId(t)` unchanged for every `t` other than `s`; every object
that was in the arena keeps its scope id, symbol and flags; and the old chain is a
subsequence of the new chain, which is at most one entry longer (entries keep their
relative order, none is removed, at most one is added). -/
theorem findOrAdd_frame (m : Mem) (hm : Reachable m) (dbg alloc : Bool) (s : Int)
    (m1 : Mem) (res : Option Nat) (hcall : FindOrAddPidRef dbg m alloc s = .ok (m1, res)) :
    (∀ t, t ≠ s →
      ∃ e, GetPidRefForScopeId m t = .ok e ∧ GetPidRefForScopeId m1 t = .ok e) ∧
    (∀ (a : Nat) (r : PidRefStack), m.arena[a]? = some r →
      ∃ r1 : PidRefStack, m1.arena[a]? = some r1 ∧ r1.id = r.id ∧ r1.sym = r.sym ∧
        r1.isDynamic = r.isDynamic ∧ r1.isModuleExport = r.isModuleExport) ∧
    ∃ l l1, chainOf m = some l ∧ chainOf m1 = some l1 ∧ l.Sublist l1 ∧
      l1.length ≤ l.length + 1 := by
  obtain ⟨l, hseg, hdesc⟩ := hm.inv
  have hsame : m1 = m →
      (∀ t, t ≠ s →
        ∃ e, GetPidRefForScopeId m t = .ok e ∧ GetPidRefForScopeId m1 t = .ok e) ∧
      (∀ (a : Nat) (r : PidRefStack), m.arena[a]? = some r →
        ∃ r1 : PidRefStack, m1.arena[a]? = some r1 ∧ r1.id = r.id ∧ r1.sym = r.sym ∧
          r1.isDynamic = r.isDynamic ∧ r1.isModuleExport = r.isModuleExport) ∧
      ∃ l l1, chainOf m = some l ∧ chainOf m1 = some l1 ∧ l.Sublist l1 ∧
        l1.length ≤ l.length + 1 := by
    rintro rfl
    refine ⟨fun t _ => ⟨_, get_desc t hseg hdesc, get_desc t hseg hdesc⟩,
      fun a r hr => ⟨r, hr, rfl, rfl, rfl, rfl⟩,
      l, l, chainOf_eq_some.mpr hseg, chainOf_eq_some.mpr hseg, List.Sublist.refl l,
      Nat.le_succ _⟩
  rcases findOrAdd_spec hseg hdesc dbg s with
    ⟨x, _, _, hx⟩ | ⟨_, hno, m2, hi, lo, hyes, rfl, hgt, hlt, hins⟩
  · rw [hx alloc] at hcall
    cases hcall
    exact hsame rfl
  · cases alloc with
    | false =>
      rw [hno] at hcall
      cases hcall
      exact hsame rfl
    | true =>
      rw [hyes] at hcall
      cases hcall
      have hd1 := hins.desc hseg hdesc hgt hlt
      refine ⟨?_, ?_, hi ++ lo, _, chainOf_eq_some.mpr hseg, chainOf_eq_some.mpr hins.chain,
        by simp, by simp [Nat.add_assoc]⟩
      · intro t hts
        refine ⟨_, get_desc t hseg hdesc, ?_⟩
        rw [get_desc t hins.chain hd1, hins.find_other hseg hts]
      · intro a r hr
        obtain ⟨r1, hr1, he⟩ := hins.old a r hr
        refine ⟨r1, hr1, ?_, ?_, ?_, ?_⟩ <;> rw [he]

theorem findOrAdd_frame_witness :
    (Reachable (build [5, 1] Mem.fresh) ∧
      FindOrAddPidRef true (build [5, 1] Mem.fresh) true 3 =
        .ok (build [5, 1, 3] Mem.fresh, some 2)) ∧
    ∃ e, GetPidRefForScopeId (build [5, 1] Mem.fresh) 1 = .ok e ∧
      GetPidRefForScopeId (build [5, 1, 3] Mem.fresh) 1 = .ok e :=
  ⟨⟨Reachable.build (Reachable.fresh [] Ident.fresh rfl) _, rfl⟩,
   (findOrAdd_frame (build [5, 1] Mem.fresh)
      (Reachable.build (Reachable.fresh [] Ident.fresh rfl) _) true true 3
      (build [5, 1, 3] Mem.fresh) (some 2) rfl).1 1 (by decide)⟩

/-- C6 (between-splice insertion).  Let the chain be `hi ++ p :: f :: rest`, where every
entry of `hi` and `p` has an id greater than `scopeId` (the walk passes them, so `prevRef`
is `p`) and `f` has an id less than `scopeId` (the walk stops there); in a debug build let
the ids along the walked part be weakly decreasing, so that no assertion stops the walk.
Then `FindOrAddPidRef(scopeId)` links the new entry exactly between `p` and `f`:
`p->prev` is the new entry, the new entry's `prev` is `f`, and the head is unchanged. -/
theorem findOrAdd_between_splice (m : Mem) (dbg : Bool) (scopeId : Int)
    (hi rest : List Nat) (p f : Nat)
    (hchain : chainOf m = some (hi ++ p :: f :: rest))
    (hpassed : ∀ a ∈ hi ++ [p], scopeId < idAt m.arena a)
    (hfound : idAt m.arena f < scopeId)
    (hassert : dbg = true →
      (hi ++ [p, f]).Pairwise (fun a b => idAt m.arena b ≤ idAt m.arena a)) :
    ∃ (m1 : Mem) (ep en : PidRefStack),
      FindOrAddPidRef dbg m true scopeId = .ok (m1, some m.arena.length) ∧
      m1.arena[p]? = some ep ∧ ep.prev = some m.arena.length ∧
      m1.arena[m.arena.length]? = some en ∧ en.prev = some f ∧ en.id = scopeId ∧
      GetTopRef m1 = GetTopRef m ∧
      chainOf m1 = some (hi ++ p :: m.arena.length :: f :: rest) := by
  have hseg := chainOf_eq_some.mp hchain
  obtain ⟨rp, hp⟩ := getElem?_of_lt (hseg.lt_length p (by simp))
  have hins := inserted_after scopeId hseg hp
  refine ⟨linkAfter m scopeId p rp, _, _,
    (findOrAdd_between dbg hseg hp hpassed hfound hassert).1,
    linkAfter_pred scopeId rp (lt_of_getElem? hp), rfl, hins.new, rfl, rfl, rfl, ?_⟩
  rw [chainOf_eq_some]
  simpa using hins.chain

theorem findOrAdd_between_splice_witness :
    (chainOf (build [5, 1] Mem.fresh) = some ([] ++ 0 :: 1 :: []) ∧
      (∀ a ∈ [] ++ [0], (3 : Int) < idAt (build [5, 1] Mem.fresh).arena a) ∧
      idAt (build [5, 1] Mem.fresh).arena 1 < 3) ∧
    ∃ (m1 : Mem) (ep en : PidRefStack),
      FindOrAddPidRef true (build [5, 1] Mem.fresh) true 3 = .ok (m1, some 2) ∧
      m1.arena[0]? = some ep ∧ ep.prev = some 2 ∧
      m1.arena[2]? = some en ∧ en.prev = some 1 ∧ en.id = 3 ∧
      GetTopRef m1 = GetTopRef (build [5, 1] Mem.fresh) ∧
      chainOf m1 = some ([] ++ 0 :: 2 :: 1 :: []) :=
  ⟨⟨rfl, by decide, by decide⟩,
   findOrAdd_between_splice (build [5, 1] Mem.fresh) true 3 [] [] 0 1 rfl (by decide)
     (by decide) (fun _ => by decide)⟩

theorem Seg.of_head_none {m : Mem} (h : m.pid.m_pidRefStack = none) :
    Seg m.arena m.pid.m_pidRefStack [] none := h

/-- C7 (parameter/body case).  For scope ids `a < b`, on a record with an empty chain
`FindOrAddPidRef(a)` followed by `FindOrAddPidRef(b)` pushes the `b` entry at the head with
the `a` entry as its `prev`; afterwards the lookups of `a` and `b` return two distinct
entries, the `a` entry being the one the first call returned, with every field as that call
left it.  More generally, whenever the head has an id less than `scopeId`, the new entry
becomes the head and its `prev` is the old head. -/
theorem findOrAdd_param_body :
    (∀ (m : Mem) (dbg : Bool) (a b : Int), GetTopRef m = none → a < b →
      ∃ (m1 m2 : Mem) (ra rb : Nat) (eb : PidRefStack),
        FindOrAddPidRef dbg m true a = .ok (m1, some ra) ∧
        FindOrAddPidRef dbg m1 true b = .ok (m2, some rb) ∧
        GetTopRef m2 = some rb ∧ m2.arena[rb]? = some eb ∧ eb.prev = some ra ∧
        chainOf m2 = some [rb, ra] ∧ scopeIds m2 [rb, ra] = [b, a] ∧
        GetPidRefForScopeId m2 a = .ok (some ra) ∧
        GetPidRefForScopeId m2 b = .ok (some rb) ∧ ra ≠ rb ∧
        m2.arena[ra]? = m1.arena[ra]? ∧
        m1.arena[ra]? = some (PidRefStack.ctor a)) ∧
    (∀ (m : Mem) (dbg : Bool) (scopeId : Int) (f : Nat) (rest : List Nat),
      chainOf m = some (f :: rest) → idAt m.arena f < scopeId →
      ∃ (m1 : Mem) (en : PidRefStack),
        FindOrAddPidRef dbg m true scopeId = .ok (m1, some m.arena.length) ∧
        GetTopRef m1 = some m.arena.length ∧
        m1.arena[m.arena.length]? = some en ∧ en.prev = GetTopRef m ∧ en.id = scopeId ∧
        chainOf m1 = some (m.arena.length :: f :: rest)) := by
  constructor
  · intro m dbg a b hfresh hab
    have hseg0 := Seg.of_head_none hfresh
    have hins1 := inserted_head a hseg0
    have hid1 : idAt (linkHead m a).arena m.arena.length = a := hins1.idAt_new
    have hseg1 : Seg (linkHead m a).arena (linkHead m a).pid.m_pidRefStack
        [m.arena.length] none := hins1.chain
    have hdesc1 : Desc (linkHead m a).arena [m.arena.length] := List.pairwise_singleton _ _
    have hlt1 : idAt (linkHead m a).arena m.arena.length < b := by rw [hid1]; exact hab
    have hins2 := inserted_head b hseg1
    have hdesc2 := hins2.desc hseg1 hdesc1 (by simp) (by simpa using hlt1)
    have hsz : (linkHead m a).arena.length = m.arena.length + 1 := hins1.size
    have hid2a : idAt (linkHead (linkHead m a) b).arena m.arena.length = a := by
      rw [hins2.idAt_old (by omega), hid1]
    have hid2b : idAt (linkHead (linkHead m a) b).arena (linkHead m a).arena.length = b :=
      hins2.idAt_new
    refine ⟨linkHead m a, linkHead (linkHead m a) b, m.arena.length,
      (linkHead m a).arena.length, _, (findOrAdd_empty dbg a hfresh).1,
      (findOrAdd_head dbg hseg1 hlt1).1, rfl, hins2.new, rfl,
      chainOf_eq_some.mpr hins2.chain, ?_, ?_, ?_, by omega, ?_, ?_⟩
    · simp [scopeIds, hid2a, hid2b]
    · rw [get_desc a hins2.chain hdesc2, find_desc_unique hdesc2 (by simp) hid2a]
    · rw [get_desc b hins2.chain hdesc2, find_desc_unique hdesc2 (by simp) hid2b]
    · obtain ⟨r, hr⟩ := getElem?_of_lt (show m.arena.length < (linkHead m a).arena.length by
        omega)
      rw [hr]
      exact hins2.same _ r hr (by simp)
    · have := hins1.new
      rw [this]
      simp [PidRefStack.ctor]
  · intro m dbg scopeId f rest hchain hlt
    have hseg := chainOf_eq_some.mp hchain
    have hins := inserted_head scopeId hseg
    exact ⟨linkHead m scopeId, _, (findOrAdd_head dbg hseg hlt).1, rfl, hins.new,
      by rw [GetTopRef, hseg.1]; rfl, rfl, chainOf_eq_some.mpr hins.chain⟩

theorem findOrAdd_param_body_witness :
    (GetTopRef Mem.fresh = none ∧ (1 : Int) < 2) ∧
    (∃ (m1 m2 : Mem) (ra rb : Nat) (eb : PidRefStack),
      FindOrAddPidRef true Mem.fresh true 1 = .ok (m1, some ra) ∧
      FindOrAddPidRef true m1 true 2 = .ok (m2, some rb) ∧
      GetTopRef m2 = some rb ∧ m2.arena[rb]? = some eb ∧ eb.prev = some ra ∧
      chainOf m2 = some [rb, ra] ∧ scopeIds m2 [rb, ra] = [2, 1] ∧
      GetPidRefForScopeId m2 1 = .ok (some ra) ∧
      GetPidRefForScopeId m2 2 = .ok (some rb) ∧ ra ≠ rb ∧
      m2.arena[ra]? = m1.arena[ra]? ∧
      m1.arena[ra]? = some (PidRefStack.ctor 1)) ∧
    (chainOf (build [1] Mem.fresh) = some [0] ∧ idAt (build [1] Mem.fresh).arena 0 < 2) ∧
    ∃ (m1 : Mem) (en : PidRefStack),
      FindOrAddPidRef true (build [1] Mem.fresh) true 2 = .ok (m1, some 1) ∧
      GetTopRef m1 = some 1 ∧ m1.arena[1]? = some en ∧
      en.prev = GetTopRef (build [1] Mem.fresh) ∧ en.id = 2 ∧ chainOf m1 = some [1, 0] :=
  ⟨⟨rfl, by decide⟩, findOrAdd_param_body.1 Mem.fresh true 1 2 rfl (by decide),
   ⟨rfl, by decide⟩, findOrAdd_param_body.2 (build [1] Mem.fresh) true 2 0 [] rfl (by decide)⟩

/-- C8 (ordering after mixed inserts).  For scope ids `a > b`, on a record with an empty
chain the calls `FindOrAddPidRef(a)`, `FindOrAddPidRef(b)`, `FindOrAddPidRef(a)` make the
third call return the entry of the first call and change nothing; the chain is then the `a`
entry followed by the `b` entry, so it holds exactly one entry with id `a`, and the lookup
of `b` returns a different entry that lies below the `a` entry. -/
theorem findOrAdd_mixed_order (m : Mem) (dbg : Bool) (a b : Int)
    (hfresh : GetTopRef m = none) (hab : b < a) :
    ∃ (m1 m2 : Mem) (ra rb : Nat),
      FindOrAddPidRef dbg m true a = .ok (m1, some ra) ∧
      FindOrAddPidRef dbg m1 true b = .ok (m2, some rb) ∧
      (∀ alloc, FindOrAddPidRef dbg m2 alloc a = .ok (m2, some ra)) ∧
      chainOf m2 = some [ra, rb] ∧ scopeIds m2 [ra, rb] = [a, b] ∧
      (scopeIds m2 [ra, rb]).count a = 1 ∧
      GetPidRefForScopeId m2 a = .ok (some ra) ∧
      GetPidRefForScopeId m2 b = .ok (some rb) ∧ ra ≠ rb := by
  have hseg0 := Seg.of_head_none hfresh
  have hins1 := inserted_head a hseg0
  have hid1 : idAt (linkHead m a).arena m.arena.length = a := hins1.idAt_new
  have hseg1 : Seg (linkHead m a).arena (linkHead m a).pid.m_pidRefStack
      ([] ++ [m.arena.length]) none := hins1.chain
  have hdesc1 : Desc (linkHead m a).arena ([] ++ [m.arena.length]) :=
    List.pairwise_singleton _ _
  have hgt1 : ∀ x ∈ [] ++ [m.arena.length], b < idAt (linkHead m a).arena x := by
    intro x hx
    rw [List.nil_append, List.mem_singleton] at hx
    rw [hx, hid1]
    exact hab
  have hsz : (linkHead m a).arena.length = m.arena.length + 1 := hins1.size
  obtain ⟨r0, hr0⟩ := getElem?_of_lt (show m.arena.length < (linkHead m a).arena.length by
    omega)
  have hins2 := @inserted_after (linkHead m a) [] [] m.arena.length r0 b hseg1 hr0
  have hdesc2 := hins2.desc (by simpa using hseg1) (by simpa using hdesc1)
    (by simpa using hgt1) (by simp)
  have hid2a : idAt (linkAfter (linkHead m a) b m.arena.length r0).arena m.arena.length = a := by
    rw [hins2.idAt_old (by omega), hid1]
  have hid2b : idAt (linkAfter (linkHead m a) b m.arena.length r0).arena
      (linkHead m a).arena.length = b := hins2.idAt_new
  have hchain2 : Seg (linkAfter (linkHead m a) b m.arena.length r0).arena
      (linkAfter (linkHead m a) b m.arena.length r0).pid.m_pidRefStack
      ([] ++ m.arena.length :: [(linkHead m a).arena.length]) none := by
    simpa using hins2.chain
  have hchain2n : Seg (linkAfter (linkHead m a) b m.arena.length r0).arena
      (linkAfter (linkHead m a) b m.arena.length r0).pid.m_pidRefStack
      [m.arena.length, (linkHead m a).arena.length] none := hchain2
  have hdesc2n : Desc (linkAfter (linkHead m a) b m.arena.length r0).arena
      [m.arena.length, (linkHead m a).arena.length] := by
    simpa using hdesc2
  refine ⟨linkHead m a, linkAfter (linkHead m a) b m.arena.length r0, m.arena.length,
    (linkHead m a).arena.length, (findOrAdd_empty dbg a hfresh).1,
    (findOrAdd_last dbg hseg1 hr0 hgt1 (fun _ => by simp)).1, ?_,
    chainOf_eq_some.mpr hchain2n, ?_, ?_, ?_, ?_, by omega⟩
  · intro alloc
    exact findOrAdd_found alloc hchain2 (by simp) hid2a (fun _ => by simp)
  · simp [scopeIds, hid2a, hid2b]
  · have hne : b ≠ a := ne_of_lt hab
    have hne2 : a ≠ b := ne_of_gt hab
    simp [scopeIds, hid2a, hid2b, hne, hne2, List.count_cons]
  · rw [get_desc a hchain2n hdesc2n, find_desc_unique hdesc2n (by simp) hid2a]
  · rw [get_desc b hchain2n hdesc2n, find_desc_unique hdesc2n (by simp) hid2b]

theorem findOrAdd_mixed_order_witness :
    (GetTopRef Mem.fresh = none ∧ (3 : Int) < 5) ∧
    ∃ (m1 m2 : Mem) (ra rb : Nat),
      FindOrAddPidRef true Mem.fresh true 5 = .ok (m1, some ra) ∧
      FindOrAddPidRef true m1 true 3 = .ok (m2, some rb) ∧
      (∀ alloc, FindOrAddPidRef true m2 alloc 5 = .ok (m2, some ra)) ∧
      chainOf m2 = some [ra, rb] ∧ scopeIds m2 [ra, rb] = [5, 3] ∧
      (scopeIds m2 [ra, rb]).count 5 = 1 ∧
      GetPidRefForScopeId m2 5 = .ok (some ra) ∧
      GetPidRefForScopeId m2 3 = .ok (some rb) ∧ ra ≠ rb :=
  ⟨⟨rfl, by decide⟩, findOrAdd_mixed_order Mem.fresh true 5 3 rfl (by decide)⟩

/-! ## Where the walk stops -/

theorem loop_eq_walk (dbg : Bool) (m : Mem) (alloc : Bool) (scopeId : Int) (fuel : Nat)
    (ref : Nat) (prevRef : Option Nat) :
    FindOrAddPidRef.loop dbg m alloc scopeId fuel ref prevRef =
      match FindOrAddPidRef.walk dbg m.arena scopeId fuel ref prevRef with
      | .error e => .error e
      | .ok (x, px) => FindOrAddPidRef.finish m alloc scopeId x px := by
  induction fuel generalizing ref prevRef with
  | zero => rfl
  | succ fuel ih =>
    rw [FindOrAddPidRef.loop, FindOrAddPidRef.walk]
    cases hr : m.arena[ref]? with
    | none => rfl
    | some r =>
      simp only []
      by_cases hid : r.id = scopeId
      · simp only [if_pos hid, FindOrAddPidRef.finish, hr]
      · simp only [if_neg hid]
        by_cases hstop : r.prev = none ∨ r.id < scopeId
        · simp only [if_pos hstop, FindOrAddPidRef.finish, hr, if_neg hid]
        · simp only [if_neg hstop]
          cases hp : r.prev with
          | none => rfl
          | some next =>
            simp only []
            cases FindOrAddPidRef.assertOrder dbg m.arena r next with
            | error e => rfl
            | ok u => exact ih next (some ref)

theorem walk_stop {dbg : Bool} {arena : List PidRefStack} {scopeId : Int} {fuel : Nat}
    {ref : Nat} {prevRef : Option Nat} {found : Nat} {pf : Option Nat}
    (h : FindOrAddPidRef.walk dbg arena scopeId fuel ref prevRef = .ok (found, pf)) :
    ∃ r, arena[found]? = some r ∧
      (r.id = scopeId ∨ r.id < scopeId ∨ (scopeId < r.id ∧ r.prev = none)) := by
  induction fuel generalizing ref prevRef with
  | zero => simp [FindOrAddPidRef.walk] at h
  | succ fuel ih =>
    rw [FindOrAddPidRef.walk] at h
    cases hr : arena[ref]? with
    | none => simp [hr] at h
    | some r =>
      simp only [hr] at h
      by_cases hid : r.id = scopeId
      · rw [if_pos hid] at h
        cases h
        exact ⟨r, hr, Or.inl hid⟩
      · rw [if_neg hid] at h
        by_cases hstop : r.prev = none ∨ r.id < scopeId
        · rw [if_pos hstop] at h
          cases h
          refine ⟨r, hr, Or.inr ?_⟩
          rcases hstop with hp | hlt
          · by_cases hlt : r.id < scopeId
            · exact Or.inl hlt
            · exact Or.inr ⟨by omega, hp⟩
          · exact Or.inl hlt
        · rw [if_neg hstop] at h
          cases hp : r.prev with
          | none => simp [hp] at h
          | some next =>
            simp only [hp] at h
            cases ha : FindOrAddPidRef.assertOrder dbg arena r next with
            | error e => simp [ha] at h
            | ok u =>
              simp only [ha] at h
              exact ih h

/-- C9, as the code has it.  When the walk of `FindOrAddPidRef` stops at an entry whose id
differs from `scopeId` (an insertion point), that entry's id is less than `scopeId`, or it is
greater than `scopeId` and the entry is the last one of the chain (its `prev` is null); in
the latter case the new entry is linked directly behind it: the found entry's `prev` becomes
the new entry and the new entry's `prev` is null. -/
theorem findOrAdd_found_entry (dbg : Bool) (m : Mem) (scopeId : Int) (head found : Nat)
    (pf : Option Nat) (hhead : GetTopRef m = some head)
    (hwalk : FindOrAddPidRef.walk dbg m.arena scopeId m.arena.length head none =
      .ok (found, pf)) :
    ∃ r : PidRefStack, m.arena[found]? = some r ∧
      (r.id ≠ scopeId → r.id < scopeId ∨ (scopeId < r.id ∧ r.prev = none)) ∧
      (scopeId < r.id →
        ∃ (m1 : Mem) (e1 en : PidRefStack),
          FindOrAddPidRef dbg m true scopeId = .ok (m1, some m.arena.length) ∧
          m1.arena[found]? = some e1 ∧ e1.prev = some m.arena.length ∧
          m1.arena[m.arena.length]? = some en ∧ en.prev = none ∧ en.id = scopeId) := by
  obtain ⟨r, hr, hcases⟩ := walk_stop hwalk
  have hrun : ∀ alloc, FindOrAddPidRef dbg m alloc scopeId =
      FindOrAddPidRef.finish m alloc scopeId found pf := by
    intro alloc
    have hh : m.pid.m_pidRefStack = some head := hhead
    simp only [FindOrAddPidRef, hh]
    rw [loop_eq_walk, hwalk]
  refine ⟨r, hr, ?_, ?_⟩
  · intro hne
    rcases hcases with h | h | h
    · exact absurd h hne
    · exact Or.inl h
    · exact Or.inr h
  · intro hgt
    have hprev : r.prev = none := by
      rcases hcases with h | h | h
      · omega
      · omega
      · exact h.2
    refine ⟨linkAfter m scopeId found r, _, _, ?_,
      linkAfter_pred scopeId r (lt_of_getElem? hr), rfl, linkAfter_new m scopeId found r,
      hprev, rfl⟩
    rw [hrun true]
    simp only [FindOrAddPidRef.finish, hr]
    rw [if_neg (by omega), insert_ge pf (by omega) hr]

theorem findOrAdd_found_entry_witness :
    (GetTopRef (build [5] Mem.fresh) = some 0 ∧
      FindOrAddPidRef.walk true (build [5] Mem.fresh).arena 3
        (build [5] Mem.fresh).arena.length 0 none = .ok (0, none)) ∧
    ∃ r : PidRefStack, (build [5] Mem.fresh).arena[0]? = some r ∧
      (r.id ≠ 3 → r.id < 3 ∨ (3 < r.id ∧ r.prev = none)) ∧
      (3 < r.id →
        ∃ (m1 : Mem) (e1 en : PidRefStack),
          FindOrAddPidRef true (build [5] Mem.fresh) true 3 =
            .ok (m1, some (build [5] Mem.fresh).arena.length) ∧
          m1.arena[0]? = some e1 ∧ e1.prev = some (build [5] Mem.fresh).arena.length ∧
          m1.arena[(build [5] Mem.fresh).arena.length]? = some en ∧ en.prev = none ∧
          en.id = 3) :=
  ⟨⟨rfl, rfl⟩, findOrAdd_found_entry true (build [5] Mem.fresh) 3 0 0 none rfl rfl⟩

/-- C9, as the claim states it, fails on the chain `[5]` with `scopeId = 3`: the walk stops
at the only entry, whose id 5 differs from 3 (an insertion point), a new entry is created
and linked, and the found entry's id is not less than 3. -/
theorem findOrAdd_found_entry_counterexample :
    GetTopRef (build [5] Mem.fresh) = some 0 ∧
    FindOrAddPidRef.walk true (build [5] Mem.fresh).arena 3
      (build [5] Mem.fresh).arena.length 0 none = .ok (0, none) ∧
    FindOrAddPidRef true (build [5] Mem.fresh) true 3 = .ok (build [5, 3] Mem.fresh, some 1) ∧
    chainOf (build [5, 3] Mem.fresh) = some [0, 1] ∧
    idAt (build [5] Mem.fresh).arena 0 = 5 ∧
    ¬ idAt (build [5] Mem.fresh).arena 0 < 3 :=
  ⟨rfl, rfl, rfl, rfl, rfl, by decide⟩

/-- C10 (remove semantics).  On a chain `a :: rest`, `RemovePrevPidRef(nullptr)` returns the
old head `a` and makes `a->prev` the new head; the arena is untouched and the chain becomes
`rest`.  On a chain `pre ++ r :: f :: post`, `RemovePrevPidRef(r)` returns `f` and sets
`r->prev` to `f->prev`; nothing else is written, the head is unchanged and the chain becomes
`pre ++ r :: post`.  In both cases the returned entry is no longer in the chain and the
other entries keep their order. -/
theorem removePrev_semantics :
    (∀ (m : Mem) (dbg : Bool) (a : Nat) (rest : List Nat),
      chainOf m = some (a :: rest) →
      ∃ (m1 : Mem) (e : PidRefStack),
        RemovePrevPidRef dbg m none = .ok (m1, some a) ∧
        m.arena[a]? = some e ∧ GetTopRef m1 = e.prev ∧ m1.arena = m.arena ∧
        chainOf m1 = some rest ∧ a ∉ rest) ∧
    (∀ (m : Mem) (dbg : Bool) (pre post : List Nat) (r f : Nat),
      chainOf m = some (pre ++ r :: f :: post) →
      ∃ (m1 : Mem) (er ef : PidRefStack),
        RemovePrevPidRef dbg m (some r) = .ok (m1, some f) ∧
        m.arena[r]? = some er ∧ er.prev = some f ∧ m.arena[f]? = some ef ∧
        m1.arena[r]? = some { er with prev := ef.prev } ∧
        (∀ x, x ≠ r → m1.arena[x]? = m.arena[x]?) ∧
        m1.pid = m.pid ∧
        chainOf m1 = some (pre ++ r :: post) ∧ f ∉ pre ++ r :: post) := by
  constructor
  · intro m dbg a rest hchain
    have hseg := chainOf_eq_some.mp hchain
    obtain ⟨e, he, h1, hrun⟩ := removePrev_head dbg hseg
    refine ⟨_, e, hrun, he, rfl, rfl, chainOf_eq_some.mpr h1, ?_⟩
    exact (List.nodup_cons.mp hseg.nodup).1
  · intro m dbg pre post r f hchain
    have hseg := chainOf_eq_some.mp hchain
    obtain ⟨er, ef, her, hef, hprev, hseg1, hrun⟩ := removePrev_mid dbg hseg
    refine ⟨_, er, ef, hrun, her, hprev, hef, ?_, ?_, rfl, chainOf_eq_some.mpr hseg1, ?_⟩
    · simp [List.getElem?_set_self, lt_of_getElem? her]
    · intro x hx
      exact List.getElem?_set_ne (Ne.symm hx)
    · have hnd := hseg.nodup
      have hperm : (pre ++ r :: f :: post).Perm (f :: (pre ++ r :: post)) := by
        have h1 : (pre ++ r :: f :: post) = (pre ++ [r]) ++ f :: post := by simp
        have h2 : (pre ++ r :: post) = (pre ++ [r]) ++ post := by simp
        rw [h1, h2]
        exact List.perm_middle
      exact (List.nodup_cons.mp (hperm.nodup_iff.mp hnd)).1

theorem removePrev_semantics_witness :
    (chainOf (build [5, 1, 3] Mem.fresh) = some (0 :: [2, 1]) ∧
      ∃ (m1 : Mem) (e : PidRefStack),
        RemovePrevPidRef true (build [5, 1, 3] Mem.fresh) none = .ok (m1, some 0) ∧
        (build [5, 1, 3] Mem.fresh).arena[0]? = some e ∧ GetTopRef m1 = e.prev ∧
        m1.arena = (build [5, 1, 3] Mem.fresh).arena ∧
        chainOf m1 = some [2, 1] ∧ 0 ∉ [2, 1]) ∧
    (chainOf (build [5, 1, 3] Mem.fresh) = some ([] ++ 0 :: 2 :: [1]) ∧
      ∃ (m1 : Mem) (er ef : PidRefStack),
        RemovePrevPidRef true (build [5, 1, 3] Mem.fresh) (some 0) = .ok (m1, some 2) ∧
        (build [5, 1, 3] Mem.fresh).arena[0]? = some er ∧ er.prev = some 2 ∧
        (build [5, 1, 3] Mem.fresh).arena[2]? = some ef ∧
        m1.arena[0]? = some { er with prev := ef.prev } ∧
        (∀ x, x ≠ 0 → m1.arena[x]? = (build [5, 1, 3] Mem.fresh).arena[x]?) ∧
        m1.pid = (build [5, 1, 3] Mem.fresh).pid ∧
        chainOf m1 = some ([] ++ 0 :: [1]) ∧ 2 ∉ [] ++ 0 :: [1]) :=
  ⟨⟨rfl, removePrev_semantics.1 (build [5, 1, 3] Mem.fresh) true 0 [2, 1] rfl⟩,
   ⟨rfl, removePrev_semantics.2 (build [5, 1, 3] Mem.fresh) true [] [1] 0 2 rfl⟩⟩

/-! ## Push and remove at the head -/

theorem findOrAdd_push {m : Mem} {l : List Nat} (dbg : Bool) {scopeId : Int}
    (hseg : Seg m.arena m.pid.m_pidRefStack l none)
    (hhead : ∀ f, l.head? = some f → idAt m.arena f < scopeId) :
    FindOrAddPidRef dbg m true scopeId = .ok (linkHead m scopeId, some m.arena.length) ∧
    FindOrAddPidRef dbg m false scopeId = .ok (m, none) := by
  cases l with
  | nil => exact findOrAdd_empty dbg scopeId hseg
  | cons f rest => exact findOrAdd_head dbg hseg (hhead f rfl)

theorem removePrev_linkHead (dbg : Bool) (m : Mem) (scopeId : Int) :
    RemovePrevPidRef dbg (linkHead m scopeId) none =
      .ok ({ m with arena := m.arena ++
              [{ PidRefStack.ctor scopeId with prev := m.pid.m_pidRefStack }] },
           some m.arena.length) := by
  simp [RemovePrevPidRef, linkHead]

/-- C11 (remove undoes a push).  On a well-formed chain (every reachable record has one)
that is empty or whose head id is less than `scopeId`, `FindOrAddPidRef(scopeId)` followed
by `RemovePrevPidRef(nullptr)` returns the entry just added and restores the record: the
identifier record is what it was, so `GetTopRef()` is the old head; the chain is the old
chain; every old object is untouched; the detached entry stays in the arena. -/
theorem findOrAdd_then_remove (m : Mem) (l : List Nat) (dbg : Bool) (scopeId : Int)
    (hchain : chainOf m = some l)
    (hhead : ∀ f, l.head? = some f → idAt m.arena f < scopeId) :
    ∃ (m1 m2 : Mem) (r : Nat),
      FindOrAddPidRef dbg m true scopeId = .ok (m1, some r) ∧
      RemovePrevPidRef dbg m1 none = .ok (m2, some r) ∧
      r ∉ l ∧ m2.pid = m.pid ∧ GetTopRef m2 = GetTopRef m ∧ chainOf m2 = some l ∧
      m2.arena = m.arena ++ [{ PidRefStack.ctor scopeId with prev := GetTopRef m }] ∧
      (∀ (a : Nat) (e : PidRefStack), m.arena[a]? = some e → m2.arena[a]? = some e) := by
  have hseg := chainOf_eq_some.mp hchain
  refine ⟨linkHead m scopeId, _, m.arena.length, (findOrAdd_push dbg hseg hhead).1,
    removePrev_linkHead dbg m scopeId, ?_, rfl, rfl, ?_, rfl, ?_⟩
  · intro h
    exact absurd (hseg.lt_length _ h) (Nat.lt_irrefl _)
  · rw [chainOf_eq_some]
    exact hseg.congr (fun a _ r hr => ⟨r, linkHead_old scopeId hr, rfl⟩)
  · intro a e he
    exact linkHead_old scopeId he

theorem findOrAdd_then_remove_witness :
    (chainOf (build [1] Mem.fresh) = some [0] ∧
      (∀ f, [0].head? = some f → idAt (build [1] Mem.fresh).arena f < 2) ∧
      GetTopRef (build [1] Mem.fresh) = some 0 ∧ idAt (build [1] Mem.fresh).arena 0 = 1) ∧
    ∃ (m1 m2 : Mem) (r : Nat),
      FindOrAddPidRef true (build [1] Mem.fresh) true 2 = .ok (m1, some r) ∧
      RemovePrevPidRef true m1 none = .ok (m2, some r) ∧
      r ∉ [0] ∧ m2.pid = (build [1] Mem.fresh).pid ∧
      GetTopRef m2 = GetTopRef (build [1] Mem.fresh) ∧ chainOf m2 = some [0] ∧
      m2.arena = (build [1] Mem.fresh).arena ++
        [{ PidRefStack.ctor 2 with prev := GetTopRef (build [1] Mem.fresh) }] ∧
      (∀ (a : Nat) (e : PidRefStack),
        (build [1] Mem.fresh).arena[a]? = some e → m2.arena[a]? = some e) :=
  ⟨⟨rfl, by decide, rfl, rfl⟩,
   findOrAdd_then_remove (build [1] Mem.fresh) [0] true 2 rfl (by decide)⟩

/-! ## Allocation failure -/

theorem finish_noalloc {m m1 : Mem} {scopeId : Int} {ref : Nat} {prevRef res : Option Nat}
    (h : FindOrAddPidRef.finish m false scopeId ref prevRef = .ok (m1, res)) : m1 = m := by
  simp only [FindOrAddPidRef.finish] at h
  cases hr : m.arena[ref]? with
  | none => simp [hr] at h
  | some r =>
    simp only [hr, insert_noalloc] at h
    split at h
    · cases h
      rfl
    · cases h
      rfl

theorem findOrAdd_noalloc {dbg : Bool} {m m1 : Mem} {scopeId : Int} {res : Option Nat}
    (h : FindOrAddPidRef dbg m false scopeId = .ok (m1, res)) : m1 = m := by
  simp only [FindOrAddPidRef] at h
  cases hh : m.pid.m_pidRefStack with
  | none =>
    simp [hh] at h
    exact h.1.symm
  | some head =>
    simp only [hh, loop_eq_walk] at h
    cases hw : FindOrAddPidRef.walk dbg m.arena scopeId m.arena.length head none with
    | error e => simp [hw] at h
    | ok v =>
      obtain ⟨x, px⟩ := v
      simp only [hw] at h
      exact finish_noalloc h

theorem weak_sublist {arena : List PidRefStack} {l k : List Nat}
    (h : l.Pairwise (fun a b => idAt arena b ≤ idAt arena a)) (hs : k.Sublist l) :
    k.Pairwise (fun a b => idAt arena b ≤ idAt arena a) :=
  h.sublist hs

theorem weak_iff_sorted {m : Mem} {l : List Nat} :
    l.Pairwise (fun a b => idAt m.arena b ≤ idAt m.arena a) ↔
      (scopeIds m l).Sorted (· ≥ ·) := by
  simp only [scopeIds, List.Sorted, List.pairwise_map, ge_iff_le]

theorem findOrAdd_absent {m : Mem} {l : List Nat} {dbg : Bool} {scopeId : Int}
    (hseg : Seg m.arena m.pid.m_pidRefStack l none)
    (hweak : dbg = true → l.Pairwise (fun a b => idAt m.arena b ≤ idAt m.arena a))
    (habsent : ∀ a ∈ l, idAt m.arena a ≠ scopeId) :
    FindOrAddPidRef dbg m false scopeId = .ok (m, none) := by
  obtain ⟨hi, lo, rfl, hgt, hle⟩ := split_at m.arena scopeId l
  cases lo with
  | nil =>
    rcases List.eq_nil_or_concat hi with rfl | ⟨hi1, p, rfl⟩
    · exact (findOrAdd_empty dbg scopeId hseg).2
    · rw [List.concat_eq_append] at hseg hgt hweak
      rw [List.append_nil] at hseg hweak
      obtain ⟨rp, hp⟩ := getElem?_of_lt (hseg.lt_length p (by simp))
      exact (findOrAdd_last dbg hseg hp hgt hweak).2
  | cons f rest =>
    have hflt : idAt m.arena f < scopeId :=
      lt_of_le_of_ne (hle f rfl) (habsent f (by simp))
    rcases List.eq_nil_or_concat hi with rfl | ⟨hi1, p, rfl⟩
    · rw [List.nil_append] at hseg
      exact (findOrAdd_head dbg hseg hflt).2
    · rw [List.concat_eq_append] at hseg hgt hweak
      rw [List.append_assoc, List.singleton_append] at hseg hweak
      obtain ⟨rp, hp⟩ := getElem?_of_lt (hseg.lt_length p (by simp))
      exact (findOrAdd_between dbg hseg hp hgt hflt
        (fun hd => weak_sublist (hweak hd) (by simp))).2

theorem findOrAdd_present {m : Mem} {l : List Nat} (dbg : Bool) {scopeId : Int}
    (hseg : Seg m.arena m.pid.m_pidRefStack l none)
    (hweak : l.Pairwise (fun a b => idAt m.arena b ≤ idAt m.arena a))
    (hpresent : ∃ a ∈ l, idAt m.arena a = scopeId) :
    ∃ x ∈ l, idAt m.arena x = scopeId ∧
      ∀ alloc, FindOrAddPidRef dbg m alloc scopeId = .ok (m, some x) := by
  obtain ⟨hi, lo, rfl, hgt, hle⟩ := split_at m.arena scopeId l
  obtain ⟨a, ha, hid⟩ := hpresent
  have halo : a ∈ lo := by
    rcases List.mem_append.mp ha with h | h
    · exact absurd hid (ne_of_gt (hgt a h))
    · exact h
  cases lo with
  | nil => simp at halo
  | cons f rest =>
    have hfeq : idAt m.arena f = scopeId := by
      rcases List.mem_cons.mp halo with rfl | har
      · exact hid
      · have h1 := List.rel_of_pairwise_cons (List.pairwise_append.mp hweak).2.1 har
        have h2 := hle f rfl
        omega
    exact ⟨f, by simp, hfeq, fun alloc =>
      findOrAdd_found alloc hseg hgt hfeq (fun _ => weak_sublist hweak (by simp))⟩

/-- C12 (allocation-failure atomicity).  Whenever `FindOrAddPidRef` returns although `Anew`
cannot allocate, the whole memory (head, every link, every entry, the size of the arena) is
what it was, on any memory at all.  On every reachable record, for every `scopeId`: if no
entry of the chain carries `scopeId`, the call with a failing allocation returns `nullptr`;
and an entry that carries `scopeId` is returned whether or not `Anew` could allocate, so no
allocation is attempted.  Beyond reachable records: the first half holds on every
well-formed chain whose walk no assertion stops, the second on every well-formed chain whose
ids are weakly decreasing from the head. -/
theorem findOrAdd_alloc_failure :
    (∀ (dbg : Bool) (m m1 : Mem) (scopeId : Int) (res : Option Nat),
      FindOrAddPidRef dbg m false scopeId = .ok (m1, res) → m1 = m) ∧
    (∀ m : Mem, Reachable m → ∀ (dbg : Bool) (scopeId : Int),
      ∃ l, chainOf m = some l ∧
        ((∀ a ∈ l, idAt m.arena a ≠ scopeId) →
          FindOrAddPidRef dbg m false scopeId = .ok (m, none)) ∧
        (∀ x ∈ l, idAt m.arena x = scopeId →
          ∀ alloc, FindOrAddPidRef dbg m alloc scopeId = .ok (m, some x))) ∧
    (∀ (m : Mem) (l : List Nat) (dbg : Bool) (scopeId : Int), chainOf m = some l →
      (dbg = true → (scopeIds m l).Sorted (· ≥ ·)) →
      (∀ a ∈ l, idAt m.arena a ≠ scopeId) →
      FindOrAddPidRef dbg m false scopeId = .ok (m, none)) ∧
    (∀ (m : Mem) (l : List Nat) (dbg : Bool) (scopeId : Int), chainOf m = some l →
      (scopeIds m l).Sorted (· ≥ ·) → (∃ a ∈ l, idAt m.arena a = scopeId) →
      ∃ x ∈ l, idAt m.arena x = scopeId ∧
        ∀ alloc, FindOrAddPidRef dbg m alloc scopeId = .ok (m, some x)) := by
  refine ⟨fun dbg m m1 scopeId res h => findOrAdd_noalloc h, ?_, ?_, ?_⟩
  · intro m hm dbg scopeId
    obtain ⟨l, hseg, hdesc⟩ := hm.inv
    have hweak := hdesc.weaken (List.Sublist.refl l)
    refine ⟨l, chainOf_eq_some.mpr hseg, fun h => findOrAdd_absent hseg (fun _ => hweak) h, ?_⟩
    intro x hx hid alloc
    obtain ⟨y, hy, hyid, hrun⟩ := findOrAdd_present dbg hseg hweak ⟨x, hx, hid⟩
    have hxy : x = y := by
      have h1 := find_desc_unique hdesc hx hid
      have h2 := find_desc_unique hdesc hy hyid
      rw [h1] at h2
      exact Option.some.inj h2
    rw [hxy]
    exact hrun alloc
  · intro m l dbg scopeId hchain hsorted habsent
    exact findOrAdd_absent (chainOf_eq_some.mp hchain)
      (fun hd => weak_iff_sorted.mpr (hsorted hd)) habsent
  · intro m l dbg scopeId hchain hsorted hpresent
    exact findOrAdd_present dbg (chainOf_eq_some.mp hchain) (weak_iff_sorted.mpr hsorted)
      hpresent

theorem findOrAdd_alloc_failure_witness :
    (FindOrAddPidRef true (build [5, 1, 3] Mem.fresh) false 4 =
        .ok (build [5, 1, 3] Mem.fresh, none) ∧
      Reachable (build [5, 1, 3] Mem.fresh)) ∧
    build [5, 1, 3] Mem.fresh = build [5, 1, 3] Mem.fresh ∧
    ∃ l, chainOf (build [5, 1, 3] Mem.fresh) = some l ∧
      ((∀ a ∈ l, idAt (build [5, 1, 3] Mem.fresh).arena a ≠ 3) →
        FindOrAddPidRef true (build [5, 1, 3] Mem.fresh) false 3 =
          .ok (build [5, 1, 3] Mem.fresh, none)) ∧
      (∀ x ∈ l, idAt (build [5, 1, 3] Mem.fresh).arena x = 3 →
        ∀ alloc, FindOrAddPidRef true (build [5, 1, 3] Mem.fresh) alloc 3 =
          .ok (build [5, 1, 3] Mem.fresh, some x)) :=
  ⟨⟨rfl, Reachable.build (Reachable.fresh [] Ident.fresh rfl) _⟩,
   findOrAdd_alloc_failure.1 true (build [5, 1, 3] Mem.fresh) (build [5, 1, 3] Mem.fresh) 4
     none rfl,
   findOrAdd_alloc_failure.2.1 (build [5, 1, 3] Mem.fresh)
     (Reachable.build (Reachable.fresh [] Ident.fresh rfl) _) true 3⟩

/-! ## Assertions of `RemovePrevPidRef` and `GetPidRefForScopeId` -/

/-- C13 (removing when there is nothing to remove).  In a build that evaluates assertions,
`RemovePrevPidRef(nullptr)` trips `Assert(prevRef)` exactly when the chain is empty, and
`RemovePrevPidRef(ref)` for an entry `ref` trips it exactly when `ref->prev` is null (`ref`
is the last entry).  In every other case on a well-formed chain the call returns an entry,
in a debug and in a release build alike; a release build never reports an assertion. -/
theorem removePrev_assert :
    (∀ m : Mem, RemovePrevPidRef true m none = .error .assertFailed ↔ GetTopRef m = none) ∧
    (∀ (m : Mem) (r : Nat) (e : PidRefStack), m.arena[r]? = some e →
      (RemovePrevPidRef true m (some r) = .error .assertFailed ↔ e.prev = none)) ∧
    (∀ (dbg : Bool) (m : Mem) (l : List Nat), chainOf m = some l → l ≠ [] →
      ∃ (m1 : Mem) (f : Nat), RemovePrevPidRef dbg m none = .ok (m1, some f)) ∧
    (∀ (dbg : Bool) (m : Mem) (l : List Nat) (r : Nat) (e : PidRefStack),
      chainOf m = some l → r ∈ l → m.arena[r]? = some e → e.prev ≠ none →
      ∃ (m1 : Mem) (f : Nat), RemovePrevPidRef dbg m (some r) = .ok (m1, some f)) ∧
    (∀ (m : Mem) (ref : Option Nat), RemovePrevPidRef false m ref ≠ .error .assertFailed) := by
  refine ⟨?_, ?_, ?_, ?_, ?_⟩
  · intro m
    simp only [RemovePrevPidRef, GetTopRef]
    cases hh : m.pid.m_pidRefStack with
    | none => simp
    | some p => cases hp : m.arena[p]? <;> simp [hp]
  · intro m r e he
    simp only [RemovePrevPidRef, he]
    cases hp : e.prev with
    | none => simp
    | some f => cases hf : m.arena[f]? <;> simp [hf]
  · intro dbg m l hchain hne
    have hseg := chainOf_eq_some.mp hchain
    cases l with
    | nil => exact absurd rfl hne
    | cons a rest =>
      obtain ⟨e, _, _, hrun⟩ := removePrev_head dbg hseg
      exact ⟨_, a, hrun⟩
  · intro dbg m l r e hchain hr he hprev
    have hseg := chainOf_eq_some.mp hchain
    obtain ⟨pre, rest, rfl⟩ := List.append_of_mem hr
    cases rest with
    | nil =>
      obtain ⟨q, _, h2⟩ := Seg.append_iff.mp hseg
      obtain ⟨_, rx, hrx, hnil⟩ := h2
      rw [he] at hrx
      cases hrx
      exact absurd hnil hprev
    | cons f post =>
      obtain ⟨rx, rf, _, _, _, _, hrun⟩ := removePrev_mid dbg hseg
      exact ⟨_, f, hrun⟩
  · intro m ref
    simp only [RemovePrevPidRef]
    cases ref with
    | none =>
      cases hh : m.pid.m_pidRefStack with
      | none => simp
      | some p => cases hp : m.arena[p]? <;> simp [hp]
    | some r =>
      cases hr : m.arena[r]? with
      | none => simp [hr]
      | some e =>
        cases hp : e.prev with
        | none => simp [hr, hp]
        | some f => cases hf : m.arena[f]? <;> simp [hr, hp, hf]

theorem removePrev_assert_witness :
    ((build [5, 1] Mem.fresh).arena[1]? = some (PidRefStack.ctor 1) ∧
      (chainOf (build [5, 1] Mem.fresh) = some [0, 1] ∧ [0, 1] ≠ []) ∧
      (0 ∈ [0, 1] ∧ (build [5, 1] Mem.fresh).arena[0]? =
          some { PidRefStack.ctor 5 with prev := some 1 } ∧
        ({ PidRefStack.ctor 5 with prev := some 1 } : PidRefStack).prev ≠ none)) ∧
    (RemovePrevPidRef true Mem.fresh none = .error .assertFailed ↔
      GetTopRef Mem.fresh = none) ∧
    (RemovePrevPidRef true (build [5, 1] Mem.fresh) (some 1) = .error .assertFailed ↔
      (PidRefStack.ctor 1).prev = none) ∧
    (∃ (m1 : Mem) (f : Nat),
      RemovePrevPidRef true (build [5, 1] Mem.fresh) none = .ok (m1, some f)) ∧
    (∃ (m1 : Mem) (f : Nat),
      RemovePrevPidRef true (build [5, 1] Mem.fresh) (some 0) = .ok (m1, some f)) :=
  ⟨⟨rfl, ⟨rfl, by decide⟩, by decide, rfl, by decide⟩,
   removePrev_assert.1 Mem.fresh,
   removePrev_assert.2.1 (build [5, 1] Mem.fresh) 1 (PidRefStack.ctor 1) rfl,
   removePrev_assert.2.2.1 true (build [5, 1] Mem.fresh) [0, 1] rfl (by decide),
   removePrev_assert.2.2.2.1 true (build [5, 1] Mem.fresh) [0, 1] 0
     { PidRefStack.ctor 5 with prev := some 1 } rfl (by decide) rfl (by decide)⟩

theorem get_loop_no_entry {arena : List PidRefStack} {l : List Nat} {p : Option Nat}
    {scopeId : Int} (hseg : Seg arena p l none)
    (hne : ∀ a ∈ l, idAt arena a ≠ scopeId) {fuel : Nat} (hf : l.length ≤ fuel) :
    GetPidRefForScopeId.loop arena scopeId fuel p = .ok none := by
  induction l generalizing p fuel with
  | nil =>
    have hp : p = none := hseg
    subst hp
    exact get_loop_none arena scopeId fuel
  | cons a l ih =>
    obtain ⟨hp, r, hr, h1⟩ := hseg
    subst hp
    cases fuel with
    | zero => simp at hf
    | succ fuel =>
      rw [GetPidRefForScopeId.loop]
      simp only [hr, PidRefStack.GetScopeId]
      have hida : r.id ≠ scopeId := by
        rw [← idAt_eq hr]
        exact hne a (List.mem_cons_self _ _)
      rw [if_neg hida]
      by_cases hlt : r.id < scopeId
      · rw [if_pos hlt]
      · rw [if_neg hlt]
        exact ih h1 (fun b hb => hne b (List.mem_cons_of_mem _ hb))
          (Nat.le_of_succ_le_succ hf)

theorem get_loop_never_asserts (arena : List PidRefStack) (scopeId : Int) (fuel : Nat)
    (p : Option Nat) :
    GetPidRefForScopeId.loop arena scopeId fuel p ≠ .error .assertFailed := by
  induction fuel generalizing p with
  | zero => cases p <;> simp [GetPidRefForScopeId.loop]
  | succ fuel ih =>
    cases p with
    | none => simp [GetPidRefForScopeId.loop]
    | some ref =>
      rw [GetPidRefForScopeId.loop]
      cases hr : arena[ref]? with
      | none => simp
      | some r =>
        simp only []
        split
        · simp
        · split
          · simp
          · exact ih r.prev

/-- C14, as the code has it.  On every well-formed chain that holds no entry for `scopeId`,
`GetPidRefForScopeId(scopeId)` completes normally and returns `nullptr`; and on no memory
at all does the call report an assertion failure, since its body contains no assertion. -/
theorem getPidRefForScopeId_absent (m : Mem) (l : List Nat) (scopeId : Int)
    (hchain : chainOf m = some l) (habsent : ∀ a ∈ l, idAt m.arena a ≠ scopeId) :
    GetPidRefForScopeId m scopeId = .ok none ∧
    ∀ (m1 : Mem) (s : Int), GetPidRefForScopeId m1 s ≠ .error .assertFailed := by
  have hseg := chainOf_eq_some.mp hchain
  exact ⟨get_loop_no_entry hseg habsent hseg.length_le,
    fun m1 s => get_loop_never_asserts m1.arena s m1.arena.length m1.pid.m_pidRefStack⟩

theorem getPidRefForScopeId_absent_witness :
    (chainOf (build [5, 1] Mem.fresh) = some [0, 1] ∧
      ∀ a ∈ [0, 1], idAt (build [5, 1] Mem.fresh).arena a ≠ 3) ∧
    GetPidRefForScopeId (build [5, 1] Mem.fresh) 3 = .ok none :=
  ⟨⟨rfl, by decide⟩,
   (getPidRefForScopeId_absent (build [5, 1] Mem.fresh) [0, 1] 3 rfl (by decide)).1⟩

/-- C14, as the claim states it, fails on the chain with ids `[7, 2]` and `scopeId = 4`:
no entry carries 4, and `GetPidRefForScopeId(4)` completes normally with `nullptr` instead
of tripping an assertion. -/
theorem getPidRefForScopeId_absent_counterexample :
    chainOf (build [7, 2] Mem.fresh) = some [0, 1] ∧
    scopeIds (build [7, 2] Mem.fresh) [0, 1] = [7, 2] ∧
    GetPidRefForScopeId (build [7, 2] Mem.fresh) 4 = .ok none ∧
    GetPidRefForScopeId (build [7, 2] Mem.fresh) 4 ≠ .error .assertFailed :=
  ⟨rfl, rfl, rfl, fun h => by
    have h2 : GetPidRefForScopeId (build [7, 2] Mem.fresh) 4 = .ok none := rfl
    rw [h2] at h
    cases h⟩

/-! ## The assignment state and the flag word of the record -/

theorem promote_iterate (pid : Ident) (h0 : pid.assignmentState = .NotAssigned) (n : Nat) :
    Nat.iterate Ident.PromoteAssignmentState n pid =
      { pid with assignmentState :=
          if n = 0 then .NotAssigned
          else if n = 1 then .AssignedOnce else .AssignedMultipleTimes } := by
  induction n with
  | zero =>
    cases pid
    simp only [Function.iterate_zero, id_eq] at *
    simp [h0]
  | succ n ih =>
    rw [Function.iterate_succ_apply', ih]
    cases n with
    | zero => simp [Ident.PromoteAssignmentState]
    | succ k =>
      cases k with
      | zero => simp [Ident.PromoteAssignmentState]
      | succ j => simp [Ident.PromoteAssignmentState]

/-- C15 (assignment-state monotonicity).  On a record whose state is `NotAssigned`, `n`
consecutive `PromoteAssignmentState()` calls leave the state `AssignedOnce` for `n = 1` and
`AssignedMultipleTimes` for every `n >= 2`, and change no other field; `IsSingleAssignment()`
is then true exactly when `n = 1`.  On any record the call at the terminal state is a no-op,
the state never moves backwards, and only the state field is written. -/
theorem promoteAssignmentState_sequence (pid : Ident)
    (h0 : pid.assignmentState = .NotAssigned) (n : Nat) :
    Nat.iterate Ident.PromoteAssignmentState n pid =
      { pid with assignmentState :=
          if n = 0 then .NotAssigned
          else if n = 1 then .AssignedOnce else .AssignedMultipleTimes } ∧
    ((Nat.iterate Ident.PromoteAssignmentState n pid).IsSingleAssignment = true ↔ n = 1) ∧
    (∀ q : Ident, q.assignmentState = .AssignedMultipleTimes →
      q.PromoteAssignmentState = q) ∧
    (∀ q : Ident,
      q.assignmentState.toNat ≤ q.PromoteAssignmentState.assignmentState.toNat) ∧
    (∀ q : Ident, q.PromoteAssignmentState =
      { q with assignmentState := q.PromoteAssignmentState.assignmentState }) := by
  refine ⟨promote_iterate pid h0 n, ?_, ?_, ?_, ?_⟩
  · rw [promote_iterate pid h0 n]
    simp only [Ident.IsSingleAssignment, decide_eq_true_eq]
    by_cases hn0 : n = 0
    · simp [hn0]
    · by_cases hn1 : n = 1
      · simp [hn1]
      · simp [hn0, hn1]
  · intro q hq
    simp [Ident.PromoteAssignmentState, hq]
  · intro q
    simp only [Ident.PromoteAssignmentState]
    cases hq : q.assignmentState <;> simp [AssignmentState.toNat, hq]
  · intro q
    simp only [Ident.PromoteAssignmentState]
    split
    · rfl
    · split <;> rfl

theorem promoteAssignmentState_sequence_witness :
    Ident.fresh.assignmentState = .NotAssigned ∧
    (Nat.iterate Ident.PromoteAssignmentState 1 Ident.fresh).assignmentState =
      .AssignedOnce ∧
    (Nat.iterate Ident.PromoteAssignmentState 2 Ident.fresh).assignmentState =
      .AssignedMultipleTimes ∧
    (Nat.iterate Ident.PromoteAssignmentState 3 Ident.fresh).assignmentState =
      .AssignedMultipleTimes ∧
    ((Nat.iterate Ident.PromoteAssignmentState 3 Ident.fresh).IsSingleAssignment = true ↔
      3 = 1) :=
  ⟨rfl,
   congrArg Ident.assignmentState (promoteAssignmentState_sequence Ident.fresh rfl 1).1,
   congrArg Ident.assignmentState (promoteAssignmentState_sequence Ident.fresh rfl 2).1,
   congrArg Ident.assignmentState (promoteAssignmentState_sequence Ident.fresh rfl 3).1,
   (promoteAssignmentState_sequence Ident.fresh rfl 3).2.1⟩

theorem and_two_pow_ne_zero (x k : Nat) : x &&& 2 ^ k ≠ 0 ↔ x.testBit k = true := by
  constructor
  · intro h
    by_contra hb
    apply h
    apply Nat.eq_of_testBit_eq
    intro i
    rw [Nat.testBit_and, Nat.testBit_two_pow, Nat.zero_testBit]
    by_cases hki : k = i
    · subst hki
      simp [hb]
    · simp [hki]
  · intro hb h
    have := congrArg (fun y => Nat.testBit y k) h
    simp [Nat.testBit_two_pow, hb] at this

theorem getIsEval_iff (pid : Ident) : pid.GetIsEval ≠ 0 ↔ pid.m_grfid.testBit 3 = true :=
  and_two_pow_ne_zero pid.m_grfid 3

theorem getIsLetOrConst_iff (pid : Ident) :
    pid.GetIsLetOrConst ≠ 0 ↔ pid.m_grfid.testBit 4 = true :=
  and_two_pow_ne_zero pid.m_grfid 4

theorem setIsEval_testBit (pid : Ident) (i : Nat) (hi : i < 16) :
    pid.SetIsEval.m_grfid.testBit i = (pid.m_grfid.testBit i || decide (i = 3)) := by
  have h8 : fidEval = 2 ^ 3 := rfl
  simp only [Ident.SetIsEval, Nat.testBit_mod_two_pow, Nat.testBit_or, h8,
    Nat.testBit_two_pow, hi, decide_True, Bool.true_and]
  by_cases h : i = 3
  · simp [h]
  · have h2 : ¬ 3 = i := fun e => h e.symm
    simp [h, h2]

theorem setIsLetOrConst_testBit (pid : Ident) (i : Nat) (hi : i < 16) :
    pid.SetIsLetOrConst.m_grfid.testBit i = (pid.m_grfid.testBit i || decide (i = 4)) := by
  have h16 : fidLetOrConst = 2 ^ 4 := rfl
  simp only [Ident.SetIsLetOrConst, Nat.testBit_mod_two_pow, Nat.testBit_or, h16,
    Nat.testBit_two_pow, hi, decide_True, Bool.true_and]
  by_cases h : i = 4
  · simp [h]
  · have h2 : ¬ 4 = i := fun e => h e.symm
    simp [h, h2]

theorem insert_grfid {m m1 : Mem} {alloc : Bool} {scopeId : Int} {ref : Nat}
    {r : PidRefStack} {prevRef res : Option Nat}
    (h : FindOrAddPidRef.insert m alloc scopeId ref r prevRef = .ok (m1, res)) :
    m1.pid.m_grfid = m.pid.m_grfid := by
  simp only [FindOrAddPidRef.insert] at h
  repeat' split at h
  all_goals first
    | (cases h; rfl)
    | (simp at h)

theorem findOrAdd_grfid {dbg alloc : Bool} {m m1 : Mem} {scopeId : Int} {res : Option Nat}
    (h : FindOrAddPidRef dbg m alloc scopeId = .ok (m1, res)) :
    m1.pid.m_grfid = m.pid.m_grfid := by
  simp only [FindOrAddPidRef] at h
  cases hh : m.pid.m_pidRefStack with
  | none =>
    simp only [hh] at h
    repeat' split at h
    all_goals first
      | (cases h; rfl)
      | (simp at h)
  | some head =>
    simp only [hh, loop_eq_walk] at h
    cases hw : FindOrAddPidRef.walk dbg m.arena scopeId m.arena.length head none with
    | error e => simp [hw] at h
    | ok v =>
      obtain ⟨x, px⟩ := v
      simp only [hw, FindOrAddPidRef.finish] at h
      cases hr : m.arena[x]? with
      | none => simp [hr] at h
      | some r =>
        simp only [hr] at h
        split at h
        · cases h
          rfl
        · exact insert_grfid h

theorem removePrev_grfid {dbg : Bool} {m m1 : Mem} {ref res : Option Nat}
    (h : RemovePrevPidRef dbg m ref = .ok (m1, res)) : m1.pid.m_grfid = m.pid.m_grfid := by
  simp only [RemovePrevPidRef] at h
  repeat' split at h
  all_goals first
    | (cases h; rfl)
    | (simp at h)

theorem pushPidRef_grfid {dbg : Bool} {m m1 : Mem} {blockId : Int} {newRef : Option Nat}
    (h : PushPidRef dbg m blockId newRef = .ok m1) : m1.pid.m_grfid = m.pid.m_grfid := by
  simp only [PushPidRef] at h
  repeat' split at h
  all_goals first
    | (cases h; rfl)
    | (simp at h)

theorem RecordOp.testBit {m m1 : Mem} (h : RecordOp m m1) (i : Nat) (hi : i < 16)
    (hb : m.pid.m_grfid.testBit i = true) : m1.pid.m_grfid.testBit i = true := by
  cases h with
  | setIsEval => simp [setIsEval_testBit _ i hi, hb]
  | setIsLetOrConst => simp [setIsLetOrConst_testBit _ i hi, hb]
  | promoteAssignmentState =>
    have : m.pid.PromoteAssignmentState.m_grfid = m.pid.m_grfid := by
      simp only [Ident.PromoteAssignmentState]
      split
      · rfl
      · split <;> rfl
    simp only [this, hb]
  | setTopRef ref => exact hb
  | setPropertyId id => exact hb
  | pushPidRef dbg blockId newRef hcall => rw [pushPidRef_grfid hcall]; exact hb
  | removePrevPidRef dbg ref res hcall => rw [removePrev_grfid hcall]; exact hb
  | findOrAddPidRef dbg alloc scopeId res hcall => rw [findOrAdd_grfid hcall]; exact hb

/-- C16 (flag monotonicity).  After `SetIsEval()` `GetIsEval()` is true (not zero), after
`SetIsLetOrConst()` `GetIsLetOrConst()` is true; once either flag is set it stays set under
every sequence of calls of the writing methods of the record shown in Hash.h; and each
setter sets its own bit of the 16-bit flag word, leaves the other fifteen bits as they were
and writes no other field. -/
theorem flags_monotone :
    (∀ pid : Ident, pid.SetIsEval.GetIsEval ≠ 0 ∧ pid.SetIsLetOrConst.GetIsLetOrConst ≠ 0) ∧
    (∀ m m1 : Mem, Relation.ReflTransGen RecordOp m m1 →
      (m.pid.GetIsEval ≠ 0 → m1.pid.GetIsEval ≠ 0) ∧
      (m.pid.GetIsLetOrConst ≠ 0 → m1.pid.GetIsLetOrConst ≠ 0)) ∧
    (∀ (pid : Ident) (i : Nat), i < 16 →
      pid.SetIsEval.m_grfid.testBit i = (pid.m_grfid.testBit i || decide (i = 3)) ∧
      pid.SetIsLetOrConst.m_grfid.testBit i = (pid.m_grfid.testBit i || decide (i = 4))) ∧
    (∀ pid : Ident,
      pid.SetIsEval = { pid with m_grfid := pid.SetIsEval.m_grfid } ∧
      pid.SetIsLetOrConst = { pid with m_grfid := pid.SetIsLetOrConst.m_grfid } ∧
      pid.SetIsEval.m_grfid < 2 ^ 16 ∧ pid.SetIsLetOrConst.m_grfid < 2 ^ 16) := by
  refine ⟨?_, ?_, ?_, ?_⟩
  · intro pid
    rw [getIsEval_iff, getIsLetOrConst_iff, setIsEval_testBit _ 3 (by decide),
      setIsLetOrConst_testBit _ 4 (by decide)]
    simp
  · intro m m1 h
    induction h with
    | refl => exact ⟨id, id⟩
    | tail _ hstep ih =>
      refine ⟨fun h0 => ?_, fun h0 => ?_⟩
      · rw [getIsEval_iff]
        exact hstep.testBit 3 (by decide) ((getIsEval_iff _).mp (ih.1 h0))
      · rw [getIsLetOrConst_iff]
        exact hstep.testBit 4 (by decide) ((getIsLetOrConst_iff _).mp (ih.2 h0))
  · intro pid i hi
    exact ⟨setIsEval_testBit pid i hi, setIsLetOrConst_testBit pid i hi⟩
  · intro pid
    refine ⟨rfl, rfl, ?_, ?_⟩
    · exact Nat.mod_lt _ (by decide)
    · exact Nat.mod_lt _ (by decide)

theorem flags_monotone_witness :
    Relation.ReflTransGen RecordOp
      { arena := [], pid := Ident.fresh.SetIsEval }
      (build [5] { arena := [], pid := Ident.fresh.SetIsEval.SetIsLetOrConst }) ∧
    ({ arena := [], pid := Ident.fresh.SetIsEval } : Mem).pid.GetIsEval ≠ 0 ∧
    (build [5] { arena := [], pid := Ident.fresh.SetIsEval.SetIsLetOrConst }).pid.GetIsEval
      ≠ 0 :=
  ⟨Relation.ReflTransGen.tail
      (Relation.ReflTransGen.single
        (RecordOp.setIsLetOrConst { arena := [], pid := Ident.fresh.SetIsEval }))
      (RecordOp.findOrAddPidRef true true 5 (some 0) rfl),
   by decide,
   (flags_monotone.2.1 _ _
      (Relation.ReflTransGen.tail
        (Relation.ReflTransGen.single
          (RecordOp.setIsLetOrConst { arena := [], pid := Ident.fresh.SetIsEval }))
        (RecordOp.findOrAddPidRef true true 5 (some 0) rfl))).1 (by decide)⟩

/-! ## Safety of the walk, and agreement with `PushPidRef` -/

theorem walk_mono {dbg : Bool} {arena : List PidRefStack} {scopeId : Int} {fuel : Nat}
    {ref : Nat} {prevRef : Option Nat} {v : Nat × Option Nat}
    (h : FindOrAddPidRef.walk dbg arena scopeId fuel ref prevRef = .ok v) (k : Nat) :
    FindOrAddPidRef.walk dbg arena scopeId (fuel + k) ref prevRef = .ok v := by
  induction fuel generalizing ref prevRef with
  | zero => simp [FindOrAddPidRef.walk] at h
  | succ fuel ih =>
    rw [Nat.add_right_comm, FindOrAddPidRef.walk]
    rw [FindOrAddPidRef.walk] at h
    cases hr : arena[ref]? with
    | none => simp [hr] at h
    | some r =>
      simp only [hr] at h ⊢
      by_cases hid : r.id = scopeId
      · rw [if_pos hid] at h ⊢
        exact h
      · rw [if_neg hid] at h ⊢
        by_cases hstop : r.prev = none ∨ r.id < scopeId
        · rw [if_pos hstop] at h ⊢
          exact h
        · rw [if_neg hstop] at h ⊢
          cases hp : r.prev with
          | none => simp [hp] at h
          | some next =>
            simp only [hp] at h ⊢
            cases ha : FindOrAddPidRef.assertOrder dbg arena r next with
            | error e => simp [ha] at h
            | ok u =>
              simp only [ha] at h ⊢
              exact ih h

theorem walk_chain {dbg : Bool} {arena : List PidRefStack} {scopeId : Int} {a : Nat}
    {rest : List Nat} (prevRef : Option Nat)
    (hseg : Seg arena (some a) (a :: rest) none) (hdesc : Desc arena (a :: rest)) :
    ∃ found pf, FindOrAddPidRef.walk dbg arena scopeId (rest.length + 1) a prevRef =
      .ok (found, pf) ∧ found ∈ a :: rest := by
  induction rest generalizing a prevRef with
  | nil =>
    obtain ⟨_, r, hr, hnil⟩ := hseg
    have hprev : r.prev = none := hnil
    rw [List.length_nil, FindOrAddPidRef.walk]
    simp only [hr]
    by_cases hid : r.id = scopeId
    · rw [if_pos hid]
      exact ⟨a, prevRef, rfl, by simp⟩
    · rw [if_neg hid, if_pos (Or.inl hprev)]
      exact ⟨a, prevRef, rfl, by simp⟩
  | cons b rest ih =>
    obtain ⟨_, r, hr, h1⟩ := hseg
    have h1' := h1
    obtain ⟨hb, rb, hrb, _⟩ := h1
    rw [List.length_cons, FindOrAddPidRef.walk]
    simp only [hr]
    by_cases hid : r.id = scopeId
    · rw [if_pos hid]
      exact ⟨a, prevRef, rfl, by simp⟩
    · rw [if_neg hid]
      by_cases hstop : r.prev = none ∨ r.id < scopeId
      · rw [if_pos hstop]
        exact ⟨a, prevRef, rfl, by simp⟩
      · rw [if_neg hstop]
        have hle : rb.id ≤ r.id := by
          have := List.rel_of_pairwise_cons hdesc (List.mem_cons_self b rest)
          rw [idAt_eq hrb, idAt_eq hr] at this
          exact le_of_lt this
        simp only [hb, assertOrder_ok hrb (fun _ => hle)]
        obtain ⟨found, pf, hw, hmem⟩ :=
          ih (some a) (hb ▸ h1') (List.pairwise_cons.mp hdesc).2
        exact ⟨found, pf, hw, List.mem_cons_of_mem _ hmem⟩

/-- C19 (walk safety and termination).  On every reachable record with a non-empty chain
and for every `scopeId`, the `while (1)` walk of `FindOrAddPidRef` stops at an entry of the
chain within as many iterations as the chain has entries (that much fuel suffices), without
reading through a null or dangling link and, in a debug build, without the assertion
`ref->prev->id <= ref->id` ever failing; the walk `FindOrAddPidRef` itself performs gives
the same result, and the whole call returns normally. -/
theorem findOrAdd_walk_safe (m : Mem) (hm : Reachable m) (dbg : Bool) (scopeId : Int)
    (head : Nat) (hhead : GetTopRef m = some head) :
    ∃ (l : List Nat) (found : Nat) (pf : Option Nat),
      chainOf m = some l ∧ l.length ≤ m.arena.length ∧
      FindOrAddPidRef.walk dbg m.arena scopeId l.length head none = .ok (found, pf) ∧
      found ∈ l ∧
      FindOrAddPidRef.walk dbg m.arena scopeId m.arena.length head none = .ok (found, pf) ∧
      ∀ alloc, ∃ (m1 : Mem) (res : Option Nat),
        FindOrAddPidRef dbg m alloc scopeId = .ok (m1, res) := by
  obtain ⟨l, hseg, hdesc⟩ := hm.inv
  have hh : m.pid.m_pidRefStack = some head := hhead
  have hlen := hseg.length_le
  cases l with
  | nil =>
    have : m.pid.m_pidRefStack = none := hseg
    rw [this] at hh
    cases hh
  | cons a rest =>
    have ha : m.pid.m_pidRefStack = some a := hseg.1
    rw [hh] at ha
    cases ha
    rw [hh] at hseg
    obtain ⟨found, pf, hw, hmem⟩ := @walk_chain dbg m.arena scopeId head rest none hseg hdesc
    refine ⟨head :: rest, found, pf, chainOf_eq_some.mpr (hh ▸ hseg), hlen, hw, hmem, ?_, ?_⟩
    · have := walk_mono hw (m.arena.length - (rest.length + 1))
      rw [List.length_cons] at hlen
      rwa [Nat.add_sub_cancel' hlen] at this
    · intro alloc
      rcases findOrAdd_spec (hh ▸ hseg) hdesc dbg scopeId with
        ⟨x, _, _, hx⟩ | ⟨_, hno, m2, hi, lo, hyes, _, _, _, _⟩
      · exact ⟨m, some x, hx alloc⟩
      · cases alloc with
        | false => exact ⟨m, none, hno⟩
        | true => exact ⟨m2, _, hyes⟩

theorem findOrAdd_walk_safe_witness :
    (Reachable (build [7, 5, 1] Mem.fresh) ∧ GetTopRef (build [7, 5, 1] Mem.fresh) = some 0) ∧
    ∃ (l : List Nat) (found : Nat) (pf : Option Nat),
      chainOf (build [7, 5, 1] Mem.fresh) = some l ∧
      l.length ≤ (build [7, 5, 1] Mem.fresh).arena.length ∧
      FindOrAddPidRef.walk true (build [7, 5, 1] Mem.fresh).arena 3 l.length 0 none =
        .ok (found, pf) ∧
      found ∈ l ∧
      FindOrAddPidRef.walk true (build [7, 5, 1] Mem.fresh).arena 3
        (build [7, 5, 1] Mem.fresh).arena.length 0 none = .ok (found, pf) ∧
      ∀ alloc, ∃ (m1 : Mem) (res : Option Nat),
        FindOrAddPidRef true (build [7, 5, 1] Mem.fresh) alloc 3 = .ok (m1, res) :=
  ⟨⟨Reachable.build (Reachable.fresh [] Ident.fresh rfl) _, rfl⟩,
   findOrAdd_walk_safe (build [7, 5, 1] Mem.fresh)
     (Reachable.build (Reachable.fresh [] Ident.fresh rfl) _) true 3 0 rfl⟩
theorem pushPidRef_new (dbg : Bool) (m : Mem) (scopeId k : Int)
    (hnonneg : dbg = true → 0 ≤ scopeId) :
    PushPidRef dbg { m with arena := m.arena ++ [PidRefStack.ctor k] } scopeId
      (some m.arena.length) = .ok (linkHead m scopeId) := by
  have hguard : ¬ (dbg = true ∧ ¬ scopeId ≥ 0) := fun h => h.2 (hnonneg h.1)
  simp only [PushPidRef]
  rw [if_neg hguard]
  simp [linkHead, PidRefStack.ctor]

/-- C20 (find-or-add agrees with a plain push at the innermost scope).  On a well-formed
chain that is empty or whose head id is less than `scopeId`, for every `scopeId` that
`PushPidRef` accepts (its assertion `blockId >= 0` holds, which only a build with assertions
checks), `FindOrAddPidRef(scopeId)` with a successful allocation produces exactly the memory
that `PushPidRef(scopeId, e)` produces for a freshly constructed entry `e`: the new entry is
the head, carries `scopeId`, and its `prev` is the old head.  If the old chain had strictly
decreasing ids, so has the new one. -/
theorem findOrAdd_agrees_with_push (m : Mem) (l : List Nat) (dbg : Bool) (scopeId k : Int)
    (hchain : chainOf m = some l)
    (hhead : ∀ f, l.head? = some f → idAt m.arena f < scopeId)
    (hnonneg : dbg = true → 0 ≤ scopeId) :
    ∃ (m1 : Mem) (e : PidRefStack),
      FindOrAddPidRef dbg m true scopeId = .ok (m1, some m.arena.length) ∧
      PushPidRef dbg { m with arena := m.arena ++ [PidRefStack.ctor k] } scopeId
        (some m.arena.length) = .ok m1 ∧
      GetTopRef m1 = some m.arena.length ∧
      m1.arena[m.arena.length]? = some e ∧ e.id = scopeId ∧ e.prev = GetTopRef m ∧
      chainOf m1 = some (m.arena.length :: l) ∧
      ((scopeIds m l).Sorted (· > ·) →
        (scopeIds m1 (m.arena.length :: l)).Sorted (· > ·)) := by
  have hseg := chainOf_eq_some.mp hchain
  have hins := inserted_head scopeId hseg
  have hl : m.pid.m_pidRefStack = l.head? := by
    cases l with
    | nil => exact hseg
    | cons a l => exact hseg.1
  refine ⟨linkHead m scopeId, _, (findOrAdd_push dbg hseg hhead).1,
    pushPidRef_new dbg m scopeId k hnonneg, rfl, hins.new, rfl, ?_,
    chainOf_eq_some.mpr hins.chain, ?_⟩
  · rw [GetTopRef, hl]
  · intro hs
    have hdesc := desc_iff_sorted.mpr hs
    have hlt : ∀ a ∈ l, idAt m.arena a < scopeId := by
      intro a ha
      cases l with
      | nil => simp at ha
      | cons f rest =>
        have hf := hhead f rfl
        rcases List.mem_cons.mp ha with rfl | har
        · exact hf
        · exact lt_trans (List.rel_of_pairwise_cons hdesc har) hf
    exact desc_iff_sorted.mp (hins.desc hseg hdesc (by simp) hlt)

theorem findOrAdd_agrees_with_push_witness :
    (chainOf (build [1] Mem.fresh) = some [0] ∧
      (∀ f, [0].head? = some f → idAt (build [1] Mem.fresh).arena f < 2) ∧
      (true = true → (0 : Int) ≤ 2)) ∧
    ∃ (m1 : Mem) (e : PidRefStack),
      FindOrAddPidRef true (build [1] Mem.fresh) true 2 =
        .ok (m1, some (build [1] Mem.fresh).arena.length) ∧
      PushPidRef true { build [1] Mem.fresh with
          arena := (build [1] Mem.fresh).arena ++ [PidRefStack.ctor 0] } 2
        (some (build [1] Mem.fresh).arena.length) = .ok m1 ∧
      GetTopRef m1 = some (build [1] Mem.fresh).arena.length ∧
      m1.arena[(build [1] Mem.fresh).arena.length]? = some e ∧ e.id = 2 ∧
      e.prev = GetTopRef (build [1] Mem.fresh) ∧
      chainOf m1 = some ((build [1] Mem.fresh).arena.length :: [0]) ∧
      ((scopeIds (build [1] Mem.fresh) [0]).Sorted (· > ·) →
        (scopeIds m1 ((build [1] Mem.fresh).arena.length :: [0])).Sorted (· > ·)) :=
  ⟨⟨rfl, by decide, fun _ => by decide⟩,
   findOrAdd_agrees_with_push (build [1] Mem.fresh) [0] true 2 0 rfl (by decide)
     (fun _ => by decide)⟩

/-! ## Spelling comparison and copy -/

theorem charsAreEqualChar_loop (n : Nat) (psz1 : List Nat) (psz2 : List Int)
    (h1 : n ≤ psz1.length) (h2 : n ≤ psz2.length) :
    ∃ b, HashTbl.CharsAreEqualChar.loop n psz1 psz2 = .ok b ∧
      (b = true ↔ ∀ i : Nat, i < n → (psz1[i]?).map Int.ofNat = psz2[i]?) := by
  induction n generalizing psz1 psz2 with
  | zero => exact ⟨true, rfl, by simp⟩
  | succ n ih =>
    cases psz1 with
    | nil => simp at h1
    | cons c1 t1 =>
      cases psz2 with
      | nil => simp at h2
      | cons c2 t2 =>
        rw [HashTbl.CharsAreEqualChar.loop]
        by_cases hc : (c1 : Int) ≠ c2
        · rw [if_pos hc]
          refine ⟨false, rfl, ?_⟩
          simp only [Bool.false_eq_true, false_iff, not_forall]
          refine ⟨0, Nat.succ_pos n, ?_⟩
          simpa using hc
        · rw [if_neg hc]
          have hceq : (c1 : Int) = c2 := not_not.mp hc
          obtain ⟨b, hb, hiff⟩ := ih t1 t2 (by simpa using h1) (by simpa using h2)
          refine ⟨b, hb, ?_⟩
          rw [hiff]
          constructor
          · intro h i hi
            cases i with
            | zero => simpa using hceq
            | succ j => simpa using h j (by omega)
          · intro h i hi
            simpa using h (i + 1) (by omega)

theorem copyStringChar_loop (n : Nat) (dst : List Nat) (i : Nat) (src : List Int)
    (h1 : i + n ≤ dst.length) (h2 : n ≤ src.length) :
    ∃ dst1, HashTbl.CopyStringChar.loop n dst i src = .ok (dst1, i + n) ∧
      dst1.length = dst.length ∧ (∀ j, j < i → dst1[j]? = dst[j]?) ∧
      (∀ j, j < n → dst1[i + j]? = (src[j]?).map (fun c => (c % 2 ^ 16).toNat)) := by
  induction n generalizing dst i src with
  | zero => exact ⟨dst, rfl, rfl, fun _ _ => rfl, by simp⟩
  | succ n ih =>
    cases src with
    | nil => simp at h2
    | cons c src1 =>
      have hi : i < dst.length := by omega
      rw [HashTbl.CopyStringChar.loop, if_pos hi]
      obtain ⟨dst1, hrun, hlen, hlow, hnew⟩ :=
        ih (dst.set i (c % 2 ^ 16).toNat) (i + 1) src1 (by simp; omega) (by simpa using h2)
      refine ⟨dst1, ?_, by simpa using hlen, ?_, ?_⟩
      · rw [hrun]
        congr 2
        omega
      · intro j hj
        rw [hlow j (by omega), List.getElem?_set_ne (by omega)]
      · intro j hj
        cases j with
        | zero =>
          rw [Nat.add_zero, hlow i (by omega)]
          simp [List.getElem?_set_self, hi]
        | succ k =>
          have := hnew k (by omega)
          rw [show i + (k + 1) = i + 1 + k by omega, this]
          simp

theorem charsAreEqualChar_spec (psz1 : List Nat) (psz2 : List Int) (cch2 : Int)
    (h1 : cch2 ≤ psz1.length) (h2 : cch2 ≤ psz2.length) :
    ∃ b, HashTbl.CharsAreEqualChar psz1 psz2 cch2 = .ok b ∧
      (b = true ↔ ∀ i : Nat, (i : Int) < cch2 → (psz1[i]?).map Int.ofNat = psz2[i]?) := by
  obtain ⟨b, hb, hiff⟩ := charsAreEqualChar_loop cch2.toNat psz1 psz2
    (by omega) (by omega)
  refine ⟨b, hb, ?_⟩
  rw [hiff]
  constructor
  · intro h i hi
    exact h i (by omega)
  · intro h i hi
    exact h i (by omega)

theorem copyStringChar_spec (dst : List Nat) (src : List Int) (cch : Int)
    (h0 : 0 ≤ cch) (h1 : cch < dst.length) (h2 : cch ≤ src.length) :
    ∃ dst1, HashTbl.CopyStringChar dst src cch = .ok dst1 ∧ dst1.length = dst.length ∧
      dst1[cch.toNat]? = some 0 ∧
      (∀ j, j < cch.toNat → dst1[j]? = (src[j]?).map (fun c => (c % 2 ^ 16).toNat)) := by
  obtain ⟨d, hrun, hlen, _, hnew⟩ := copyStringChar_loop cch.toNat dst 0 src
    (by omega) (by omega)
  have hlt : 0 + cch.toNat < d.length := by omega
  refine ⟨d.set (0 + cch.toNat) 0, ?_, by simpa using hlen, ?_, ?_⟩
  · simp only [HashTbl.CopyStringChar, hrun]
    rw [if_pos hlt]
  · rw [Nat.zero_add] at hlt ⊢
    simp [List.getElem?_set_self, hlt]
  · intro j hj
    rw [List.getElem?_set_ne (by omega)]
    have := hnew j hj
    rwa [Nat.zero_add] at this

/-- What holds of the spelling comparison and copy.  The narrow overload of `CharsAreEqual`,
for a length `cch2` not exceeding either buffer, returns true exactly when `psz1[i]` equals
`psz2[i]` for every `i < cch2` (so true for `cch2 <= 0`); it is case-sensitive: "Foo" and
"foo" compare unequal.  A spelling written by `CopyString(dst, src, cch)` is null-terminated
at index `cch`, and it satisfies `CharsAreEqual(dst, src, cch)` for the wide overloads
always and for the narrow overloads when every copied `char` has a non-negative value. -/
theorem charsAreEqual_exact :
    (∀ (psz1 : List Nat) (psz2 : List Int) (cch2 : Int),
      cch2 ≤ psz1.length → cch2 ≤ psz2.length →
      ∃ b, HashTbl.CharsAreEqualChar psz1 psz2 cch2 = .ok b ∧
        (b = true ↔
          ∀ i : Nat, (i : Int) < cch2 → (psz1[i]?).map Int.ofNat = psz2[i]?)) ∧
    (∀ (psz1 : List Nat) (psz2 : List Int) (cch2 : Int), cch2 ≤ 0 →
      HashTbl.CharsAreEqualChar psz1 psz2 cch2 = .ok true) ∧
    HashTbl.CharsAreEqualChar [70, 111, 111, 0] [102, 111, 111] 3 = .ok false ∧
    (∀ (dst : List Nat) (src : List Int) (cch : Int),
      0 ≤ cch → cch < dst.length → cch ≤ src.length →
      (∀ c ∈ src.take cch.toNat, 0 ≤ c ∧ c ≤ 255) →
      ∃ dst1, HashTbl.CopyStringChar dst src cch = .ok dst1 ∧
        dst1[cch.toNat]? = some 0 ∧
        HashTbl.CharsAreEqualChar dst1 src cch = .ok true) ∧
    (∀ (dst src : List Nat) (cch : Int),
      0 ≤ cch → cch < dst.length → cch ≤ src.length →
      ∃ dst1, HashTbl.CopyStringOle dst src cch = .ok dst1 ∧
        dst1[cch.toNat]? = some 0 ∧
        HashTbl.CharsAreEqualOle dst1 src cch = .ok true) := by
  refine ⟨charsAreEqualChar_spec, ?_, rfl, ?_, ?_⟩
  · intro psz1 psz2 cch2 h
    have : cch2.toNat = 0 := by omega
    simp [HashTbl.CharsAreEqualChar, this, HashTbl.CharsAreEqualChar.loop]
  · intro dst src cch h0 h1 h2 hpos
    obtain ⟨d, hrun, hlen, hz, hnew⟩ := copyStringChar_spec dst src cch h0 h1 h2
    obtain ⟨b, hb, hiff⟩ := charsAreEqualChar_spec d src cch (by omega) h2
    refine ⟨d, hrun, hz, ?_⟩
    have hbt : b = true := by
      rw [hiff]
      intro i hi
      have hin : i < cch.toNat := by omega
      rw [hnew i hin]
      have hsl : i < src.length := by omega
      rw [List.getElem?_eq_getElem hsl]
      have hmem : src[i] ∈ src.take cch.toNat := by
        rw [List.mem_take_iff_getElem]
        exact ⟨i, by omega, rfl⟩
      obtain ⟨hc0, hc1⟩ := hpos _ hmem
      simp only [Option.map_some', Option.some.injEq]
      have hmod : src[i] % 2 ^ 16 = src[i] := Int.emod_eq_of_lt hc0 (by omega)
      rw [hmod]
      exact Int.toNat_of_nonneg hc0
    rw [hb, hbt]
  · intro dst src cch h0 h1 h2
    have hn1 : cch.toNat < dst.length := by omega
    have hn2 : cch.toNat ≤ src.length := by omega
    have hlen : (src.take cch.toNat ++ dst.drop cch.toNat).length = dst.length := by
      simp
      omega
    refine ⟨(src.take cch.toNat ++ dst.drop cch.toNat).set cch.toNat 0, ?_, ?_, ?_⟩
    · simp only [HashTbl.CopyStringOle, js_memcpy_s]
      rw [if_neg (by omega), if_pos ⟨Nat.le_refl _, Nat.le_of_lt hn1, hn2⟩]
      simp only []
      rw [if_pos (by rw [hlen]; exact hn1)]
    · rw [List.getElem?_set_self (by rw [hlen]; exact hn1)]
    · have htake : (List.take cch.toNat src).length = cch.toNat := by
        simp
        omega
      have hlen2 : ((src.take cch.toNat ++ dst.drop cch.toNat).set cch.toNat 0).length =
          dst.length := by
        rw [List.length_set, hlen]
      simp only [HashTbl.CharsAreEqualOle]
      rw [if_pos ⟨h0, by rw [hlen2]; omega, hn2⟩]
      have hset : ((src.take cch.toNat ++ dst.drop cch.toNat).set cch.toNat 0).take
          cch.toNat = src.take cch.toNat := by
        rw [List.set_take, List.take_left' htake]
        exact List.set_eq_of_length_le (by rw [htake])
      rw [hset]
      simp

theorem charsAreEqual_exact_witness :
    (((3 : Int) ≤ ([70, 111, 111, 0] : List Nat).length ∧
        (3 : Int) ≤ ([70, 111, 111] : List Int).length) ∧
      ((0 : Int) ≤ 3 ∧ (3 : Int) < ([9, 9, 9, 9] : List Nat).length ∧
        (3 : Int) ≤ ([70, 111, 111] : List Int).length ∧
        ∀ c ∈ ([70, 111, 111] : List Int).take (3 : Int).toNat, 0 ≤ c ∧ c ≤ 255)) ∧
    (∃ b, HashTbl.CharsAreEqualChar [70, 111, 111, 0] [70, 111, 111] 3 = .ok b ∧
      (b = true ↔ ∀ i : Nat, (i : Int) < 3 →
        (([70, 111, 111, 0] : List Nat)[i]?).map Int.ofNat =
          ([70, 111, 111] : List Int)[i]?)) ∧
    (∃ dst1, HashTbl.CopyStringChar [9, 9, 9, 9] [70, 111, 111] 3 = .ok dst1 ∧
      dst1[(3 : Int).toNat]? = some 0 ∧
      HashTbl.CharsAreEqualChar dst1 [70, 111, 111] 3 = .ok true) :=
  ⟨⟨⟨by decide, by decide⟩, by decide, by decide, by decide, by decide⟩,
   charsAreEqual_exact.1 [70, 111, 111, 0] [70, 111, 111] 3 (by decide) (by decide),
   charsAreEqual_exact.2.2.2.1 [9, 9, 9, 9] [70, 111, 111] 3 (by decide) (by decide)
     (by decide) (by decide)⟩

/-- C18 (the defect in the narrow overloads).  For the `char` -23 (the byte 0xE9 where
`char` is signed) the narrow `CopyString` stores the sign-extended code unit 65513 and the
terminating null, and the narrow `CharsAreEqual` then compares 65513 with -23 and returns
false: the spelling just written does not compare equal to its source.  The wide sibling
overloads store the code unit 233 as it is and compare it equal. -/
theorem copyString_char_sign_extension :
    HashTbl.CopyStringChar [0, 0] [-23] 1 = .ok [65513, 0] ∧
    HashTbl.CharsAreEqualChar [65513, 0] [-23] 1 = .ok false ∧
    HashTbl.CopyStringOle [0, 0] [233] 1 = .ok [233, 0] ∧
    HashTbl.CharsAreEqualOle [233, 0] [233] 1 = .ok true :=
  ⟨rfl, rfl, rfl, rfl⟩

/-! ## The identifier table -/

theorem getD_set_self {l : List (List Nat)} {b : Nat} (x : List Nat) (h : b < l.length) :
    (l.set b x).getD b [] = x := by
  simp [List.getD_eq_getElem?_getD, List.getElem?_set_self h]

theorem getD_set_ne {l : List (List Nat)} {b c : Nat} (x : List Nat) (h : b ≠ c) :
    (l.set b x).getD c [] = l.getD c [] := by
  simp [List.getD_eq_getElem?_getD, List.getElem?_set_ne h]

/-- The wide `CopyString` into a new buffer of `cch + 1` code units writes the first `cch`
code units of the source and the terminating null. -/
theorem HashTbl.copyStringOle_new (psz : List Nat) (cch : Nat) (hc : cch ≤ psz.length) :
    HashTbl.CopyStringOle (List.replicate (cch + 1) 0) psz cch = .ok (psz.take cch ++ [0]) := by
  have hlt : ¬ ((cch : Int) < 0) := by omega
  have hlen : (psz.take cch).length = cch := by
    rw [List.length_take]
    omega
  simp only [HashTbl.CopyStringOle, hlt, if_false, Int.toNat_ofNat, js_memcpy_s,
    List.length_replicate]
  rw [if_pos ⟨le_refl _, by omega, hc⟩]
  simp only [List.drop_replicate, Nat.add_sub_cancel_left, List.length_append, hlen,
    List.length_replicate]
  rw [if_pos (by omega)]
  congr 1
  apply List.ext_getElem
  · simp
  · intro i h1 h2
    simp only [List.length_append, hlen, List.length_replicate] at h2
    rw [List.getElem_set]
    split
    · subst i
      simp [hlen]
    · rfl

/-- The wide `CharsAreEqual` on a record of length `cch` decides whether its spelling is the
first `cch` code units of the candidate. -/
theorem HashTbl.charsAreEqualOle_spelling (r : Ident) (prgch : List Nat) (cch : Nat)
    (hr : r.m_sz.length = r.m_cch + 1) (hcch : r.m_cch = cch) (hc : cch ≤ prgch.length) :
    HashTbl.CharsAreEqualOle r.m_sz prgch cch = .ok (decide (r.spelling = prgch.take cch)) := by
  simp only [HashTbl.CharsAreEqualOle, Int.toNat_ofNat, Ident.spelling, hcch]
  rw [if_pos ⟨by omega, by omega, hc⟩]

theorem Ident.spelling_length (r : Ident) (hr : r.m_sz.length = r.m_cch + 1) :
    r.spelling.length = r.m_cch := by
  simp only [Ident.spelling, List.length_take]
  omega

/-- The scan of a chain with the wide comparison finds the first record of the chain whose
spelling is the candidate's. -/
theorem HashTbl.scan_ole (pids : List Ident) (prgch : List Nat) (cch : Nat)
    (hc : cch ≤ prgch.length) :
    ∀ chain : List Nat,
      (∀ i ∈ chain, ∃ r, pids[i]? = some r ∧ r.m_sz.length = r.m_cch + 1) →
      HashTbl.FindExistingPid.scan CharType.ole pids prgch cch chain =
        .ok (chain.find? (fun i =>
          match pids[i]? with
          | some r => decide (r.spelling = prgch.take cch)
          | none => false)) := by
  intro chain
  induction chain with
  | nil => intro _; rfl
  | cons pid chain ih =>
    intro hall
    obtain ⟨r, hr, hlen⟩ := hall pid (List.mem_cons_self _ _)
    have ih1 := ih (fun i hi => hall i (List.mem_cons_of_mem _ hi))
    simp only [HashTbl.FindExistingPid.scan, hr, List.find?_cons]
    by_cases hcch : r.m_cch = cch
    · rw [if_pos hcch]
      have hcmp : CharType.ole.CharsAreEqual r.m_sz prgch cch =
          .ok (decide (r.spelling = prgch.take cch)) :=
        HashTbl.charsAreEqualOle_spelling r prgch cch hlen hcch hc
      rw [hcmp]
      by_cases hs : r.spelling = prgch.take cch
      · simp [hs]
      · simp only [hs, decide_False]
        exact ih1
    · rw [if_neg hcch]
      have hs : r.spelling ≠ prgch.take cch := by
        intro h
        have h1 := Ident.spelling_length r hlen
        rw [h, List.length_take] at h1
        omega
      simp only [hs, decide_False]
      exact ih1

theorem HashTbl.WF.create (hash : List Nat → Nat) (bits : Nat) :
    (HashTbl.Create bits).WF hash where
  size := by
    have : 0 < 2 ^ bits := Nat.two_pow_pos bits
    simp only [HashTbl.Create, List.length_replicate]
    omega
  valid := by
    intro b i h
    simp only [HashTbl.Create, List.getD_eq_getElem?_getD] at h
    by_cases hb : b < 2 ^ bits
    · simp [List.getElem?_replicate, hb] at h
    · simp [List.getElem?_replicate, hb] at h
  placed := by
    intro i pid h
    simp [HashTbl.Create] at h
  hashed := by
    intro i pid h
    simp [HashTbl.Create] at h
  inj := by
    intro i j pi pj h
    simp [HashTbl.Create] at h

/-- The lookup with the wide comparison on a well-formed table: it returns, and a record it
finds has the candidate's spelling, and when it finds none no record has that spelling. -/
theorem HashTbl.find_ole {hash : List Nat → Nat} {t : HashTbl} (hwf : t.WF hash)
    (prgch : List Nat) (cch : Nat) (hc : cch ≤ prgch.length) :
    (∃ i pid, t.FindExistingPid CharType.ole prgch cch (hash (prgch.take cch)) = .ok (some i) ∧
        t.pids[i]? = some pid ∧ pid.spelling = prgch.take cch) ∨
    (t.FindExistingPid CharType.ole prgch cch (hash (prgch.take cch)) = .ok none ∧
      ∀ (i : Nat) (pid : Ident), t.pids[i]? = some pid → pid.spelling ≠ prgch.take cch) := by
  have hscan := HashTbl.scan_ole t.pids prgch cch hc
    (t.buckets.getD (hash (prgch.take cch) &&& t.m_luMask) []) (by
      intro i hi
      have hlt := hwf.valid _ i hi
      refine ⟨t.pids[i], List.getElem?_eq_getElem hlt, ?_⟩
      exact (hwf.hashed i _ (List.getElem?_eq_getElem hlt)).2)
  simp only [HashTbl.FindExistingPid]
  rw [hscan]
  cases hf : (t.buckets.getD (hash (prgch.take cch) &&& t.m_luMask) []).find? (fun i =>
      match t.pids[i]? with
      | some r => decide (r.spelling = prgch.take cch)
      | none => false) with
  | some i =>
    left
    have hp := List.find?_some hf
    cases hi : t.pids[i]? with
    | none => simp [hi] at hp
    | some pid =>
      simp only [hi, decide_eq_true_eq] at hp
      exact ⟨i, pid, rfl, hi, hp⟩
  | none =>
    right
    refine ⟨rfl, ?_⟩
    intro i pid hi hs
    have hall := List.find?_eq_none.mp hf i
    have hmem := hwf.placed i pid hi
    rw [(hwf.hashed i pid hi).1, hs] at hmem
    have := hall hmem
    simp [hi, hs] at this

/-- The record that the wide `intern` creates for the first `cch` code units of `prgch`. -/
theorem HashTbl.insert_ole (t : HashTbl) (prgch : List Nat) (cch luHash : Nat)
    (hc : cch ≤ prgch.length) :
    t.Insert CharType.ole prgch cch luHash =
      .ok { pids := t.pids ++
              [HashTbl.newPid luHash cch (prgch.take cch ++ [0])],
            buckets := t.buckets.set (luHash &&& t.m_luMask)
              (t.buckets.getD (luHash &&& t.m_luMask) [] ++ [t.pids.length]),
            m_luMask := t.m_luMask,
            m_luCount := t.m_luCount + 1 } := by
  have h : CharType.ole.CopyString (List.replicate (cch + 1) 0) prgch cch =
      .ok (prgch.take cch ++ [0]) := HashTbl.copyStringOle_new prgch cch hc
  simp only [HashTbl.Insert, h]

theorem HashTbl.new_spelling (prgch : List Nat) (cch luHash : Nat) (hc : cch ≤ prgch.length) :
    (HashTbl.newPid luHash cch (prgch.take cch ++ [0])).spelling = prgch.take cch := by
  have hlen : (prgch.take cch).length = cch := by
    rw [List.length_take]
    omega
  simp only [Ident.spelling, HashTbl.newPid]
  rw [List.take_append_of_le_length (by omega), List.take_of_length_le (by omega)]

theorem HashTbl.WF.insert {hash : List Nat → Nat} {t t1 : HashTbl} (hwf : t.WF hash)
    (prgch : List Nat) (cch : Nat) (hc : cch ≤ prgch.length)
    (hnew : ∀ (i : Nat) (pid : Ident), t.pids[i]? = some pid → pid.spelling ≠ prgch.take cch)
    (hins : t.Insert CharType.ole prgch cch (hash (prgch.take cch)) = .ok t1) :
    t1.WF hash ∧ t1.m_luMask = t.m_luMask ∧
      (∃ pid, t1.pids[t.pids.length]? = some pid ∧ pid.spelling = prgch.take cch) ∧
      ∀ (i : Nat) (pid : Ident), t.pids[i]? = some pid → t1.pids[i]? = some pid := by
  rw [HashTbl.insert_ole t prgch cch _ hc] at hins
  injection hins with hins
  subst hins
  have hlen : (prgch.take cch).length = cch := by
    rw [List.length_take]
    omega
  have hsp := HashTbl.new_spelling prgch cch (hash (prgch.take cch)) hc
  have hb : hash (prgch.take cch) &&& t.m_luMask < t.buckets.length := by
    rw [hwf.size]
    exact Nat.lt_succ_of_le Nat.and_le_right
  have hcases : ∀ (i : Nat) (pid : Ident),
      (t.pids ++ [HashTbl.newPid (hash (prgch.take cch)) cch (prgch.take cch ++ [0])])[i]? =
        some pid →
      t.pids[i]? = some pid ∨
        (i = t.pids.length ∧
          pid = HashTbl.newPid (hash (prgch.take cch)) cch (prgch.take cch ++ [0])) := by
    intro i pid hi
    rcases Nat.lt_or_ge i t.pids.length with hlt | hge
    · left
      rwa [List.getElem?_append_left hlt] at hi
    · right
      rw [List.getElem?_append_right hge] at hi
      have hi0 : i - t.pids.length = 0 := by
        by_contra hne
        have : 1 ≤ i - t.pids.length := Nat.one_le_iff_ne_zero.mpr hne
        rw [List.getElem?_eq_none (by simpa using this)] at hi
        cases hi
      rw [hi0] at hi
      simp only [List.getElem?_cons_zero, Option.some.injEq] at hi
      exact ⟨by omega, hi.symm⟩
  refine ⟨⟨?_, ?_, ?_, ?_, ?_⟩, rfl, ⟨_, by simp, hsp⟩, ?_⟩
  · simp only [List.length_set]
    exact hwf.size
  · intro b i hi
    simp only [List.length_append, List.length_singleton]
    by_cases hsame : hash (prgch.take cch) &&& t.m_luMask = b
    · rw [← hsame, getD_set_self _ hb, List.mem_append] at hi
      rcases hi with hi | hi
      · have := hwf.valid _ i hi
        omega
      · simp only [List.mem_singleton] at hi
        omega
    · rw [getD_set_ne _ hsame] at hi
      have := hwf.valid _ i hi
      omega
  · intro i pid hi
    rcases hcases i pid hi with hold | ⟨rfl, rfl⟩
    · have hmem := hwf.placed i pid hold
      by_cases hsame : hash (prgch.take cch) &&& t.m_luMask = pid.m_luHash &&& t.m_luMask
      · show i ∈ (t.buckets.set _ _).getD _ []
        rw [← hsame, getD_set_self _ hb]
        rw [← hsame] at hmem
        exact List.mem_append_left _ hmem
      · show i ∈ (t.buckets.set _ _).getD _ []
        rw [getD_set_ne _ hsame]
        exact hmem
    · show _ ∈ (t.buckets.set _ _).getD (hash (prgch.take cch) &&& t.m_luMask) []
      rw [getD_set_self _ hb]
      simp
  · intro i pid hi
    rcases hcases i pid hi with hold | ⟨_, rfl⟩
    · exact hwf.hashed i pid hold
    · refine ⟨?_, ?_⟩
      · rw [hsp]
        rfl
      · simp [HashTbl.newPid, hlen]
  · intro i j pi pj hi hj hs
    rcases hcases i pi hi with holdi | ⟨rfl, rfl⟩
    · rcases hcases j pj hj with holdj | ⟨rfl, rfl⟩
      · exact hwf.inj i j pi pj holdi holdj hs
      · rw [hsp] at hs
        exact absurd hs (hnew i pi holdi)
    · rcases hcases j pj hj with holdj | ⟨rfl, rfl⟩
      · rw [hsp] at hs
        exact absurd hs.symm (hnew j pj holdj)
      · rfl
  · intro i pid hi
    show (t.pids ++ _)[i]? = some pid
    rw [List.getElem?_append_left (List.getElem?_eq_some_iff.mp hi).1]
    exact hi

theorem HashTbl.WF.grow {hash : List Nat → Nat} {t : HashTbl} (hwf : t.WF hash) :
    t.Grow.WF hash := by
  have hpos : 0 < t.buckets.length * HashTbl.GrowFactor := by
    rw [hwf.size]
    simp [HashTbl.GrowFactor]
  refine ⟨?_, ?_, ?_, ?_, ?_⟩
  · simp only [HashTbl.Grow, List.length_map, List.length_range]
    omega
  · intro b i hi
    simp only [HashTbl.Grow, List.getD_eq_getElem?_getD] at hi
    by_cases hb : b < t.buckets.length * HashTbl.GrowFactor
    · rw [List.getElem?_map, List.getElem?_range hb] at hi
      simp only [Option.map_some', Option.getD_some, List.mem_filter, List.mem_range] at hi
      exact hi.1
    · rw [List.getElem?_eq_none (by simpa using hb)] at hi
      simp at hi
  · intro i pid hi
    have hi0 : t.pids[i]? = some pid := hi
    have hlt : pid.m_luHash &&& (t.buckets.length * HashTbl.GrowFactor - 1) <
        t.buckets.length * HashTbl.GrowFactor :=
      Nat.lt_of_le_of_lt Nat.and_le_right (by omega)
    simp only [HashTbl.Grow, List.getD_eq_getElem?_getD]
    rw [List.getElem?_map, List.getElem?_range hlt]
    simp only [Option.map_some', Option.getD_some, List.mem_filter, List.mem_range]
    refine ⟨(List.getElem?_eq_some_iff.mp hi0).1, ?_⟩
    simp [hi0]
  · intro i pid hi
    exact hwf.hashed i pid hi
  · intro i j pi pj hi hj hs
    exact hwf.inj i j pi pj hi hj hs

/-- What a wide `intern` does on a well-formed table: with a succeeding allocation it
returns a record, the table stays well formed, the record returned has the spelling asked
for, and every record keeps its place and content. -/
theorem HashTbl.intern_spec {hash : List Nat → Nat} (dense : Nat → Nat → Bool)
    {t : HashTbl} (psz : List Nat) (cch : Nat) (hwf : t.WF hash) (hc : cch ≤ psz.length) :
    (∃ t1 r, HashTbl.PidHashNameLen CharType.ole hash dense true t psz cch = .ok (some (t1, r))) ∧
    ∀ (alloc : Bool) (t1 : HashTbl) (r : Nat),
      HashTbl.PidHashNameLen CharType.ole hash dense alloc t psz cch = .ok (some (t1, r)) →
      t1.WF hash ∧ (∃ pid, t1.pids[r]? = some pid ∧ pid.spelling = psz.take cch) ∧
        ∀ (i : Nat) (pid : Ident), t.pids[i]? = some pid → t1.pids[i]? = some pid := by
  have hins := HashTbl.insert_ole t psz cch (hash (psz.take cch)) hc
  rcases HashTbl.find_ole hwf psz cch hc with ⟨i, pid, hfind, hi, hs⟩ | ⟨hfind, hnew⟩
  · constructor
    · exact ⟨t, i, by simp only [HashTbl.PidHashNameLen, HashTbl.PidHashNameLenWithHash, hfind]⟩
    · intro alloc t1 r h
      simp only [HashTbl.PidHashNameLen, HashTbl.PidHashNameLenWithHash, hfind,
        Except.ok.injEq, Option.some.injEq, Prod.mk.injEq] at h
      obtain ⟨rfl, rfl⟩ := h
      exact ⟨hwf, ⟨pid, hi, hs⟩, fun _ _ h => h⟩
  · constructor
    · simp only [HashTbl.PidHashNameLen, HashTbl.PidHashNameLenWithHash, hfind, hins]
      simp only [Bool.true_eq_false, if_false]
      split
      · exact ⟨_, _, rfl⟩
      · exact ⟨_, _, rfl⟩
    · intro alloc t1 r h
      obtain ⟨hwf1, _, hnewrec, hold⟩ := hwf.insert psz cch hc hnew hins
      simp only [HashTbl.PidHashNameLen, HashTbl.PidHashNameLenWithHash, hfind, hins] at h
      split at h
      · cases h
      · split at h
        · simp only [Except.ok.injEq, Option.some.injEq, Prod.mk.injEq] at h
          obtain ⟨rfl, rfl⟩ := h
          exact ⟨hwf1.grow, hnewrec, hold⟩
        · simp only [Except.ok.injEq, Option.some.injEq, Prod.mk.injEq] at h
          obtain ⟨rfl, rfl⟩ := h
          exact ⟨hwf1, hnewrec, hold⟩

theorem HashTbl.Evolves.wf {hash : List Nat → Nat} {dense : Nat → Nat → Bool}
    {t t1 : HashTbl} (h : HashTbl.Evolves hash dense t t1) (hwf : t.WF hash) :
    t1.WF hash ∧ ∀ (i : Nat) (pid : Ident), t.pids[i]? = some pid → t1.pids[i]? = some pid := by
  induction h with
  | refl => exact ⟨hwf, fun _ _ hi => hi⟩
  | step alloc psz cch r _ hc hcall ih =>
    obtain ⟨hwf1, hstable⟩ := ih
    obtain ⟨hwf2, _, hstable2⟩ := (HashTbl.intern_spec dense psz cch hwf1 hc).2 _ _ _ hcall
    exact ⟨hwf2, fun i pid hi => hstable2 i pid (hstable i pid hi)⟩

theorem HashTbl.create_bucket (bits b : Nat) : (HashTbl.Create bits).buckets.getD b [] = [] := by
  simp only [HashTbl.Create, List.getD_eq_getElem?_getD, List.getElem?_replicate]
  split <;> rfl

/-- Interning one spelling twice, starting from a new table, for any character type, hash
function and load-factor test.  The first call creates record 0, whose buffer `sz` is what
the `CopyString` overload writes.  The second call returns record 0 again when the
`CharsAreEqual` overload finds `sz` equal to the spelling, and creates a second record, 1,
with the same buffer when it finds them unequal. -/
theorem HashTbl.intern_twice {α : Type} (ct : CharType α) (hash : List α → Nat)
    (dense : Nat → Nat → Bool) (bits : Nat) (psz : List α) (cch : Nat) (sz : List Nat)
    (hcopy : ct.CopyString (List.replicate (cch + 1) 0) psz cch = .ok sz) :
    ∃ t1 : HashTbl,
      HashTbl.PidHashNameLen ct hash dense true (HashTbl.Create bits) psz cch =
        .ok (some (t1, 0)) ∧
      t1.pids = [HashTbl.newPid (hash (psz.take cch)) cch sz] ∧
      (ct.CharsAreEqual sz psz cch = .ok true →
        HashTbl.PidHashNameLen ct hash dense true t1 psz cch = .ok (some (t1, 0))) ∧
      (ct.CharsAreEqual sz psz cch = .ok false →
        ∃ t2 : HashTbl,
          HashTbl.PidHashNameLen ct hash dense true t1 psz cch = .ok (some (t2, 1)) ∧
          t2.pids = [HashTbl.newPid (hash (psz.take cch)) cch sz,
            HashTbl.newPid (hash (psz.take cch)) cch sz]) := by
  have hpos : 0 < 2 ^ bits := Nat.two_pow_pos bits
  have hb : hash (psz.take cch) &&& (2 ^ bits - 1) < (List.replicate (2 ^ bits)
      ([] : List Nat)).length := by
    rw [List.length_replicate]
    exact Nat.lt_of_le_of_lt Nat.and_le_right (by omega)
  have hlim : ¬ (HashTbl.BucketLengthLimit < 1) := by decide
  have hlim2 : ¬ (HashTbl.BucketLengthLimit < 2) := by decide
  have hbucket := HashTbl.create_bucket bits (hash (psz.take cch) &&& (2 ^ bits - 1))
  have hmask : (HashTbl.Create bits).m_luMask = 2 ^ bits - 1 := rfl
  refine ⟨{ pids := [HashTbl.newPid (hash (psz.take cch)) cch sz],
            buckets := (List.replicate (2 ^ bits) []).set
              (hash (psz.take cch) &&& (2 ^ bits - 1)) [0],
            m_luMask := 2 ^ bits - 1, m_luCount := 1 }, ?_, rfl, ?_, ?_⟩
  · simp only [HashTbl.PidHashNameLen, HashTbl.PidHashNameLenWithHash, HashTbl.FindExistingPid,
      hmask, hbucket, HashTbl.FindExistingPid.scan, HashTbl.Insert, hcopy]
    simp only [Bool.true_eq_false, if_false]
    rw [if_neg]
    · rfl
    · intro h
      apply hlim
      have h1 := h.1
      simp only [HashTbl.Create, List.nil_append, List.length_nil] at h1
      rw [getD_set_self _ hb] at h1
      exact h1
  · intro heq
    simp only [HashTbl.PidHashNameLen, HashTbl.PidHashNameLenWithHash, HashTbl.FindExistingPid,
      getD_set_self _ hb, HashTbl.FindExistingPid.scan, List.getElem?_cons_zero,
      HashTbl.newPid, if_true, heq]
  · intro hne
    refine ⟨{ pids := [HashTbl.newPid (hash (psz.take cch)) cch sz,
                HashTbl.newPid (hash (psz.take cch)) cch sz],
              buckets := ((List.replicate (2 ^ bits) []).set
                (hash (psz.take cch) &&& (2 ^ bits - 1)) [0]).set
                (hash (psz.take cch) &&& (2 ^ bits - 1)) [0, 1],
              m_luMask := 2 ^ bits - 1, m_luCount := 2 }, ?_, rfl⟩
    have hb2 : hash (psz.take cch) &&& (2 ^ bits - 1) < ((List.replicate (2 ^ bits)
        ([] : List Nat)).set (hash (psz.take cch) &&& (2 ^ bits - 1)) [0]).length := by
      rw [List.length_set]
      exact hb
    simp only [HashTbl.PidHashNameLen, HashTbl.PidHashNameLenWithHash, HashTbl.FindExistingPid,
      getD_set_self _ hb, HashTbl.FindExistingPid.scan, List.getElem?_cons_zero,
      HashTbl.newPid, if_true, hne, HashTbl.Insert, hcopy]
    simp only [Bool.true_eq_false, if_false]
    rw [if_neg]
    · rfl
    · intro h
      apply hlim2
      have h1 := h.1
      rw [getD_set_self _ hb2] at h1
      exact h1

/-- Interning identity for wide spellings, for the table modelled from the spec.  On a table
that comes from a new table through wide `intern` calls, take any two wide `intern` calls,
the second made after any number of further ones: they return the same identifier record
exactly when their spellings (the first `cch` code units of each buffer) are the same list
of code units, that is, have equal length and identical code units; spellings that differ
in length or in any code unit, be it only in letter case, get distinct records. -/
theorem intern_identity_ole (hash : List Nat → Nat) (dense : Nat → Nat → Bool) (bits : Nat)
    (t t1 t1a t2 : HashTbl) (alloc1 alloc2 : Bool) (psz1 psz2 : List Nat)
    (cch1 cch2 r1 r2 : Nat)
    (hreach : HashTbl.Evolves hash dense (HashTbl.Create bits) t)
    (hc1 : cch1 ≤ psz1.length) (hc2 : cch2 ≤ psz2.length)
    (h1 : HashTbl.PidHashNameLen CharType.ole hash dense alloc1 t psz1 cch1 =
      .ok (some (t1, r1)))
    (hmid : HashTbl.Evolves hash dense t1 t1a)
    (h2 : HashTbl.PidHashNameLen CharType.ole hash dense alloc2 t1a psz2 cch2 =
      .ok (some (t2, r2))) :
    r1 = r2 ↔ psz1.take cch1 = psz2.take cch2 := by
  have hwf := (hreach.wf (HashTbl.WF.create hash bits)).1
  obtain ⟨hwf1, ⟨p1, hp1, hs1⟩, _⟩ := (HashTbl.intern_spec dense psz1 cch1 hwf hc1).2 _ _ _ h1
  obtain ⟨hwf1a, hst1⟩ := hmid.wf hwf1
  obtain ⟨hwf2, ⟨p2, hp2, hs2⟩, hst2⟩ :=
    (HashTbl.intern_spec dense psz2 cch2 hwf1a hc2).2 _ _ _ h2
  have hp1' : t2.pids[r1]? = some p1 := hst2 r1 p1 (hst1 r1 p1 hp1)
  constructor
  · rintro rfl
    rw [hp1'] at hp2
    cases hp2
    rw [← hs1, hs2]
  · intro hs
    exact hwf2.inj r1 r2 p1 p2 hp1' hp2 (by rw [hs1, hs2, hs])

theorem intern_identity_ole_witness :
    (HashTbl.Evolves HashTbl.sumHash HashTbl.dense75 (HashTbl.Create 1) (HashTbl.Create 1) ∧
      HashTbl.PidHashNameLen CharType.ole HashTbl.sumHash HashTbl.dense75 true
        (HashTbl.Create 1) [70, 111, 111] 3 =
          .ok (some (HashTbl.after [[70, 111, 111]] (HashTbl.Create 1), 0)) ∧
      HashTbl.Evolves HashTbl.sumHash HashTbl.dense75
        (HashTbl.after [[70, 111, 111]] (HashTbl.Create 1))
        (HashTbl.after [[70, 111, 111], [121]] (HashTbl.Create 1)) ∧
      HashTbl.PidHashNameLen CharType.ole HashTbl.sumHash HashTbl.dense75 true
        (HashTbl.after [[70, 111, 111], [121]] (HashTbl.Create 1)) [70, 111, 111] 3 =
          .ok (some (HashTbl.after [[70, 111, 111], [121]] (HashTbl.Create 1), 0)) ∧
      HashTbl.PidHashNameLen CharType.ole HashTbl.sumHash HashTbl.dense75 true
        (HashTbl.after [[70, 111, 111], [121]] (HashTbl.Create 1)) [102, 111, 111] 3 =
          .ok (some (HashTbl.after [[70, 111, 111], [121], [102, 111, 111]]
            (HashTbl.Create 1), 2))) ∧
    ((0 : Nat) = 0 ↔ ([70, 111, 111] : List Nat).take 3 = ([70, 111, 111] : List Nat).take 3) ∧
    ((0 : Nat) = 2 ↔
      ([70, 111, 111] : List Nat).take 3 = ([102, 111, 111] : List Nat).take 3) :=
  ⟨⟨HashTbl.Evolves.refl _, rfl,
    HashTbl.Evolves.step true [121] 1 1 (HashTbl.Evolves.refl _) (by decide) rfl, rfl, rfl⟩,
   intern_identity_ole HashTbl.sumHash HashTbl.dense75 1 (HashTbl.Create 1) _ _ _ true true
     [70, 111, 111] [70, 111, 111] 3 3 0 0 (HashTbl.Evolves.refl _) (by decide) (by decide) rfl
     (HashTbl.Evolves.step true [121] 1 1 (HashTbl.Evolves.refl _) (by decide) rfl) rfl,
   intern_identity_ole HashTbl.sumHash HashTbl.dense75 1 (HashTbl.Create 1) _ _ _ true true
     [70, 111, 111] [102, 111, 111] 3 3 0 2 (HashTbl.Evolves.refl _) (by decide) (by decide)
     rfl (HashTbl.Evolves.step true [121] 1 1 (HashTbl.Evolves.refl _) (by decide) rfl) rfl⟩

/-- A wide `intern` with a succeeding allocation returns a record, on every table that comes
from a new table through wide `intern` calls. -/
theorem intern_returns_ole (hash : List Nat → Nat) (dense : Nat → Nat → Bool) (bits : Nat)
    (t : HashTbl) (psz : List Nat) (cch : Nat)
    (hreach : HashTbl.Evolves hash dense (HashTbl.Create bits) t) (hc : cch ≤ psz.length) :
    ∃ t1 r, HashTbl.PidHashNameLen CharType.ole hash dense true t psz cch =
      .ok (some (t1, r)) :=
  (HashTbl.intern_spec dense psz cch (hreach.wf (HashTbl.WF.create hash bits)).1 hc).1

/-- C17 (interning identity: the defect in the narrow instantiation).  For the table modelled
from the spec, whatever the hash function, the load-factor test and the size of the new
table: interning twice the narrow spelling made of the one `char` -23 (the byte 0xE9 where
`char` is signed) creates two records, 0 and 1, both with the stored spelling [65513],
because the narrow `CopyString` stores the sign-extended code unit and the narrow
`CharsAreEqual` never finds it equal to its source; so two calls with identical spellings
return different records.  The same two calls with the narrow spelling "F" (the `char` 70)
and with the wide spelling of the one code unit 233 return record 0 both times. -/
theorem intern_char_sign_extension (dense : Nat → Nat → Bool) (bits : Nat) :
    (∀ hash : List Int → Nat, ∃ t1 t2 : HashTbl,
      HashTbl.PidHashNameLen CharType.char hash dense true (HashTbl.Create bits) [-23] 1 =
        .ok (some (t1, 0)) ∧
      HashTbl.PidHashNameLen CharType.char hash dense true t1 [-23] 1 = .ok (some (t2, 1)) ∧
      t2.pids.map Ident.spelling = [[65513], [65513]]) ∧
    (∀ hash : List Int → Nat, ∃ t1 : HashTbl,
      HashTbl.PidHashNameLen CharType.char hash dense true (HashTbl.Create bits) [70] 1 =
        .ok (some (t1, 0)) ∧
      HashTbl.PidHashNameLen CharType.char hash dense true t1 [70] 1 = .ok (some (t1, 0)) ∧
      t1.pids.map Ident.spelling = [[70]]) ∧
    (∀ hash : List Nat → Nat, ∃ t1 : HashTbl,
      HashTbl.PidHashNameLen CharType.ole hash dense true (HashTbl.Create bits) [233] 1 =
        .ok (some (t1, 0)) ∧
      HashTbl.PidHashNameLen CharType.ole hash dense true t1 [233] 1 = .ok (some (t1, 0)) ∧
      t1.pids.map Ident.spelling = [[233]]) := by
  refine ⟨?_, ?_, ?_⟩
  · intro hash
    obtain ⟨t1, h1, _, _, hne⟩ :=
      HashTbl.intern_twice CharType.char hash dense bits [-23] 1 [65513, 0]
        (show HashTbl.CopyStringChar [0, 0] [-23] 1 = .ok [65513, 0] from rfl)
    obtain ⟨t2, h2, hp⟩ :=
      hne (show HashTbl.CharsAreEqualChar [65513, 0] [-23] 1 = .ok false from rfl)
    exact ⟨t1, t2, h1, h2, by rw [hp]; rfl⟩
  · intro hash
    obtain ⟨t1, h1, hp, heq, _⟩ :=
      HashTbl.intern_twice CharType.char hash dense bits [70] 1 [70, 0]
        (show HashTbl.CopyStringChar [0, 0] [70] 1 = .ok [70, 0] from rfl)
    exact ⟨t1, h1, heq (show HashTbl.CharsAreEqualChar [70, 0] [70] 1 = .ok true from rfl),
      by rw [hp]; rfl⟩
  · intro hash
    obtain ⟨t1, h1, hp, heq, _⟩ :=
      HashTbl.intern_twice CharType.ole hash dense bits [233] 1 [233, 0]
        (show HashTbl.CopyStringOle [0, 0] [233] 1 = .ok [233, 0] from rfl)
    exact ⟨t1, h1, heq (show HashTbl.CharsAreEqualOle [233, 0] [233] 1 = .ok true from rfl),
      by rw [hp]; rfl⟩

end ChakraHash
